import Mathlib

/-!
# my_scull: sparse block store, pipe buffer and control commands

A shallow embedding of `chapter_6/my_scull/my_scull.c` and
`chapter_6/my_scull/my_pipe.c` (the `chapter_3` store is the same code without
the semaphore calls).

Conventions of the embedding.

* Data model LP64: `int` is 32 bits, `long`, `loff_t`, `ssize_t` are 64 bits
  signed, `size_t` and `unsigned long` are 64 bits unsigned.
* Unsigned arithmetic wraps modulo `2^64`; conversions between integer types
  reduce modulo the width of the target (`to_int`, `to_long`, `to_ulong`).
* Signed `int` arithmetic wraps as well (the kernel is built with
  `-fno-strict-overflow`): `int_mul`, `int_sub`.
* An execution that raises a divide error (a zero divisor, or the least value
  divided by `-1`) or touches memory outside an allocated region has no
  result: every operation returns an `Option`, and `none` stands for such an
  execution.
* Pointers into the chain of quantum sets are positions in a list; a pointer
  into the pipe buffer is its distance from the start of the buffer.
* `kmalloc` is an oracle: the `k`-th call either fails or hands out a region
  whose bytes are whatever the oracle says (the allocator does not clear
  memory). A request of `2^63` bytes or more always fails.
* User memory: a write is given the bytes readable at the user pointer, a read
  the number of bytes writable there; a copy that needs more faults.
* The semaphore is its counter. Executions are sequential, so a
  `down_interruptible` on a held semaphore can only come back interrupted.
-/

namespace MyScull

/-- One byte of memory. -/
abbrev Byte := Nat

/-! ## Machine integers -/

def INT_MIN : Int := -2147483648
def INT_MAX : Int := 2147483647
def LONG_MIN : Int := -9223372036854775808
def LONG_MAX : Int := 9223372036854775807
/-- Number of values of an `unsigned long` / `size_t`. -/
def ULONG_MOD : Nat := 18446744073709551616

/-- Conversion to `unsigned long` / `size_t`. -/
def to_ulong (x : Int) : Nat := (x % 18446744073709551616).toNat

/-- Conversion to `long` / `loff_t` / `ssize_t`. -/
def to_long (x : Int) : Int :=
  (x + 9223372036854775808) % 18446744073709551616 - 9223372036854775808

/-- Conversion to `int`. -/
def to_int (x : Int) : Int := (x + 2147483648) % 4294967296 - 2147483648

/-- Product of two `int`s. -/
def int_mul (a b : Int) : Int := to_int (a * b)

/-- Difference of two `int`s. -/
def int_sub (a b : Int) : Int := to_int (a - b)

/-- Quotient `a / b` of C (truncating) at a signed type whose least value is
`lo`; a divide error for a zero divisor and for `lo / -1`. -/
def c_div (lo a b : Int) : Option Int :=
  if b = 0 ∨ (a = lo ∧ b = -1) then none else some (a.tdiv b)

/-- Remainder `a % b` of C at a signed type whose least value is `lo`. -/
def c_mod (lo a b : Int) : Option Int :=
  if b = 0 ∨ (a = lo ∧ b = -1) then none else some (a.tmod b)

/-! ## Error numbers -/

def EPERM : Int := 1
def EINTR : Int := 4
def EAGAIN : Int := 11
def ENOMEM : Int := 12
def EFAULT : Int := 14
def ENOTTY : Int := 25
def ERESTARTSYS : Int := 512

/-! ## The allocator and the semaphore -/

/-- The allocator as the driver sees it: `calls` requests have been made so
far, and `outcome k` tells whether request number `k` succeeds and, if so,
which byte the fresh region holds at each position. -/
structure Kmem where
  calls : Nat
  outcome : Nat → Option (Nat → Byte)

/-- The bytes of a fresh region of `size` bytes. -/
def fresh_region (junk : Nat → Byte) (size : Nat) : List Byte :=
  (List.range size).map junk

/-- One call `kmalloc(size, GFP_KERNEL)`: `none` is `NULL`. -/
def kmalloc (m : Kmem) (size : Nat) : Option (List Byte) × Kmem :=
  (if size < 9223372036854775808 then
      (m.outcome m.calls).map (fun junk => fresh_region junk size)
    else none,
   { m with calls := m.calls + 1 })

/-- `down_interruptible(&sem)`: the return value and the new counter. -/
def down_interruptible (sem : Nat) : Int × Nat :=
  if 0 < sem then (0, sem - 1) else (-EINTR, sem)

/-- `up(&sem)`. -/
def up (sem : Nat) : Nat := sem + 1

/-! ## The sparse block store -/

/-- `struct my_scull_qset` without its `next` field, which is the tail of the
list the node sits in. `data` is `NULL` or an array of pointers, each `NULL`
or a quantum. -/
structure my_scull_qset where
  data : Option (List (Option (List Byte)))

/-- `struct my_scull_dev`: `data` is the chain from the first quantum set
(`[]` is `NULL`); `sem` is the counter of the semaphore. -/
structure my_scull_dev where
  data : List my_scull_qset
  quantum : Int
  qset : Int
  size : Nat
  sem : Nat

/-- `sizeof(struct my_scull_qset)`: two pointers. -/
def SIZEOF_QSET : Nat := 16

/-- `sizeof(char *)`. -/
def SIZEOF_PTR : Nat := 8

/-- `my_scull_trim`: every quantum, pointer array and node is freed; the size
is zeroed and the quantum and qset are taken from the two globals
`my_scull_quantum` and `my_scull_qset`. Returns the device and `0`. -/
def my_scull_trim (my_scull_quantum my_scull_qset : Int) (dev : my_scull_dev) :
    my_scull_dev × Int :=
  ({ dev with size := 0, quantum := my_scull_quantum, qset := my_scull_qset, data := [] }, 0)

/-- The `while (n--)` loop of `my_scull_follow`, standing on a node whose
successors are `succs`, with `n` rounds to go. Returns whether every
allocation succeeded, the successors afterwards, and the allocator. -/
def follow_loop : Nat → List my_scull_qset → Kmem → Bool × List my_scull_qset × Kmem
  | 0, succs, m => (true, succs, m)
  | n + 1, [], m =>
    match kmalloc m SIZEOF_QSET with
    | (none, m1) => (false, [], m1)
    | (some _, m1) =>
      match follow_loop n [] m1 with
      | (ok, succs1, m2) => (ok, { data := none } :: succs1, m2)
  | n + 1, q :: succs, m =>
    match follow_loop n succs m with
    | (ok, succs1, m1) => (ok, q :: succs1, m1)

/-- Number of rounds of `while (n--)` for an `int n`: `n` itself when it is
not negative; a negative counter wraps around before it reaches zero. -/
def follow_rounds (n : Int) : Nat := (n % 4294967296).toNat

/-- `my_scull_follow(dev, n)`: the pointer returned (`none` is `NULL`, else a
position in the chain), the device and the allocator afterwards. -/
def my_scull_follow (dev : my_scull_dev) (m : Kmem) (n : Int) :
    Option Nat × my_scull_dev × Kmem :=
  match dev.data with
  | [] =>
    -- allocate first qset explicitly if need be
    match kmalloc m SIZEOF_QSET with
    | (none, m1) => (none, dev, m1)
    | (some _, m1) =>
      match follow_loop (follow_rounds n) [] m1 with
      | (ok, succs1, m2) =>
        (if ok then some (follow_rounds n) else none,
         { dev with data := { data := none } :: succs1 }, m2)
  | q :: succs =>
    match follow_loop (follow_rounds n) succs m with
    | (ok, succs1, m1) =>
      (if ok then some (follow_rounds n) else none, { dev with data := q :: succs1 }, m1)

/-- What a call of `my_scull_read` or `my_scull_write` leaves behind: the
return value, the file position, the device, the allocator, and the bytes
that reached the user buffer. -/
structure IoResult where
  retval : Int
  f_pos : Int
  dev : my_scull_dev
  mem : Kmem
  out : List Byte

/-- The indices both `my_scull_read` and `my_scull_write` compute from the
file position. -/
structure Indices where
  item : Int
  rest : Int
  s_pos : Int
  q_pos : Int

/-- The index computation shared by read and write:
`item = (long)*f_pos / itemsize; rest = (long)*f_pos % itemsize;
s_pos = rest / quantum; q_pos = rest % quantum`, the first two computed in
`long` and stored in an `int`. -/
def indices (quantum itemsize f_pos : Int) : Option Indices := do
  let item ← c_div LONG_MIN f_pos itemsize
  let rest ← c_mod LONG_MIN f_pos itemsize
  let s_pos ← c_div INT_MIN (to_int rest) quantum
  let q_pos ← c_mod INT_MIN (to_int rest) quantum
  pure { item := to_int item, rest := to_int rest, s_pos := s_pos, q_pos := q_pos }

/-- The bytes of `blk` with those from position `pos` on replaced by `src`. -/
def overwrite (blk : List Byte) (pos : Nat) (src : List Byte) : List Byte :=
  blk.take pos ++ src ++ blk.drop (pos + src.length)

/-- The chain with slot `s` of the array `arr` of node `p` pointing to `blk`. -/
def store_block (chain : List my_scull_qset) (p : Nat) (arr : List (Option (List Byte)))
    (s : Nat) (blk : List Byte) : List my_scull_qset :=
  chain.set p { data := some (arr.set s (some blk)) }

/-- In `my_scull_write`: "allocate memory to store the pointers if need be".
Returns the array of node `p` (`none` if the allocation failed). -/
def alloc_pointers (dev : my_scull_dev) (m : Kmem) (p : Nat) (node : my_scull_qset) :
    Option (List (Option (List Byte))) × my_scull_dev × Kmem :=
  match node.data with
  | some arr => (some arr, dev, m)
  | none =>
    match kmalloc m ((to_ulong dev.qset * SIZEOF_PTR) % ULONG_MOD) with
    | (none, m1) => (none, dev, m1)
    | (some region, m1) =>
      let arr := List.replicate (region.length / SIZEOF_PTR) none
      (some arr, { dev with data := dev.data.set p { data := some arr } }, m1)

/-- In `my_scull_write`: "allocate memory for the quantum if need be".
Returns the quantum in slot `s` (`none` if the allocation failed). -/
def alloc_quantum (dev : my_scull_dev) (m : Kmem) (p : Nat) (arr : List (Option (List Byte)))
    (s : Nat) (slot : Option (List Byte)) : Option (List Byte) × my_scull_dev × Kmem :=
  match slot with
  | some blk => (some blk, dev, m)
  | none =>
    match kmalloc m (to_ulong dev.quantum) with
    | (none, m1) => (none, dev, m1)
    | (some blk, m1) => (some blk, { dev with data := store_block dev.data p arr s blk }, m1)

/-- The end of `my_scull_write`, once the quantum `blk` is there: clamp
`count` to the end of the quantum, `copy_from_user`, advance the position,
update the size, release the semaphore. -/
def write_tail (dev : my_scull_dev) (m : Kmem) (p : Nat) (arr : List (Option (List Byte)))
    (s : Nat) (blk : List Byte) (q_pos : Int) (buf : List Byte) (count : Nat) (f_pos : Int) :
    Option IoResult :=
  let room := int_sub dev.quantum q_pos
  let count := if count > to_ulong room then to_ulong room else count
  if q_pos < 0 ∨ blk.length < q_pos.toNat + count then none
  else if buf.length < count then
    -- copy_from_user faults: what could be read is copied, the rest zeroed
    let src := buf ++ List.replicate (count - buf.length) 0
    let chain := store_block dev.data p arr s (overwrite blk q_pos.toNat src)
    some { retval := -EFAULT, f_pos := f_pos,
           dev := { dev with data := chain, sem := up dev.sem }, mem := m, out := [] }
  else
    let chain := store_block dev.data p arr s (overwrite blk q_pos.toNat (buf.take count))
    let f_pos1 := to_long (((to_ulong f_pos + count) % ULONG_MOD : Nat) : Int)
    let size := if dev.size < to_ulong f_pos1 then to_ulong f_pos1 else dev.size
    some { retval := to_long count, f_pos := f_pos1,
           dev := { dev with data := chain, size := size, sem := up dev.sem },
           mem := m, out := [] }

/-- The `out:` label of `my_scull_write` and `my_scull_read` reached with
nothing transferred: the semaphore is released and `retval` returned. -/
def io_out (retval : Int) (f_pos : Int) (dev : my_scull_dev) (m : Kmem) : IoResult :=
  { retval := retval, f_pos := f_pos, dev := { dev with sem := up dev.sem }, mem := m, out := [] }

/-- The body of `my_scull_write` with the semaphore held. -/
def write_locked (dev : my_scull_dev) (m : Kmem) (itemsize : Int) (buf : List Byte)
    (count : Nat) (f_pos : Int) : Option IoResult :=
  match indices dev.quantum itemsize f_pos with
  | none => none
  | some ix =>
    -- follow the list up to the right position
    match my_scull_follow dev m ix.item with
    | (none, dev1, m1) => some (io_out (-ENOMEM) f_pos dev1 m1)
    | (some p, dev1, m1) =>
      match dev1.data[p]? with
      | none => none
      | some node =>
        match alloc_pointers dev1 m1 p node with
        | (none, dev2, m2) => some (io_out (-ENOMEM) f_pos dev2 m2)
        | (some arr, dev2, m2) =>
          if ix.s_pos < 0 then none
          else
            match arr[ix.s_pos.toNat]? with
            | none => none
            | some slot =>
              match alloc_quantum dev2 m2 p arr ix.s_pos.toNat slot with
              | (none, dev3, m3) => some (io_out (-ENOMEM) f_pos dev3 m3)
              | (some blk, dev3, m3) =>
                write_tail dev3 m3 p arr ix.s_pos.toNat blk ix.q_pos buf count f_pos

/-- `my_scull_write(filp, buf, count, f_pos)` on the device behind `filp`;
`buf` is what can be read at the user pointer. -/
def my_scull_write (dev : my_scull_dev) (m : Kmem) (buf : List Byte) (count : Nat)
    (f_pos : Int) : Option IoResult :=
  let itemsize := int_mul dev.quantum dev.qset
  match down_interruptible dev.sem with
  | (r, sem1) =>
    if r ≠ 0 then
      some { retval := -ERESTARTSYS, f_pos := f_pos, dev := dev, mem := m, out := [] }
    else write_locked { dev with sem := sem1 } m itemsize buf count f_pos

/-- The end of `my_scull_read`, once the quantum `blk` is there: clamp `count`
to the end of the quantum, `copy_to_user`, advance the position, release the
semaphore. -/
def read_tail (dev : my_scull_dev) (m : Kmem) (blk : List Byte) (q_pos : Int) (ucap : Nat)
    (count : Nat) (f_pos : Int) : Option IoResult :=
  let room := int_sub dev.quantum q_pos
  let count := if count > to_ulong room then to_ulong room else count
  if q_pos < 0 ∨ blk.length < q_pos.toNat + count then none
  else
    let src := (blk.drop q_pos.toNat).take count
    if ucap < count then
      -- copy_to_user faults after filling what could be written
      some { retval := -EFAULT, f_pos := f_pos, dev := { dev with sem := up dev.sem },
             mem := m, out := src.take ucap }
    else
      some { retval := to_long count,
             f_pos := to_long (((to_ulong f_pos + count) % ULONG_MOD : Nat) : Int),
             dev := { dev with sem := up dev.sem }, mem := m, out := src }

/-- The body of `my_scull_read` with the semaphore held. -/
def read_locked (dev : my_scull_dev) (m : Kmem) (itemsize : Int) (ucap : Nat)
    (count : Nat) (f_pos : Int) : Option IoResult :=
  if to_ulong f_pos ≥ dev.size then some (io_out 0 f_pos dev m)
  else
    let count :=
      if (to_ulong f_pos + count) % ULONG_MOD > dev.size then
        (dev.size + ULONG_MOD - to_ulong f_pos) % ULONG_MOD
      else count
    match indices dev.quantum itemsize f_pos with
    | none => none
    | some ix =>
      -- follow the list up to the right position
      match my_scull_follow dev m ix.item with
      | (none, dev1, m1) => some (io_out 0 f_pos dev1 m1)
      | (some p, dev1, m1) =>
        match dev1.data[p]? with
        | none => none
        | some node =>
          match node.data with
          | none => some (io_out 0 f_pos dev1 m1)
          | some arr =>
            if ix.s_pos < 0 then none
            else
              match arr[ix.s_pos.toNat]? with
              | none => none
              | some none => some (io_out 0 f_pos dev1 m1)
              | some (some blk) => read_tail dev1 m1 blk ix.q_pos ucap count f_pos

/-- `my_scull_read(filp, buf, count, f_pos)` on the device behind `filp`;
`ucap` is the number of bytes that can be written at the user pointer. -/
def my_scull_read (dev : my_scull_dev) (m : Kmem) (ucap : Nat) (count : Nat)
    (f_pos : Int) : Option IoResult :=
  let itemsize := int_mul dev.quantum dev.qset
  match down_interruptible dev.sem with
  | (r, sem1) =>
    if r ≠ 0 then
      some { retval := -ERESTARTSYS, f_pos := f_pos, dev := dev, mem := m, out := [] }
    else read_locked { dev with sem := sem1 } m itemsize ucap count f_pos

/-! ## Views of a store used to state its properties -/

/-- The quantum that slot `s` of a node points to, if any. -/
def node_block (node : my_scull_qset) (s : Nat) : Option (List Byte) :=
  node.data.bind (fun arr => (arr[s]?).join)

/-- The quantum that slot `s` of node `i` of the chain points to, if any. -/
def block_at (chain : List my_scull_qset) (i s : Nat) : Option (List Byte) :=
  (chain[i]?).bind (fun node => node_block node s)

/-- The number of entries of the pointer array of node `i`, if it has one. -/
def array_len (chain : List my_scull_qset) (i : Nat) : Option Nat :=
  (chain[i]?).bind (fun node => node.data.map List.length)

/-- Every pointer array of the store has `qset` entries and every quantum
`quantum` bytes: what the sizes passed to `kmalloc` make of a store. -/
def shaped (dev : my_scull_dev) : Prop :=
  ∀ (i : Nat) (node : my_scull_qset) (arr : List (Option (List Byte))),
    dev.data[i]? = some node → node.data = some arr →
    (arr.length : Int) = dev.qset ∧
    ∀ (s : Nat) (blk : List Byte), arr[s]? = some (some blk) → (blk.length : Int) = dev.quantum

/-- An allocator that never refuses a request below the size limit. -/
def generous (m : Kmem) : Prop := ∀ k, (m.outcome k).isSome = true

/-- The chain `chain` grown by empty nodes until position `p` exists. -/
def grown (chain : List my_scull_qset) (p : Nat) : List my_scull_qset :=
  chain ++ List.replicate (p + 1 - chain.length) { data := none }


/-! ## The pipe -/

/-- `struct my_scull_pipe` without its wait queues. `buffer` is `NULL` or the
region; `end_`, `rp` and `wp` are distances from the start of the region;
`sem` is the counter of the semaphore. -/
structure my_scull_pipe where
  buffer : Option (List Byte)
  end_ : Int
  buffersize : Int
  rp : Int
  wp : Int
  nreaders : Int
  nwriters : Int
  sem : Nat

/-- What a call of `my_scull_p_read` or `my_scull_p_write` leaves behind: the
return value, the device, and the bytes that reached the user buffer. -/
structure PipeResult where
  retval : Int
  dev : my_scull_pipe
  out : List Byte

/-- A pipe device as `my_scull_p_init` leaves it: zeroed, semaphore free. -/
def pipe_init : my_scull_pipe :=
  { buffer := none, end_ := 0, buffersize := 0, rp := 0, wp := 0,
    nreaders := 0, nwriters := 0, sem := 1 }

/-- `down(&sem)`: the new counter; on a held semaphore a sequential execution
never comes back. -/
def down (sem : Nat) : Option Nat := if 0 < sem then some (sem - 1) else none

/-- `my_scull_p_open` for a file opened with the given `f_mode` bits, where
`my_scull_p_buffer` is the module parameter. Returns the return value, the
device and the allocator. -/
def my_scull_p_open (my_scull_p_buffer : Int) (dev : my_scull_pipe) (m : Kmem)
    (fmode_read fmode_write : Bool) : Int × my_scull_pipe × Kmem :=
  match down_interruptible dev.sem with
  | (r, sem1) =>
    if r ≠ 0 then (-ERESTARTSYS, dev, m)
    else
      let dev := { dev with sem := sem1 }
      -- check if we need to allocate the buffer and do so
      let got : Option (List Byte) × Kmem :=
        match dev.buffer with
        | some b => (some b, m)
        | none => kmalloc m (to_ulong my_scull_p_buffer)
      match got with
      | (none, m1) => (-ENOMEM, { dev with sem := up dev.sem }, m1)
      | (some b, m1) =>
        let dev := { dev with buffer := some b, buffersize := my_scull_p_buffer,
                              end_ := my_scull_p_buffer, rp := 0, wp := 0 }
        let dev := if fmode_read then { dev with nreaders := to_int (dev.nreaders + 1) } else dev
        let dev := if fmode_write then { dev with nwriters := to_int (dev.nwriters + 1) } else dev
        (0, { dev with sem := up dev.sem }, m1)

/-- `my_scull_p_release` for a file opened with the given `f_mode` bits. -/
def my_scull_p_release (dev : my_scull_pipe) (fmode_read fmode_write : Bool) :
    Option (Int × my_scull_pipe) :=
  match down dev.sem with
  | none => none
  | some sem1 =>
    let dev := { dev with sem := sem1 }
    let dev := if fmode_read then { dev with nreaders := to_int (dev.nreaders - 1) } else dev
    let dev := if fmode_write then { dev with nwriters := to_int (dev.nwriters - 1) } else dev
    let dev :=
      if to_int (dev.nreaders + dev.nwriters) = 0 then
        -- kfree(dev->buffer); the other fields are not checked on open
        { dev with buffer := none }
      else dev
    some (0, { dev with sem := up dev.sem })

/-- `space_free(dev)`: how much space is free. -/
def space_free (dev : my_scull_pipe) : Option Int :=
  if dev.rp = dev.wp then some (int_sub dev.buffersize 1)
  else
    (c_mod LONG_MIN (dev.rp + dev.buffersize - dev.wp) dev.buffersize).map
      (fun r => to_int (r - 1))

/-- `my_scull_p_read(filp, buf, count, f_pos)`; `nonblock` is `O_NONBLOCK`
in `f_flags`, `ucap` the number of bytes writable at the user pointer. With
nothing to read a blocking call sleeps, and in a sequential execution only a
signal ends the sleep. -/
def my_scull_p_read (dev : my_scull_pipe) (nonblock : Bool) (ucap : Nat) (count : Nat) :
    Option PipeResult :=
  match down_interruptible dev.sem with
  | (r, sem1) =>
    if r ≠ 0 then some { retval := -ERESTARTSYS, dev := dev, out := [] }
    else
      let dev := { dev with sem := sem1 }
      if dev.rp = dev.wp then
        -- nothing to read: release the lock
        let dev := { dev with sem := up dev.sem }
        if nonblock then some { retval := -EAGAIN, dev := dev, out := [] }
        else some { retval := -ERESTARTSYS, dev := dev, out := [] }
      else
        -- ok, data is there, return something
        let count :=
          if dev.wp > dev.rp then min count (to_ulong (dev.wp - dev.rp))
          else min count (to_ulong (dev.end_ - dev.rp))
        match dev.buffer with
        | none => none
        | some b =>
          if dev.rp < 0 ∨ b.length < dev.rp.toNat + count then none
          else
            let src := (b.drop dev.rp.toNat).take count
            if ucap < count then
              some { retval := -EFAULT, dev := { dev with sem := up dev.sem },
                     out := src.take ucap }
            else
              let rp := dev.rp + count
              let rp := if rp = dev.end_ then 0 else rp
              some { retval := to_long count, dev := { dev with rp := rp, sem := up dev.sem },
                     out := src }

/-- `my_scull_p_get_write_space(dev, filp)`, called with the semaphore held:
the return value and the device. With no space a blocking call sleeps, and in
a sequential execution only a signal ends the sleep. -/
def my_scull_p_get_write_space (dev : my_scull_pipe) (nonblock : Bool) :
    Option (Int × my_scull_pipe) :=
  match space_free dev with
  | none => none
  | some free =>
    if free = 0 then
      let dev := { dev with sem := up dev.sem }
      if nonblock then some (-EAGAIN, dev) else some (-ERESTARTSYS, dev)
    else some (0, dev)

/-- `my_scull_p_write(filp, buf, count, f_pos)`; `buf` is what can be read at
the user pointer. -/
def my_scull_p_write (dev : my_scull_pipe) (nonblock : Bool) (buf : List Byte) (count : Nat) :
    Option PipeResult :=
  match down_interruptible dev.sem with
  | (r, sem1) =>
    if r ≠ 0 then some { retval := -ERESTARTSYS, dev := dev, out := [] }
    else
      match my_scull_p_get_write_space { dev with sem := sem1 } nonblock with
      | none => none
      | some (result, dev) =>
        if result ≠ 0 then some { retval := result, dev := dev, out := [] }
        else
          match space_free dev with
          | none => none
          | some free =>
            -- ok, space is there, accept something
            let count := min count (to_ulong free)
            let count :=
              if dev.wp ≥ dev.rp then min count (to_ulong (dev.end_ - dev.wp))
              else min count (to_ulong (dev.rp - dev.wp - 1))
            match dev.buffer with
            | none => none
            | some b =>
              if dev.wp < 0 ∨ b.length < dev.wp.toNat + count then none
              else if buf.length < count then
                let src := buf ++ List.replicate (count - buf.length) 0
                some { retval := -EFAULT,
                       dev := { dev with buffer := some (overwrite b dev.wp.toNat src),
                                         sem := up dev.sem },
                       out := [] }
              else
                let wp := dev.wp + count
                let wp := if wp = dev.end_ then 0 else wp
                some { retval := to_long count,
                       dev := { dev with
                                buffer := some (overwrite b dev.wp.toNat (buf.take count)),
                                wp := wp, sem := up dev.sem },
                       out := [] }

/-- The buffer states reached from a first open of a fresh device with
`my_scull_p_buffer = C` by calls of `my_scull_p_read` and `my_scull_p_write`. -/
inductive pipe_reachable (C : Int) : my_scull_pipe → Prop
  | opened (m : Kmem) (fr fw : Bool) (dev : my_scull_pipe) (m1 : Kmem) :
      my_scull_p_open C pipe_init m fr fw = (0, dev, m1) → pipe_reachable C dev
  | read (dev : my_scull_pipe) (nonblock : Bool) (ucap count : Nat) (r : PipeResult) :
      pipe_reachable C dev → my_scull_p_read dev nonblock ucap count = some r →
      pipe_reachable C r.dev
  | write (dev : my_scull_pipe) (nonblock : Bool) (buf : List Byte) (count : Nat)
      (r : PipeResult) :
      pipe_reachable C dev → my_scull_p_write dev nonblock buf count = some r →
      pipe_reachable C r.dev

/-! ## The control commands -/

/-- The two global sizing parameters `my_scull_quantum` and `my_scull_qset`. -/
structure Globals where
  my_scull_quantum : Int
  my_scull_qset : Int

def MY_SCULL_QUANTUM : Int := 4000
def MY_SCULL_QSET : Int := 1000

/-- The magic number of the command codes in `ioctl_test.c` (`0x6F`). -/
def MY_SCULL_IOC_MAGIC : Nat := 111

def IOC_NR (cmd : Nat) : Nat := cmd % 256
def IOC_TYPE (cmd : Nat) : Nat := cmd / 256 % 256
def IOC_SIZE (cmd : Nat) : Nat := cmd / 65536 % 16384
def IOC_DIR (cmd : Nat) : Nat := cmd / 1073741824 % 4
def IOC_WRITE : Nat := 1
def IOC_READ : Nat := 2

/-- The command `_IO(MY_SCULL_IOC_MAGIC, 0)`, not used by `ioctl_test.c`. -/
def MY_SCULL_IOCRESET : Nat := 0x6F00
def MY_SCULL_IOCSQUANTUM : Nat := 0x40046F01
def MY_SCULL_IOCSQSET : Nat := 0x40046F02
def MY_SCULL_IOCTQUANTUM : Nat := 0x6F03
def MY_SCULL_IOCTQSET : Nat := 0x6F04
def MY_SCULL_IOCGQUANTUM : Nat := 0x80046F05
def MY_SCULL_IOCGQSET : Nat := 0x80046F06
def MY_SCULL_IOCQQUANTUM : Nat := 0x6F07
def MY_SCULL_IOCQQSET : Nat := 0x6F08
def MY_SCULL_IOCXQUANTUM : Nat := 0xC0046F09
def MY_SCULL_IOCXQSET : Nat := 0xC0046F0A
def MY_SCULL_IOCHQUANTUM : Nat := 0x6F0B
def MY_SCULL_IOCHQSET : Nat := 0x6F0C

/-- The argument of a control command: its value, what `access_ok` says of it
as a pointer, the `int` that `__get_user` finds there (`none`: it faults), and
whether `__put_user` can store there. -/
structure UserArg where
  arg : Nat
  access_ok : Bool
  value : Option Int
  writable : Bool

/-- What `my_scull_ioctl` leaves behind: the return value, the globals, and
the `int` stored through the argument, if any. -/
structure IoctlResult where
  retval : Int
  globals : Globals
  put : Option Int

/-- `__get_user(x, ptr)`: the return value and the new value of `x` (zero on
a fault). -/
def get_user (u : UserArg) : Int × Int :=
  match u.value with
  | some v => (0, v)
  | none => (-EFAULT, 0)

/-- `__put_user(x, ptr)`: the return value and what was stored. -/
def put_user (x : Int) (u : UserArg) : Int × Option Int :=
  if u.writable then (0, some x) else (-EFAULT, none)

/-- `my_scull_ioctl(inode, filp, cmd, arg)`. `maxnr` is `MY_SCULL_IOC_MAXNR`,
whose header is not among the sources; `capable` is
`capable(CAP_SYS_ADMIN)`. -/
def my_scull_ioctl (maxnr : Nat) (g : Globals) (capable : Bool) (cmd : Nat) (u : UserArg) :
    IoctlResult :=
  if IOC_TYPE cmd ≠ MY_SCULL_IOC_MAGIC then { retval := -ENOTTY, globals := g, put := none }
  else if IOC_NR cmd > maxnr then { retval := -ENOTTY, globals := g, put := none }
  else
    let err : Bool :=
      if IOC_DIR cmd / IOC_READ % 2 = 1 then !u.access_ok
      else if IOC_DIR cmd / IOC_WRITE % 2 = 1 then !u.access_ok
      else false
    if err then { retval := -EFAULT, globals := g, put := none }
    else if cmd = MY_SCULL_IOCRESET then
      { retval := 0,
        globals := { my_scull_quantum := MY_SCULL_QUANTUM, my_scull_qset := MY_SCULL_QSET },
        put := none }
    else if cmd = MY_SCULL_IOCSQUANTUM then
      if !capable then { retval := -EPERM, globals := g, put := none }
      else
        { retval := (get_user u).1, globals := { g with my_scull_quantum := (get_user u).2 },
          put := none }
    else if cmd = MY_SCULL_IOCTQUANTUM then
      if !capable then { retval := -EPERM, globals := g, put := none }
      else { retval := 0, globals := { g with my_scull_quantum := to_int u.arg }, put := none }
    else if cmd = MY_SCULL_IOCGQUANTUM then
      { retval := (put_user g.my_scull_quantum u).1, globals := g,
        put := (put_user g.my_scull_quantum u).2 }
    else if cmd = MY_SCULL_IOCQQUANTUM then
      { retval := g.my_scull_quantum, globals := g, put := none }
    else if cmd = MY_SCULL_IOCXQUANTUM then
      if !capable then { retval := -EPERM, globals := g, put := none }
      else
        let tmp := g.my_scull_quantum
        let g1 := { g with my_scull_quantum := (get_user u).2 }
        if (get_user u).1 = 0 then
          { retval := (put_user tmp u).1, globals := g1, put := (put_user tmp u).2 }
        else { retval := (get_user u).1, globals := g1, put := none }
    else if cmd = MY_SCULL_IOCHQUANTUM then
      if !capable then { retval := -EPERM, globals := g, put := none }
      else
        { retval := g.my_scull_quantum, globals := { g with my_scull_quantum := to_int u.arg },
          put := none }
    else if cmd = MY_SCULL_IOCSQSET then
      if !capable then { retval := -EPERM, globals := g, put := none }
      else
        { retval := (get_user u).1, globals := { g with my_scull_qset := (get_user u).2 },
          put := none }
    else if cmd = MY_SCULL_IOCTQSET then
      if !capable then { retval := -EPERM, globals := g, put := none }
      else { retval := 0, globals := { g with my_scull_qset := to_int u.arg }, put := none }
    else if cmd = MY_SCULL_IOCGQSET then
      { retval := (put_user g.my_scull_qset u).1, globals := g,
        put := (put_user g.my_scull_qset u).2 }
    else if cmd = MY_SCULL_IOCQQSET then
      { retval := g.my_scull_qset, globals := g, put := none }
    else if cmd = MY_SCULL_IOCXQSET then
      if !capable then { retval := -EPERM, globals := g, put := none }
      else
        let tmp := g.my_scull_qset
        let g1 := { g with my_scull_qset := (get_user u).2 }
        if (get_user u).1 = 0 then
          { retval := (put_user tmp u).1, globals := g1, put := (put_user tmp u).2 }
        else { retval := (get_user u).1, globals := g1, put := none }
    else if cmd = MY_SCULL_IOCHQSET then
      if !capable then { retval := -EPERM, globals := g, put := none }
      else
        { retval := g.my_scull_qset, globals := { g with my_scull_qset := to_int u.arg },
          put := none }
    else { retval := -ENOTTY, globals := g, put := none }

/-- One control command as a caller issues it. -/
structure IoctlCall where
  capable : Bool
  cmd : Nat
  u : UserArg

/-- The globals after a sequence of control commands. -/
def ioctl_run (maxnr : Nat) (g : Globals) : List IoctlCall → Globals
  | [] => g
  | c :: cs => ioctl_run maxnr (my_scull_ioctl maxnr g c.capable c.cmd c.u).globals cs


/-- The shape of a pipe device that is open with capacity `C`: the region has
`C` bytes, `end_` is its end, both cursors are inside it and the semaphore is
free. -/
def pipe_inv (C : Nat) (dev : my_scull_pipe) : Prop :=
  ∃ (b : List Byte) (rp wp : Nat),
    dev.buffer = some b ∧ b.length = C ∧ dev.buffersize = (C : Int) ∧ dev.end_ = (C : Int) ∧
    dev.rp = (rp : Int) ∧ dev.wp = (wp : Int) ∧ rp < C ∧ wp < C ∧ dev.sem = 1

/-- Number of bytes `my_scull_p_read` hands out for a request of `count` bytes
when the cursors are at `rp ≠ wp` in a region of `C` bytes. -/
def read_run (C rp wp count : Nat) : Nat :=
  if wp > rp then min count (wp - rp) else min count (C - rp)

/-- The value of `space_free` for cursors at `rp`, `wp` in a region of `C`
bytes. -/
def free_of (C rp wp : Nat) : Nat :=
  if rp = wp then C - 1 else (rp + C - wp) % C - 1

/-- Number of bytes `my_scull_p_write` accepts for a request of `count` bytes. -/
def write_run (C rp wp count : Nat) : Nat :=
  if wp ≥ rp then min (min count (free_of C rp wp)) (C - wp)
  else min (min count (free_of C rp wp)) (rp - wp - 1)

/-- A cursor moved forward by `n`, back at the start when it reaches the end. -/
def wrap (C pos n : Nat) : Nat := if pos + n = C then 0 else pos + n

/-- An allocator that grants every request and hands out zeroed regions. -/
def okmem : Kmem := { calls := 0, outcome := fun _ => some (fun _ => 0) }

/-- An allocator that refuses every request. -/
def nomem : Kmem := { calls := 0, outcome := fun _ => none }

/-- `my_scull_open(inode, filp)`: `wronly` says whether the file is opened
write-only, in which case the device is trimmed under the semaphore; `g`
holds the globals `my_scull_trim` reads. Returns the return value and the
device. -/
def my_scull_open (g : Globals) (dev : my_scull_dev) (wronly : Bool) : Int × my_scull_dev :=
  if wronly then
    match down_interruptible dev.sem with
    | (r, sem1) =>
      if r ≠ 0 then (-ERESTARTSYS, dev)
      else
        let dev1 := (my_scull_trim g.my_scull_quantum g.my_scull_qset { dev with sem := sem1 }).1
        (0, { dev1 with sem := up dev1.sem })
  else (0, dev)

/-- The device `d1` is `d` with the same parameters, size and semaphore, a
chain at least as long, the same quanta in the same places, and every pointer
array either one of `d` or a fresh one of the size `my_scull_write` asks for. -/
def extends_dev (d d1 : my_scull_dev) : Prop :=
  d1.quantum = d.quantum ∧ d1.qset = d.qset ∧ d1.size = d.size ∧ d1.sem = d.sem ∧
  d.data.length ≤ d1.data.length ∧
  (∀ (i s : Nat), block_at d1.data i s = block_at d.data i s) ∧
  ∀ (i len : Nat), array_len d1.data i = some len →
    array_len d.data i = some len ∨
      len = ((to_ulong d.qset * SIZEOF_PTR) % ULONG_MOD) / SIZEOF_PTR

/-- Between the allocator states `m` and `m1` every request was granted. -/
def granted (m m1 : Kmem) : Prop :=
  m1.outcome = m.outcome ∧ m.calls ≤ m1.calls ∧
  ∀ k, m.calls ≤ k → k < m1.calls → (m.outcome k).isSome = true

/-- A request on the store as a caller issues it. -/
inductive StoreOp
  | write (buf : List Byte) (count : Nat) (f_pos : Int)
  | read (ucap count : Nat) (f_pos : Int)
  | trim (quantum qset : Int)

/-- The requests the VFS passes down to the driver: a position that is not
negative and a range that ends within `loff_t`. -/
def StoreOp.valid : StoreOp → Prop
  | StoreOp.write _ count f_pos => 0 ≤ f_pos ∧ f_pos + count ≤ LONG_MAX
  | StoreOp.read _ count f_pos => 0 ≤ f_pos ∧ f_pos + count ≤ LONG_MAX
  | StoreOp.trim _ _ => True

/-- A store, the allocator, and a ghost value: the largest end position
`offset + accepted count` of the successful writes since the last trim. -/
structure StoreState where
  dev : my_scull_dev
  mem : Kmem
  high : Nat

/-- One request on a store, with the ghost value kept up to date. A trim
takes the quantum and qset the globals hold at that moment. -/
def store_step (st : StoreState) : StoreOp → Option StoreState
  | StoreOp.write buf count f_pos =>
    (my_scull_write st.dev st.mem buf count f_pos).map (fun r =>
      { dev := r.dev, mem := r.mem,
        high := if (0 : Int) ≤ r.retval then max st.high (f_pos + r.retval).toNat else st.high })
  | StoreOp.read ucap count f_pos =>
    (my_scull_read st.dev st.mem ucap count f_pos).map (fun r =>
      { dev := r.dev, mem := r.mem, high := st.high })
  | StoreOp.trim quantum qset =>
    some { dev := (my_scull_trim quantum qset st.dev).1, mem := st.mem, high := 0 }

/-- A sequence of requests on a store. -/
def store_run (st : StoreState) : List StoreOp → Option StoreState
  | [] => some st
  | op :: ops => (store_step st op).bind (fun st1 => store_run st1 ops)

/-- A request that is sound for the store it is issued on: a position and a
count the VFS passes down, with the number of the quantum set within `int`;
a trim that finds a positive quantum and qset in the globals, with a product
within `int`. -/
def StoreOp.sound (dev : my_scull_dev) : StoreOp → Prop
  | StoreOp.write _ count f_pos =>
    0 ≤ f_pos ∧ f_pos + count ≤ LONG_MAX ∧ f_pos / (dev.quantum * dev.qset) ≤ INT_MAX
  | StoreOp.read _ count f_pos =>
    0 ≤ f_pos ∧ f_pos + count ≤ LONG_MAX ∧ f_pos / (dev.quantum * dev.qset) ≤ INT_MAX
  | StoreOp.trim quantum qset => 0 < quantum ∧ 0 < qset ∧ quantum * qset ≤ INT_MAX

/-- Every request of the sequence is sound for the store it meets. -/
def store_run_sound (st : StoreState) : List StoreOp → Prop
  | [] => True
  | op :: ops => op.sound st.dev ∧ ∀ st1, store_step st op = some st1 → store_run_sound st1 ops

/-- What holds of a store between sound requests: quantum `Q > 0`, qset
`S > 0`, `Q * S` within `int`, the store shaped, the semaphore free, and the
size within the sets of the chain. -/
def store_inv (dev : my_scull_dev) : Prop :=
  ∃ Q S : Nat, dev.quantum = (Q : Int) ∧ dev.qset = (S : Int) ∧ 0 < Q ∧ 0 < S ∧
    ((Q * S : Nat) : Int) ≤ INT_MAX ∧ shaped dev ∧ 0 < dev.sem ∧
    dev.size ≤ dev.data.length * (Q * S)

/-- The empty store with the given quantum and qset, semaphore free. -/
def empty_dev (quantum qset : Int) : my_scull_dev :=
  { data := [], quantum := quantum, qset := qset, size := 0, sem := 1 }

/-- The count of `my_scull_read` after it has been clamped to the size. -/
def size_clamp (size : Nat) (f_pos : Int) (count : Nat) : Nat :=
  if (to_ulong f_pos + count) % ULONG_MOD > size then
    (size + ULONG_MOD - to_ulong f_pos) % ULONG_MOD
  else count

/-- The count of `my_scull_read` and `my_scull_write` after it has been
clamped to the end of the quantum. -/
def room_clamp (quantum q_pos : Int) (count : Nat) : Nat :=
  if count > to_ulong (int_sub quantum q_pos) then to_ulong (int_sub quantum q_pos) else count

/-- What a read of `count` bytes at offset `off` hands out, told from the size
and the quanta of the store alone: the return value, the new file position
and the bytes that reach a user buffer of `ucap` bytes. -/
def read_view (dev : my_scull_dev) (ucap count off : Nat) : Int × Int × List Byte :=
  let Q := dev.quantum.toNat
  let S := dev.qset.toNat
  if off ≥ dev.size then (0, (off : Int), [])
  else
    match block_at dev.data (off / (Q * S)) (off % (Q * S) / Q) with
    | none => (0, (off : Int), [])
    | some blk =>
      let n := min (min count (dev.size - off)) (Q - off % (Q * S) % Q)
      let src := (blk.drop (off % (Q * S) % Q)).take n
      if ucap < n then (-EFAULT, (off : Int), src.take ucap)
      else ((n : Int), ((off + n : Nat) : Int), src)

/-- The state of the module that the file operations share: the globals
`my_scull_quantum` and `my_scull_qset`, and the array `scull_devices`. -/
structure Module where
  globals : Globals
  scull_devices : List my_scull_dev

/-- `my_scull_ioctl` run in the module: it reads and writes the two globals;
no statement of it touches `scull_devices` or `filp->private_data`. -/
def module_ioctl (maxnr : Nat) (md : Module) (capable : Bool) (cmd : Nat) (u : UserArg) :
    IoctlResult × Module :=
  let r := my_scull_ioctl maxnr md.globals capable cmd u
  (r, { md with globals := r.globals })

/-- `my_scull_read` run in the module on the device with number `minor`. -/
def module_read (md : Module) (minor : Nat) (m : Kmem) (ucap count : Nat) (f_pos : Int) :
    Option (IoResult × Module) :=
  (md.scull_devices[minor]?).bind (fun dev =>
    (my_scull_read dev m ucap count f_pos).map (fun r =>
      (r, { md with scull_devices := md.scull_devices.set minor r.dev })))

/-- `my_scull_write` run in the module on the device with number `minor`. -/
def module_write (md : Module) (minor : Nat) (m : Kmem) (buf : List Byte) (count : Nat)
    (f_pos : Int) : Option (IoResult × Module) :=
  (md.scull_devices[minor]?).bind (fun dev =>
    (my_scull_write dev m buf count f_pos).map (fun r =>
      (r, { md with scull_devices := md.scull_devices.set minor r.dev })))

/-- A check that can be run: every pointer array has `qset` entries and every
quantum `quantum` bytes. -/
def shaped_ok (dev : my_scull_dev) : Bool :=
  dev.data.all (fun node =>
    match node.data with
    | none => true
    | some arr =>
      decide ((arr.length : Int) = dev.qset) &&
      arr.all (fun slot =>
        match slot with
        | none => true
        | some blk => decide ((blk.length : Int) = dev.quantum)))

/-- The files that are open on a pipe device, counted by mode: read-only,
write-only, read-write. -/
structure PipeFiles where
  ro : Nat
  wo : Nat
  rw : Nat

/-- Number of open files. -/
def PipeFiles.total (f : PipeFiles) : Nat := f.ro + f.wo + f.rw

/-- One more file of the given mode; a file is opened for reading, for writing
or for both. -/
def files_open (f : PipeFiles) (fr fw : Bool) : Option PipeFiles :=
  match fr, fw with
  | true, false => some { f with ro := f.ro + 1 }
  | false, true => some { f with wo := f.wo + 1 }
  | true, true => some { f with rw := f.rw + 1 }
  | false, false => none

/-- One file of the given mode less, if there is one. -/
def files_close (f : PipeFiles) (fr fw : Bool) : Option PipeFiles :=
  match fr, fw with
  | true, false => if 0 < f.ro then some { f with ro := f.ro - 1 } else none
  | false, true => if 0 < f.wo then some { f with wo := f.wo - 1 } else none
  | true, true => if 0 < f.rw then some { f with rw := f.rw - 1 } else none
  | false, false => none

/-- A call that opens or closes a file on a pipe device. -/
inductive LifeOp
  | open (fr fw : Bool)
  | release (fr fw : Bool)

/-- A pipe device and the allocator, with two ghost values: the number of
regions freed so far and the files that are open. -/
structure LifeState where
  dev : my_scull_pipe
  mem : Kmem
  frees : Nat
  files : PipeFiles

/-- One call: a successful `my_scull_p_open`, or the `my_scull_p_release` of
a file that is open with that mode. `kfree` releases a region when the
buffer was there and is `NULL` afterwards. -/
def life_step (C : Int) (st : LifeState) : LifeOp → Option LifeState
  | LifeOp.open fr fw =>
    match files_open st.files fr fw with
    | none => none
    | some files =>
      match my_scull_p_open C st.dev st.mem fr fw with
      | (ret, dev, mem) =>
        if ret = 0 then some { dev := dev, mem := mem, frees := st.frees, files := files }
        else none
  | LifeOp.release fr fw =>
    match files_close st.files fr fw with
    | none => none
    | some files =>
      match my_scull_p_release st.dev fr fw with
      | none => none
      | some (_, dev) =>
        some { dev := dev, mem := st.mem,
               frees := st.frees + (if st.dev.buffer.isSome && dev.buffer.isNone then 1 else 0),
               files := files }

/-- A sequence of successful opens and matching releases. -/
def life_run (C : Int) (st : LifeState) : List LifeOp → Option LifeState
  | [] => some st
  | op :: ops => (life_step C st op).bind (fun st1 => life_run C st1 ops)

/-- What holds of a pipe device between opens and releases: the counts are
those of the open files, the region is there exactly when a file is open, and
every region allocated was freed or is the one held. -/
def life_inv (calls0 : Nat) (st : LifeState) (n : Nat) : Prop :=
  st.dev.sem = 1 ∧ st.dev.nreaders = ((st.files.ro + st.files.rw : Nat) : Int) ∧
  st.dev.nwriters = ((st.files.wo + st.files.rw : Nat) : Int) ∧ st.files.total ≤ n ∧
  (st.dev.buffer.isSome = true ↔ 0 < st.files.total) ∧
  st.mem.calls = calls0 + st.frees + (if st.dev.buffer.isSome then 1 else 0)

/-- The command codes `my_scull_ioctl` has a case for. -/
def defined_cmds : List Nat :=
  [MY_SCULL_IOCRESET, MY_SCULL_IOCSQUANTUM, MY_SCULL_IOCSQSET, MY_SCULL_IOCTQUANTUM,
   MY_SCULL_IOCTQSET, MY_SCULL_IOCGQUANTUM, MY_SCULL_IOCGQSET, MY_SCULL_IOCQQUANTUM,
   MY_SCULL_IOCQQSET, MY_SCULL_IOCXQUANTUM, MY_SCULL_IOCXQSET, MY_SCULL_IOCHQUANTUM,
   MY_SCULL_IOCHQSET]

/-- The commands that change a global and check `capable(CAP_SYS_ADMIN)`. -/
def guarded_cmds : List Nat :=
  [MY_SCULL_IOCSQUANTUM, MY_SCULL_IOCSQSET, MY_SCULL_IOCTQUANTUM, MY_SCULL_IOCTQSET,
   MY_SCULL_IOCXQUANTUM, MY_SCULL_IOCXQSET, MY_SCULL_IOCHQUANTUM, MY_SCULL_IOCHQSET]

/-! ## The pipe as a byte stream -/

/-- The bytes held between the cursors of a region `b` of `C` bytes, oldest
first: those from `rp` up to `wp`, going round the end of the region when
`wp` is behind `rp`. -/
def held_at (b : List Byte) (C rp wp : Nat) : List Byte :=
  if rp ≤ wp then (b.drop rp).take (wp - rp)
  else (b.drop rp).take (C - rp) ++ b.take wp

/-- The bytes a pipe device holds, oldest first. -/
def held (dev : my_scull_pipe) : List Byte :=
  match dev.buffer with
  | none => []
  | some b => held_at b dev.end_.toNat dev.rp.toNat dev.wp.toNat

/-- One call on the pipe: a read (its `O_NONBLOCK` flag, the room at the user
pointer and the count asked for) or a write (the flag, the bytes readable at
the user pointer and the count asked for). -/
inductive PipeCall where
  | read (nonblock : Bool) (ucap count : Nat)
  | write (nonblock : Bool) (buf : List Byte) (count : Nat)

/-- A pipe device together with the record of a run of calls: all bytes the
writes accepted and all bytes the reads returned, in order. -/
structure PipeTrace where
  dev : my_scull_pipe
  accepted : List Byte
  returned : List Byte

/-- One call on the device of a trace. A read that returns `n ≥ 0` returns
the `n` bytes it stored at the user pointer; a write that returns `n ≥ 0`
accepted the first `n` bytes at the user pointer; a call that returns an
error returns or accepts nothing. -/
def pipe_call (t : PipeTrace) : PipeCall → Option PipeTrace
  | PipeCall.read nonblock ucap count =>
    (my_scull_p_read t.dev nonblock ucap count).map (fun r =>
      PipeTrace.mk r.dev t.accepted (t.returned ++ (if 0 ≤ r.retval then r.out else [])))
  | PipeCall.write nonblock buf count =>
    (my_scull_p_write t.dev nonblock buf count).map (fun r =>
      PipeTrace.mk r.dev (t.accepted ++ (if 0 ≤ r.retval then buf.take r.retval.toNat else []))
        t.returned)

/-- A run of calls, one after the other. -/
def pipe_calls (t : PipeTrace) : List PipeCall → Option PipeTrace
  | [] => some t
  | c :: cs => (pipe_call t c).bind (fun t1 => pipe_calls t1 cs)

/-! ## Writing and reading back a whole byte sequence -/

/-- The caller's loop around `my_scull_write`: what is left of the data is
written at the advancing position until all of it is accepted; `fuel` bounds
the number of calls. Returns the device, the allocator and the position. -/
def write_all : Nat → my_scull_dev → Kmem → Int → List Byte →
    Option (my_scull_dev × Kmem × Int)
  | 0, dev, m, f_pos, data => if data.length = 0 then some (dev, m, f_pos) else none
  | fuel + 1, dev, m, f_pos, data =>
    if data.length = 0 then some (dev, m, f_pos)
    else
      match my_scull_write dev m data data.length f_pos with
      | none => none
      | some r =>
        if r.retval ≤ 0 then none
        else write_all fuel r.dev r.mem r.f_pos (data.drop r.retval.toNat)

/-- The caller's loop around `my_scull_read`: the store is read at the
advancing position until `n` bytes are returned; `fuel` bounds the number of
calls. Returns the bytes in the order they were returned. -/
def read_all : Nat → my_scull_dev → Kmem → Int → Nat → Option (List Byte)
  | 0, _, _, _, n => if n = 0 then some [] else none
  | fuel + 1, dev, m, f_pos, n =>
    if n = 0 then some []
    else
      match my_scull_read dev m n n f_pos with
      | none => none
      | some r =>
        if r.retval ≤ 0 then none
        else
          (read_all fuel r.dev r.mem r.f_pos (n - r.retval.toNat)).map (fun rest => r.out ++ rest)

/-- The store holds the first `k` bytes of `data`: every offset below `k`
lies in a quantum that is there and that has the byte of `data` at that
offset. -/
def holds (dev : my_scull_dev) (Q S : Nat) (data : List Byte) (k : Nat) : Prop :=
  ∀ o, o < k →
    ∃ blk, block_at dev.data (o / (Q * S)) (o % (Q * S) / Q) = some blk ∧
      blk[o % (Q * S) % Q]? = data[o]?
/-! ## Machine integers: lemmas -/

theorem to_int_of_range {x : Int} (h1 : INT_MIN ≤ x) (h2 : x ≤ INT_MAX) : to_int x = x := by
  unfold INT_MIN at h1
  unfold INT_MAX at h2
  unfold to_int
  omega

theorem to_long_of_range {x : Int} (h1 : LONG_MIN ≤ x) (h2 : x ≤ LONG_MAX) : to_long x = x := by
  unfold LONG_MIN at h1
  unfold LONG_MAX at h2
  unfold to_long
  omega

theorem to_ulong_natCast {n : Nat} (h : n < ULONG_MOD) : to_ulong (n : Int) = n := by
  unfold ULONG_MOD at h
  unfold to_ulong
  omega

theorem to_long_natCast {n : Nat} (h : (n : Int) ≤ LONG_MAX) : to_long (n : Int) = n := by
  unfold LONG_MAX at h
  unfold to_long
  omega

theorem follow_rounds_natCast {n : Nat} (h : (n : Int) ≤ INT_MAX) :
    follow_rounds (n : Int) = n := by
  unfold INT_MAX at h
  unfold follow_rounds
  omega

/-- The indices of an offset `off` in a store whose `quantum * qset` does not
overflow, as long as the number of the quantum set fits an `int`. -/
theorem indices_natCast (Q S off : Nat) (hQ : 0 < Q) (hS : 0 < S)
    (hQS : ((Q * S : Nat) : Int) ≤ INT_MAX) (hitem : ((off / (Q * S) : Nat) : Int) ≤ INT_MAX) :
    indices (Q : Int) (int_mul Q S) (off : Int) =
      some { item := ((off / (Q * S) : Nat) : Int), rest := ((off % (Q * S) : Nat) : Int),
             s_pos := ((off % (Q * S) / Q : Nat) : Int),
             q_pos := ((off % (Q * S) % Q : Nat) : Int) } := by
  unfold INT_MAX at hQS hitem
  have hpos : 0 < Q * S := Nat.mul_pos hQ hS
  have hmul : int_mul (Q : Int) (S : Int) = ((Q * S : Nat) : Int) := by
    unfold int_mul
    rw [← Nat.cast_mul]
    apply to_int_of_range
    · unfold INT_MIN
      omega
    · unfold INT_MAX
      omega
  have hrest_lt : off % (Q * S) < Q * S := Nat.mod_lt _ hpos
  have hrest : to_int ((off % (Q * S) : Nat) : Int) = ((off % (Q * S) : Nat) : Int) := by
    apply to_int_of_range
    · unfold INT_MIN
      omega
    · unfold INT_MAX
      omega
  have hitem2 : to_int ((off / (Q * S) : Nat) : Int) = ((off / (Q * S) : Nat) : Int) := by
    have h0 : (0 : Int) ≤ ((off / (Q * S) : Nat) : Int) := Int.natCast_nonneg _
    apply to_int_of_range
    · unfold INT_MIN
      omega
    · unfold INT_MAX
      omega
  have hne : ((Q * S : Nat) : Int) ≠ 0 := by omega
  have hneQ : (Q : Int) ≠ 0 := by omega
  have e1 : (off : Int).tdiv ((Q * S : Nat) : Int) = ((off / (Q * S) : Nat) : Int) := by
    rw [Int.tdiv_eq_ediv (Int.natCast_nonneg _) (Int.natCast_nonneg _)]
    exact (Int.natCast_div _ _).symm
  have e2 : (off : Int).tmod ((Q * S : Nat) : Int) = ((off % (Q * S) : Nat) : Int) := by
    rw [Int.tmod_eq_emod (Int.natCast_nonneg _) (Int.natCast_nonneg _)]
    exact (Int.natCast_mod _ _).symm
  have e3 : ((off % (Q * S) : Nat) : Int).tdiv (Q : Int) = ((off % (Q * S) / Q : Nat) : Int) := by
    rw [Int.tdiv_eq_ediv (Int.natCast_nonneg _) (Int.natCast_nonneg _)]
    exact (Int.natCast_div _ _).symm
  have e4 : ((off % (Q * S) : Nat) : Int).tmod (Q : Int) = ((off % (Q * S) % Q : Nat) : Int) := by
    rw [Int.tmod_eq_emod (Int.natCast_nonneg _) (Int.natCast_nonneg _)]
    exact (Int.natCast_mod _ _).symm
  have hS1 : ¬ ((S : Int) = -1) := by omega
  have hQ1 : ¬ ((Q : Int) = -1) := by omega
  have hQS1 : ¬ (((Q * S : Nat) : Int) = -1) := by omega
  simp only [indices, hmul, c_div, c_mod, hne, hneQ, hQS1, hQ1, and_false, or_self, if_false,
    Option.bind_eq_bind, Option.some_bind, e1, e2, hrest, e3, e4, hitem2, Option.pure_def]

/-! ## Following the chain -/

theorem kmalloc_outcome (m : Kmem) (size : Nat) : (kmalloc m size).2.outcome = m.outcome := rfl

theorem kmalloc_generous {m : Kmem} (hm : generous m) (size : Nat)
    (hsize : size < 9223372036854775808) :
    ∃ junk, kmalloc m size = (some (fresh_region junk size), { m with calls := m.calls + 1 }) := by
  have h := hm m.calls
  cases hj : m.outcome m.calls with
  | none => rw [hj] at h; cases h
  | some junk => exact ⟨junk, by simp [kmalloc, hsize, hj]⟩

/-- A region handed out by `kmalloc` has the size asked for. -/
theorem kmalloc_region (m : Kmem) (size : Nat) (region : List Byte) (m1 : Kmem)
    (h : kmalloc m size = (some region, m1)) : region.length = size := by
  unfold kmalloc at h
  simp only [Prod.mk.injEq] at h
  obtain ⟨h1, _⟩ := h
  split at h1
  · cases hj : m.outcome m.calls with
    | none => rw [hj] at h1; cases h1
    | some junk =>
      rw [hj] at h1
      simp only [Option.map_some', Option.some.injEq] at h1
      rw [← h1]
      simp [fresh_region]
  · cases h1

theorem fresh_region_length (junk : Nat → Byte) (size : Nat) :
    (fresh_region junk size).length = size := by
  simp [fresh_region]

/-- The tail of the chain after a walk that met no failed allocation: the old
tail, extended by empty nodes up to the length walked. -/
theorem follow_loop_true (n : Nat) : ∀ (succs : List my_scull_qset) (m : Kmem)
    (succs1 : List my_scull_qset) (m1 : Kmem), follow_loop n succs m = (true, succs1, m1) →
    succs1 = succs ++ List.replicate (n - succs.length) { data := none } ∧
    m1.outcome = m.outcome := by
  induction n with
  | zero =>
    intro succs m succs1 m1 h
    simp only [follow_loop, Prod.mk.injEq, true_and] at h
    obtain ⟨h1, h2⟩ := h
    subst h1 h2
    simp
  | succ n ih =>
    intro succs m succs1 m1 h
    cases succs with
    | nil =>
      simp only [follow_loop] at h
      split at h
      · simp at h
      · rename_i r m0 hk
        rcases hl : follow_loop n [] m0 with ⟨ok, s2, m2⟩
        rw [hl] at h
        simp only [Prod.mk.injEq] at h
        obtain ⟨h1, h2, h3⟩ := h
        subst h1 h2 h3
        obtain ⟨e1, e2⟩ := ih [] m0 s2 m2 hl
        have hk2 : m0.outcome = m.outcome := by
          have := kmalloc_outcome m SIZEOF_QSET
          rw [hk] at this
          exact this
        refine ⟨?_, by rw [e2, hk2]⟩
        rw [e1]
        simp [List.replicate_succ]
    | cons q succs =>
      simp only [follow_loop] at h
      rcases hl : follow_loop n succs m with ⟨ok, s2, m2⟩
      rw [hl] at h
      simp only [Prod.mk.injEq] at h
      obtain ⟨h1, h2, h3⟩ := h
      subst h1 h2 h3
      obtain ⟨e1, e2⟩ := ih succs m s2 m2 hl
      refine ⟨?_, e2⟩
      rw [e1]
      simp

/-- A walk no longer than the tail allocates nothing. -/
theorem follow_loop_covered (n : Nat) : ∀ (succs : List my_scull_qset) (m : Kmem),
    n ≤ succs.length → follow_loop n succs m = (true, succs, m) := by
  induction n with
  | zero => intro succs m _; rfl
  | succ n ih =>
    intro succs m h
    cases succs with
    | nil => simp at h
    | cons q succs =>
      simp only [List.length_cons, Nat.add_le_add_iff_right] at h
      simp [follow_loop, ih succs m h]

/-- With a generous allocator the walk succeeds. -/
theorem follow_loop_generous (n : Nat) : ∀ (succs : List my_scull_qset) (m : Kmem),
    generous m → ∃ succs1 m1, follow_loop n succs m = (true, succs1, m1) := by
  induction n with
  | zero => intro succs m _; exact ⟨succs, m, rfl⟩
  | succ n ih =>
    intro succs m hm
    cases succs with
    | nil =>
      obtain ⟨junk, hk⟩ := kmalloc_generous hm SIZEOF_QSET (by decide)
      have hm1 : generous { m with calls := m.calls + 1 } := hm
      obtain ⟨s1, m1, h1⟩ := ih [] _ hm1
      exact ⟨{ data := none } :: s1, m1, by simp [follow_loop, hk, h1]⟩
    | cons q succs =>
      obtain ⟨s1, m1, h1⟩ := ih succs m hm
      exact ⟨q :: s1, m1, by simp [follow_loop, h1]⟩

/-- What `my_scull_follow` has done when it returns a node: the node is the
one at position `follow_rounds n`, and the chain was extended by empty nodes
just far enough for it to exist. -/
theorem my_scull_follow_some {dev : my_scull_dev} {m : Kmem} {n : Int} {p : Nat}
    {dev1 : my_scull_dev} {m1 : Kmem} (h : my_scull_follow dev m n = (some p, dev1, m1)) :
    p = follow_rounds n ∧ dev1 = { dev with data := grown dev.data p } ∧
    m1.outcome = m.outcome := by
  unfold my_scull_follow at h
  split at h
  · rename_i hd
    split at h
    · simp at h
    · rename_i r m0 hk
      rcases hl : follow_loop (follow_rounds n) [] m0 with ⟨ok, s2, m2⟩
      rw [hl] at h
      cases ok with
      | false => simp at h
      | true =>
        simp only [if_true, Prod.mk.injEq, Option.some.injEq] at h
        obtain ⟨h1, h2, h3⟩ := h
        subst h1 h2 h3
        obtain ⟨e1, e2⟩ := follow_loop_true _ _ _ _ _ hl
        have hk2 : m0.outcome = m.outcome := by
          have := kmalloc_outcome m SIZEOF_QSET
          rw [hk] at this
          exact this
        refine ⟨rfl, ?_, by rw [e2, hk2]⟩
        rw [e1, hd]
        simp [grown, List.replicate_succ]
  · rename_i q succs hd
    rcases hl : follow_loop (follow_rounds n) succs m with ⟨ok, s2, m2⟩
    rw [hl] at h
    cases ok with
    | false => simp at h
    | true =>
      simp only [if_true, Prod.mk.injEq, Option.some.injEq] at h
      obtain ⟨h1, h2, h3⟩ := h
      subst h1 h2 h3
      obtain ⟨e1, e2⟩ := follow_loop_true _ _ _ _ _ hl
      refine ⟨rfl, ?_, e2⟩
      rw [e1, hd]
      simp [grown]

/-- When the chain already reaches the node asked for, `my_scull_follow`
returns it and changes nothing. -/
theorem my_scull_follow_covered (dev : my_scull_dev) (m : Kmem) (n : Int)
    (h : follow_rounds n < dev.data.length) :
    my_scull_follow dev m n = (some (follow_rounds n), dev, m) := by
  unfold my_scull_follow
  cases hd : dev.data with
  | nil => rw [hd] at h; simp at h
  | cons q succs =>
    rw [hd] at h
    simp only [List.length_cons] at h
    simp only []
    rw [follow_loop_covered _ succs m (by omega)]
    simp only [if_true, Prod.mk.injEq, true_and, and_true]
    cases dev
    simp only [my_scull_dev.mk.injEq, and_self, and_true] at hd ⊢
    exact hd.symm

/-- With a generous allocator `my_scull_follow` returns a node. -/
theorem my_scull_follow_generous (dev : my_scull_dev) (m : Kmem) (n : Int) (hm : generous m) :
    ∃ m1, my_scull_follow dev m n =
      (some (follow_rounds n), { dev with data := grown dev.data (follow_rounds n) }, m1) ∧
      generous m1 := by
  have key : ∃ p dev1 m1, my_scull_follow dev m n = (some p, dev1, m1) := by
    unfold my_scull_follow
    cases hd : dev.data with
    | nil =>
      obtain ⟨junk, hk⟩ := kmalloc_generous hm SIZEOF_QSET (by decide)
      have hm1 : generous { m with calls := m.calls + 1 } := hm
      obtain ⟨s1, m1, h1⟩ := follow_loop_generous (follow_rounds n) [] _ hm1
      exact ⟨follow_rounds n, { dev with data := { data := none } :: s1 }, m1, by simp [hk, h1]⟩
    | cons q succs =>
      obtain ⟨s1, m1, h1⟩ := follow_loop_generous (follow_rounds n) succs m hm
      exact ⟨follow_rounds n, { dev with data := q :: s1 }, m1, by simp [h1]⟩
  obtain ⟨p, dev1, m1, h⟩ := key
  obtain ⟨e1, e2, e3⟩ := my_scull_follow_some h
  subst e1 e2
  exact ⟨m1, h, fun k => by rw [e3]; exact hm k⟩

/-! ## The chain as a table of quanta -/

theorem grown_length (chain : List my_scull_qset) (p : Nat) :
    (grown chain p).length = max chain.length (p + 1) := by
  simp only [grown, List.length_append, List.length_replicate]
  omega

theorem grown_getElem? (chain : List my_scull_qset) (p i : Nat) :
    (grown chain p)[i]? =
      if i < chain.length then chain[i]? else if i ≤ p then some { data := none } else none := by
  unfold grown
  by_cases h : i < chain.length
  · rw [List.getElem?_append_left h, if_pos h]
  · rw [List.getElem?_append_right (by omega), if_neg h, List.getElem?_replicate]
    by_cases h2 : i ≤ p
    · rw [if_pos (by omega), if_pos h2]
    · rw [if_neg (by omega), if_neg h2]

theorem block_at_grown (chain : List my_scull_qset) (p i s : Nat) :
    block_at (grown chain p) i s = block_at chain i s := by
  unfold block_at
  rw [grown_getElem?]
  by_cases h : i < chain.length
  · rw [if_pos h]
  · rw [if_neg h, List.getElem?_eq_none (by omega)]
    by_cases h2 : i ≤ p
    · rw [if_pos h2]; rfl
    · rw [if_neg h2]

theorem block_at_set (chain : List my_scull_qset) (p : Nat) (node : my_scull_qset)
    (hp : p < chain.length) (i s : Nat) :
    block_at (chain.set p node) i s = if i = p then node_block node s else block_at chain i s := by
  unfold block_at
  rw [List.getElem?_set]
  by_cases h : p = i
  · subst h
    simp [hp]
  · rw [if_neg h, if_neg (fun e => h e.symm)]

theorem node_block_set (arr : List (Option (List Byte))) (s : Nat) (blk : List Byte)
    (hs : s < arr.length) (j : Nat) :
    node_block { data := some (arr.set s (some blk)) } j =
      if j = s then some blk else node_block { data := some arr } j := by
  simp only [node_block, Option.some_bind, List.getElem?_set]
  by_cases h : s = j
  · subst h
    simp [hs]
  · rw [if_neg h, if_neg (fun e => h e.symm)]

theorem overwrite_length (blk : List Byte) (pos : Nat) (src : List Byte)
    (h : pos + src.length ≤ blk.length) : (overwrite blk pos src).length = blk.length := by
  simp only [overwrite, List.length_append, List.length_take, List.length_drop]
  omega

theorem overwrite_getElem? (blk : List Byte) (pos : Nat) (src : List Byte)
    (h : pos + src.length ≤ blk.length) (j : Nat) :
    (overwrite blk pos src)[j]? =
      if pos ≤ j ∧ j < pos + src.length then src[j - pos]? else blk[j]? := by
  unfold overwrite
  have hl : (List.take pos blk).length = pos := by
    rw [List.length_take]; omega
  by_cases h1 : j < pos
  · rw [if_neg (by omega), List.append_assoc, List.getElem?_append_left (by omega),
      List.getElem?_take_of_lt h1]
  · by_cases h2 : j < pos + src.length
    · rw [if_pos ⟨by omega, h2⟩, List.append_assoc, List.getElem?_append_right (by omega),
        List.getElem?_append_left (by omega), hl]
    · rw [if_neg (by omega), List.getElem?_append_right
        (by rw [List.length_append, hl]; omega), List.length_append, hl, List.getElem?_drop]
      congr 1
      omega

theorem array_len_append_empty (chain : List my_scull_qset) (k i : Nat) :
    array_len (chain ++ List.replicate k { data := none }) i = array_len chain i := by
  unfold array_len
  by_cases h : i < chain.length
  · rw [List.getElem?_append_left h]
  · rw [List.getElem?_append_right (by omega), List.getElem?_replicate,
      List.getElem?_eq_none (by omega)]
    split <;> rfl

theorem array_len_set (chain : List my_scull_qset) (p : Nat) (node : my_scull_qset)
    (hp : p < chain.length) (i : Nat) :
    array_len (chain.set p node) i =
      if i = p then node.data.map List.length else array_len chain i := by
  unfold array_len
  rw [List.getElem?_set]
  by_cases h : p = i
  · subst h
    simp [hp]
  · rw [if_neg h, if_neg (fun e => h e.symm)]

/-- A store is shaped when its arrays have `qset` entries and its quanta
`quantum` bytes. -/
theorem shaped_iff (dev : my_scull_dev) :
    shaped dev ↔
      (∀ i len, array_len dev.data i = some len → (len : Int) = dev.qset) ∧
      (∀ i s blk, block_at dev.data i s = some blk → (blk.length : Int) = dev.quantum) := by
  constructor
  · intro h
    constructor
    · intro i len hl
      unfold array_len at hl
      cases hn : dev.data[i]? with
      | none => rw [hn] at hl; cases hl
      | some node =>
        rw [hn] at hl
        simp only [Option.some_bind] at hl
        cases ha : node.data with
        | none => rw [ha] at hl; cases hl
        | some arr =>
          rw [ha] at hl
          simp only [Option.map_some', Option.some.injEq] at hl
          rw [← hl]
          exact (h i node arr hn ha).1
    · intro i s blk hb
      unfold block_at at hb
      cases hn : dev.data[i]? with
      | none => rw [hn] at hb; cases hb
      | some node =>
        rw [hn] at hb
        simp only [Option.some_bind, node_block] at hb
        cases ha : node.data with
        | none => rw [ha] at hb; cases hb
        | some arr =>
          rw [ha] at hb
          simp only [Option.some_bind] at hb
          cases hs : arr[s]? with
          | none => rw [hs] at hb; cases hb
          | some slot =>
            rw [hs] at hb
            simp only [Option.join] at hb
            simp only [Option.some_bind, id] at hb
            subst hb
            exact (h i node arr hn ha).2 s blk hs
  · intro h i node arr hn ha
    constructor
    · apply h.1 i
      unfold array_len
      rw [hn]
      simp [ha]
    · intro s blk hs
      apply h.2 i s
      unfold block_at
      rw [hn]
      simp [node_block, ha, hs]

/-- The check `shaped_ok` is sound. -/
theorem shaped_of_ok (dev : my_scull_dev) (h : shaped_ok dev = true) : shaped dev := by
  intro i node arr hn ha
  unfold shaped_ok at h
  rw [List.all_eq_true] at h
  have hmem : node ∈ dev.data := List.getElem?_mem hn
  have h1 := h node hmem
  rw [ha] at h1
  simp only [Bool.and_eq_true, decide_eq_true_eq, List.all_eq_true] at h1
  refine ⟨h1.1, ?_⟩
  intro s blk hs
  have h2 := h1.2 (some blk) (List.getElem?_mem hs)
  simpa using h2

/-- Reading back what `overwrite` stored. -/
theorem overwrite_read (blk : List Byte) (pos : Nat) (src : List Byte)
    (h : pos + src.length ≤ blk.length) :
    ((overwrite blk pos src).drop pos).take src.length = src := by
  unfold overwrite
  have hl : (List.take pos blk).length = pos := by
    rw [List.length_take]
    omega
  rw [List.append_assoc, List.drop_left' hl, List.take_left' rfl]

theorem drop_take_getElem? (l : List Byte) (pos n i : Nat) :
    ((l.drop pos).take n)[i]? = if i < n then l[pos + i]? else none := by
  rw [List.getElem?_take]
  split
  · rw [List.getElem?_drop]
  · rfl

/-- Reading next to what `overwrite` stored. -/
theorem overwrite_read_other (blk : List Byte) (pos2 : Nat) (src2 : List Byte) (pos n : Nat)
    (h2 : pos2 + src2.length ≤ blk.length)
    (hd : pos + n ≤ pos2 ∨ pos2 + src2.length ≤ pos) :
    ((overwrite blk pos2 src2).drop pos).take n = (blk.drop pos).take n := by
  apply List.ext_getElem?
  intro i
  rw [drop_take_getElem?, drop_take_getElem?]
  by_cases hi : i < n
  · rw [if_pos hi, if_pos hi, overwrite_getElem? _ _ _ h2, if_neg (by omega)]
  · rw [if_neg hi, if_neg hi]

/-- An offset is its set number, slot number and byte index put together. -/
theorem offset_split (Q S off : Nat) :
    off = off / (Q * S) * (Q * S) + off % (Q * S) / Q * Q + off % (Q * S) % Q := by
  have h1 := Nat.div_add_mod off (Q * S)
  have h2 := Nat.div_add_mod (off % (Q * S)) Q
  rw [Nat.mul_comm (off / (Q * S)) (Q * S), Nat.mul_comm (off % (Q * S) / Q) Q]
  omega

/-! ## Offset decomposition -/

/-- C29. Offset decomposition: for `Q > 0`, `S > 0` with `Q * S` in the range
of `int` and an offset `o ≥ 0` whose set number `o / (Q * S)` fits the `int`
it is stored in, the indices computed by `my_scull_read` and `my_scull_write`
are `item = o / (Q*S)`, `rest = o mod (Q*S)`, `s_pos = rest / Q`,
`q_pos = rest mod Q`; they satisfy `0 ≤ s_pos < S`, `0 ≤ q_pos < Q` and
`item*Q*S + s_pos*Q + q_pos = o`, and another such offset with the same
`(item, s_pos, q_pos)` is the same offset. -/
theorem indices_decompose (Q S o : Nat) (hQ : 0 < Q) (hS : 0 < S)
    (hQS : ((Q * S : Nat) : Int) ≤ INT_MAX) (hitem : ((o / (Q * S) : Nat) : Int) ≤ INT_MAX) :
    ∃ ix, indices (Q : Int) (int_mul Q S) (o : Int) = some ix ∧
      ix.item = ((o / (Q * S) : Nat) : Int) ∧ ix.rest = ((o % (Q * S) : Nat) : Int) ∧
      ix.s_pos = ix.rest / Q ∧ ix.q_pos = ix.rest % Q ∧
      0 ≤ ix.s_pos ∧ ix.s_pos < S ∧ 0 ≤ ix.q_pos ∧ ix.q_pos < Q ∧
      ix.item * Q * S + ix.s_pos * Q + ix.q_pos = o ∧
      ∀ (o2 : Nat) (ix2 : Indices), ((o2 / (Q * S) : Nat) : Int) ≤ INT_MAX →
        indices (Q : Int) (int_mul Q S) (o2 : Int) = some ix2 →
        ix2.item = ix.item → ix2.s_pos = ix.s_pos → ix2.q_pos = ix.q_pos → o2 = o := by
  have key : ∀ x : Nat, ((x / (Q * S)) * Q * S + (x % (Q * S) / Q) * Q + x % (Q * S) % Q = x) := by
    intro x
    have h1 := Nat.div_add_mod (x % (Q * S)) Q
    have h2 := Nat.div_add_mod x (Q * S)
    calc (x / (Q * S)) * Q * S + (x % (Q * S) / Q) * Q + x % (Q * S) % Q
        = (Q * S) * (x / (Q * S)) + (Q * (x % (Q * S) / Q) + x % (Q * S) % Q) := by ring
      _ = x := by rw [h1, h2]
  have hpos : 0 < Q * S := Nat.mul_pos hQ hS
  have hs : o % (Q * S) / Q < S := by
    rw [Nat.div_lt_iff_lt_mul hQ, Nat.mul_comm S Q]
    exact Nat.mod_lt _ hpos
  have hq : o % (Q * S) % Q < Q := Nat.mod_lt _ hQ
  refine ⟨_, indices_natCast Q S o hQ hS hQS hitem, rfl, rfl, ?_, ?_, ?_, ?_, ?_, ?_, ?_, ?_⟩
  · exact Int.natCast_div _ _
  · exact Int.natCast_mod _ _
  · exact Int.natCast_nonneg _
  · show ((o % (Q * S) / Q : Nat) : Int) < S
    exact_mod_cast hs
  · exact Int.natCast_nonneg _
  · show ((o % (Q * S) % Q : Nat) : Int) < Q
    exact_mod_cast hq
  · show ((o / (Q * S) : Nat) : Int) * Q * S + ((o % (Q * S) / Q : Nat) : Int) * Q +
      ((o % (Q * S) % Q : Nat) : Int) = o
    exact_mod_cast key o
  · intro o2 ix2 hitem2 h2 e1 e2 e3
    rw [indices_natCast Q S o2 hQ hS hQS hitem2] at h2
    simp only [Option.some.injEq] at h2
    subst h2
    simp only at e1 e2 e3
    have e1n : o2 / (Q * S) = o / (Q * S) := by exact_mod_cast e1
    have e2n : o2 % (Q * S) / Q = o % (Q * S) / Q := by exact_mod_cast e2
    have e3n : o2 % (Q * S) % Q = o % (Q * S) % Q := by exact_mod_cast e3
    rw [← key o2, ← key o, e1n, e2n, e3n]

/-- Witness of C29: quantum 4000, qset 1000, offset 12345678. -/
theorem indices_decompose_witness :
    ∃ ix, indices (4000 : Nat) (int_mul (4000 : Nat) (1000 : Nat)) ((12345678 : Nat) : Int) =
      some ix ∧ ix.item * (4000 : Nat) * (1000 : Nat) + ix.s_pos * (4000 : Nat) + ix.q_pos =
        (12345678 : Nat) := by
  obtain ⟨ix, h, _, _, _, _, _, _, _, _, hsum, _⟩ :=
    indices_decompose 4000 1000 12345678 (by decide) (by decide) (by decide) (by decide)
  exact ⟨ix, h, hsum⟩

/-! ## Control commands -/

/-- C30, evaluated at the failing input: from the defaults (quantum 4000,
qset 1000) a privileged caller tells the quantum to be 0
(`MY_SCULL_IOCTQUANTUM` with argument 0); the command succeeds, and the
unprivileged query (`MY_SCULL_IOCQQUANTUM`) that follows returns 0, which is
not positive. -/
theorem query_quantum_zero :
    (my_scull_ioctl 12 { my_scull_quantum := MY_SCULL_QUANTUM, my_scull_qset := MY_SCULL_QSET }
        true MY_SCULL_IOCTQUANTUM
        { arg := 0, access_ok := true, value := none, writable := false }).retval = 0 ∧
    (my_scull_ioctl 12
        (ioctl_run 12 { my_scull_quantum := MY_SCULL_QUANTUM, my_scull_qset := MY_SCULL_QSET }
          [{ capable := true, cmd := MY_SCULL_IOCTQUANTUM,
             u := { arg := 0, access_ok := true, value := none, writable := false } }])
        false MY_SCULL_IOCQQUANTUM
        { arg := 0, access_ok := true, value := none, writable := false }).retval = 0 := by
  decide

/-! ## Closing the pipe -/

/-- C21, as stated, fails: a fresh pipe of capacity 4 is opened for reading
and writing, two bytes are written, and the file is released. Both counts are
zero and the region is freed, but the cursors are where the write left them:
`wp` is 2 and `rp` is 0. -/
theorem release_keeps_cursors :
    ∃ d1 m1 r d2,
      my_scull_p_open 4 pipe_init { calls := 0, outcome := fun _ => some (fun _ => 0) } true true
        = (0, d1, m1) ∧
      my_scull_p_write d1 false [7, 8] 2 = some r ∧ r.retval = 2 ∧
      my_scull_p_release r.dev true true = some (0, d2) ∧
      d2.nreaders = 0 ∧ d2.nwriters = 0 ∧ d2.buffer = none ∧ d2.rp = 0 ∧ d2.wp = 2 := by
  refine ⟨_, _, _, _, rfl, rfl, ?_, rfl, ?_, ?_, rfl, ?_, ?_⟩ <;> decide

/-- A successful `my_scull_p_open` leaves both cursors at the start. -/
theorem open_resets_cursors (C : Int) (d : my_scull_pipe) (m m2 : Kmem) (fr fw : Bool)
    (d2 : my_scull_pipe) (ho : my_scull_p_open C d m fr fw = (0, d2, m2)) :
    d2.rp = 0 ∧ d2.wp = 0 ∧ d2.end_ = C ∧ d2.buffersize = C := by
  unfold my_scull_p_open at ho
  by_cases hs : 0 < d.sem
  · simp only [down_interruptible, hs, if_true, ne_eq, not_true_eq_false, if_false] at ho
    split at ho
    · simp only [Prod.mk.injEq] at ho
      have := ho.1
      simp [ENOMEM] at this
    · simp only [Prod.mk.injEq] at ho
      obtain ⟨_, h2, _⟩ := ho
      subst h2
      cases fr <;> cases fw <;> simp
  · simp only [down_interruptible, hs, if_false] at ho
    simp [ERESTARTSYS, EINTR] at ho

/-- C21, amended: when `my_scull_p_release` brings both counts to zero the
region is freed (`buffer` becomes `NULL`); the cursors, `end_` and
`buffersize` are left as they were, and it is the next successful
`my_scull_p_open` that puts both cursors at the start of the region. -/
theorem release_frees_open_resets (dev d1 : my_scull_pipe) (fr fw : Bool) (ret : Int)
    (h : my_scull_p_release dev fr fw = some (ret, d1)) :
    ret = 0 ∧ d1.rp = dev.rp ∧ d1.wp = dev.wp ∧ d1.end_ = dev.end_ ∧
    d1.buffersize = dev.buffersize ∧
    (to_int (d1.nreaders + d1.nwriters) = 0 → d1.buffer = none) ∧
    (to_int (d1.nreaders + d1.nwriters) ≠ 0 → d1.buffer = dev.buffer) ∧
    ∀ (C : Int) (m m2 : Kmem) (fr2 fw2 : Bool) (d2 : my_scull_pipe),
      my_scull_p_open C d1 m fr2 fw2 = (0, d2, m2) → d2.rp = 0 ∧ d2.wp = 0 := by
  unfold my_scull_p_release down at h
  by_cases hs : 0 < dev.sem
  · simp only [hs, if_true] at h
    simp only [Option.some.injEq, Prod.mk.injEq] at h
    obtain ⟨h1, h2⟩ := h
    subst h2
    refine ⟨h1.symm, ?_, ?_, ?_, ?_, ?_, ?_, ?_⟩
    · cases fr <;> cases fw <;> simp <;> split <;> rfl
    · cases fr <;> cases fw <;> simp <;> split <;> rfl
    · cases fr <;> cases fw <;> simp <;> split <;> rfl
    · cases fr <;> cases fw <;> simp <;> split <;> rfl
    · intro hz
      cases fr <;> cases fw <;> simp at hz ⊢ <;> split <;> simp_all
    · intro hz
      cases fr <;> cases fw <;> simp at hz ⊢ <;> split <;> simp_all
    · intro C m m2 fr2 fw2 d2 ho
      exact ⟨(open_resets_cursors C _ m m2 fr2 fw2 d2 ho).1,
        (open_resets_cursors C _ m m2 fr2 fw2 d2 ho).2.1⟩
  · simp [hs] at h

/-- Witness of the amended C21. -/
theorem release_frees_open_resets_witness :
    ∃ d1, my_scull_p_release
        { buffer := some [7, 8, 0, 0], end_ := 4, buffersize := 4, rp := 0, wp := 2,
          nreaders := 1, nwriters := 1, sem := 1 } true true = some (0, d1) ∧
      d1.rp = 0 ∧ d1.wp = 2 ∧ (to_int (d1.nreaders + d1.nwriters) = 0 → d1.buffer = none) := by
  refine ⟨_, rfl, ?_⟩
  have h := release_frees_open_resets
    { buffer := some [7, 8, 0, 0], end_ := 4, buffersize := 4, rp := 0, wp := 2,
      nreaders := 1, nwriters := 1, sem := 1 } _ true true 0 rfl
  exact ⟨h.2.1, h.2.2.1, h.2.2.2.2.2.1⟩

/-! ## The pipe: one read, one write -/

theorem to_ulong_of_nonneg {x : Int} (h1 : 0 ≤ x) (h2 : x ≤ LONG_MAX) :
    to_ulong x = x.toNat := by
  unfold LONG_MAX at h2
  unfold to_ulong
  omega

/-- A read on a device of shape `pipe_inv` whose cursors differ. -/
theorem pipe_read_nonempty (C : Nat) (b : List Byte) (rp wp : Nat) (nr nw : Int)
    (hC : (C : Int) ≤ INT_MAX) (hb : b.length = C) (hrp : rp < C) (hwp : wp < C)
    (hne : rp ≠ wp) (nonblock : Bool) (ucap count : Nat) (hu : read_run C rp wp count ≤ ucap) :
    my_scull_p_read
        { buffer := some b, end_ := C, buffersize := C, rp := rp, wp := wp,
          nreaders := nr, nwriters := nw, sem := 1 } nonblock ucap count =
      some { retval := (read_run C rp wp count : Nat),
             dev := { buffer := some b, end_ := C, buffersize := C,
                      rp := (wrap C rp (read_run C rp wp count) : Nat), wp := wp,
                      nreaders := nr, nwriters := nw, sem := 1 },
             out := (b.drop rp).take (read_run C rp wp count) } := by
  unfold INT_MAX at hC
  have hne2 : ¬ ((rp : Int) = (wp : Int)) := by omega
  have hclamp : (if (wp : Int) > (rp : Int) then min count (to_ulong ((wp : Int) - (rp : Int)))
      else min count (to_ulong ((C : Int) - (rp : Int)))) = read_run C rp wp count := by
    unfold read_run
    by_cases h : wp > rp
    · rw [if_pos (by omega), if_pos h, to_ulong_of_nonneg (by omega) (by unfold LONG_MAX; omega)]
      congr 1
      omega
    · rw [if_neg (by omega), if_neg h, to_ulong_of_nonneg (by omega) (by unfold LONG_MAX; omega)]
      congr 1
      omega
  have hn : read_run C rp wp count ≤ C - rp := by
    unfold read_run
    split <;> omega
  generalize read_run C rp wp count = n at *
  have hbound : ¬ ((rp : Int) < 0 ∨ b.length < rp + n) := by
    rw [hb]
    omega
  have hcap : ¬ (ucap < n) := by omega
  have hret : to_long (n : Int) = (n : Int) := to_long_natCast (by unfold LONG_MAX; omega)
  have hwrap : (if (rp : Int) + (n : Int) = (C : Int) then (0 : Int) else (rp : Int) + (n : Int))
      = ((wrap C rp n : Nat) : Int) := by
    unfold wrap
    by_cases h : rp + n = C
    · rw [if_pos (by omega), if_pos h]; rfl
    · rw [if_neg (by omega), if_neg h]; push_cast; rfl
  unfold my_scull_p_read
  simp only [down_interruptible, up, Nat.lt_one_iff, zero_lt_one, if_true, ne_eq,
    not_true_eq_false, if_false, hne2, hclamp, hcap, hret, hwrap, Int.toNat_natCast]
  rw [if_neg hbound]

/-- A read on a device of shape `pipe_inv` whose cursors coincide. -/
theorem pipe_read_empty (dev : my_scull_pipe) (hs : dev.sem = 1) (he : dev.rp = dev.wp)
    (nonblock : Bool) (ucap count : Nat) :
    my_scull_p_read dev nonblock ucap count =
      some { retval := if nonblock then -EAGAIN else -ERESTARTSYS, dev := dev, out := [] } := by
  unfold my_scull_p_read
  cases dev
  simp only at hs he
  subst hs
  cases nonblock <;> simp [down_interruptible, up, he]

/-- A read whose user buffer is too short for what would be handed out. -/
theorem pipe_read_fault (C : Nat) (b : List Byte) (rp wp : Nat) (nr nw : Int)
    (hC : (C : Int) ≤ INT_MAX) (hb : b.length = C) (hrp : rp < C) (hwp : wp < C)
    (hne : rp ≠ wp) (nonblock : Bool) (ucap count : Nat) (hu : ucap < read_run C rp wp count) :
    my_scull_p_read
        { buffer := some b, end_ := C, buffersize := C, rp := rp, wp := wp,
          nreaders := nr, nwriters := nw, sem := 1 } nonblock ucap count =
      some { retval := -EFAULT,
             dev := { buffer := some b, end_ := C, buffersize := C, rp := rp, wp := wp,
                      nreaders := nr, nwriters := nw, sem := 1 },
             out := ((b.drop rp).take (read_run C rp wp count)).take ucap } := by
  unfold INT_MAX at hC
  have hne2 : ¬ ((rp : Int) = (wp : Int)) := by omega
  have hclamp : (if (wp : Int) > (rp : Int) then min count (to_ulong ((wp : Int) - (rp : Int)))
      else min count (to_ulong ((C : Int) - (rp : Int)))) = read_run C rp wp count := by
    unfold read_run
    by_cases h : wp > rp
    · rw [if_pos (by omega), if_pos h, to_ulong_of_nonneg (by omega) (by unfold LONG_MAX; omega)]
      congr 1
      omega
    · rw [if_neg (by omega), if_neg h, to_ulong_of_nonneg (by omega) (by unfold LONG_MAX; omega)]
      congr 1
      omega
  have hn : read_run C rp wp count ≤ C - rp := by
    unfold read_run
    split <;> omega
  generalize read_run C rp wp count = n at *
  have hbound : ¬ ((rp : Int) < 0 ∨ b.length < rp + n) := by
    rw [hb]
    omega
  unfold my_scull_p_read
  simp only [down_interruptible, up, Nat.lt_one_iff, zero_lt_one, if_true, ne_eq,
    not_true_eq_false, if_false, hne2, hclamp, hu, Int.toNat_natCast]
  rw [if_neg hbound]

/-- The value of `space_free` on a device of shape `pipe_inv`. -/
theorem space_free_eq (C : Nat) (b : Option (List Byte)) (rp wp : Nat) (nr nw : Int) (sem : Nat)
    (hC1 : 1 ≤ C) (hC : (C : Int) ≤ INT_MAX) (hrp : rp < C) (hwp : wp < C) :
    space_free { buffer := b, end_ := C, buffersize := C, rp := rp, wp := wp,
                 nreaders := nr, nwriters := nw, sem := sem } =
      some ((free_of C rp wp : Nat) : Int) := by
  unfold INT_MAX at hC
  unfold space_free free_of
  by_cases h : rp = wp
  · subst h
    simp only [if_true]
    unfold int_sub
    rw [to_int_of_range (by unfold INT_MIN; omega) (by unfold INT_MAX; omega)]
    congr 1
    omega
  · have h2 : ¬ ((rp : Int) = (wp : Int)) := by omega
    have hmod : ((rp : Int) + (C : Int) - (wp : Int)).tmod (C : Int)
        = (((rp + C - wp) % C : Nat) : Int) := by
      rw [Int.tmod_eq_emod (by omega) (by omega)]
      have : (rp : Int) + (C : Int) - (wp : Int) = ((rp + C - wp : Nat) : Int) := by omega
      rw [this]
      exact (Int.natCast_mod _ _).symm
    have hlt : (rp + C - wp) % C < C := Nat.mod_lt _ (by omega)
    have hpos : 1 ≤ (rp + C - wp) % C := by
      by_cases hlt2 : rp < wp
      · rw [Nat.mod_eq_of_lt (by omega)]
        omega
      · have : rp + C - wp = (rp - wp) + C := by omega
        rw [this, Nat.add_mod_right, Nat.mod_eq_of_lt (by omega)]
        omega
    have hC0 : ¬ ((C : Int) = 0) := by omega
    have hCm : ¬ ((C : Int) = -1) := by omega
    simp only [h2, h, if_false, c_mod, hC0, hCm, and_false, or_self, Option.map_some', hmod]
    rw [to_int_of_range (by unfold INT_MIN; omega) (by unfold INT_MAX; omega)]
    congr 1
    omega

theorem free_of_le (C rp wp : Nat) (hC1 : 1 ≤ C) : free_of C rp wp ≤ C - 1 := by
  unfold free_of
  split
  · exact Nat.le_refl _
  · have hlt : (rp + C - wp) % C < C := Nat.mod_lt _ (by omega)
    omega

/-- The free space in terms of the cursors, without the modulus. -/
theorem free_of_cases (C rp wp : Nat) (hrp : rp < C) (hwp : wp < C) :
    free_of C rp wp = if rp = wp then C - 1 else if wp < rp then rp - wp - 1
      else C - (wp - rp) - 1 := by
  unfold free_of
  by_cases h : rp = wp
  · rw [if_pos h, if_pos h]
  · rw [if_neg h, if_neg h]
    by_cases h2 : wp < rp
    · rw [if_pos h2]
      have : rp + C - wp = (rp - wp) + C := by omega
      rw [this, Nat.add_mod_right, Nat.mod_eq_of_lt (by omega)]
    · rw [if_neg h2, Nat.mod_eq_of_lt (by omega)]
      omega

theorem write_run_le (C rp wp count : Nat) (hrp : rp < C) (hwp : wp < C) :
    write_run C rp wp count ≤ C - wp ∧ write_run C rp wp count ≤ free_of C rp wp ∧
    write_run C rp wp count ≤ count := by
  unfold write_run
  split <;> omega

/-- The clamp of `my_scull_p_write` on a device of shape `pipe_inv`. -/
theorem write_clamp (C rp wp count : Nat) (hC : (C : Int) ≤ INT_MAX) (hC1 : 1 ≤ C)
    (hrp : rp < C) (hwp : wp < C) :
    (if (wp : Int) ≥ (rp : Int) then
        min (min count (to_ulong ((free_of C rp wp : Nat) : Int)))
          (to_ulong ((C : Int) - (wp : Int)))
      else min (min count (to_ulong ((free_of C rp wp : Nat) : Int)))
          (to_ulong ((rp : Int) - (wp : Int) - 1))) = write_run C rp wp count := by
  unfold INT_MAX at hC
  have hf := free_of_le C rp wp hC1
  have e1 : to_ulong ((free_of C rp wp : Nat) : Int) = free_of C rp wp :=
    to_ulong_natCast (by unfold ULONG_MOD; omega)
  unfold write_run
  by_cases h : wp ≥ rp
  · rw [if_pos (by omega), if_pos h, e1,
      to_ulong_of_nonneg (by omega) (by unfold LONG_MAX; omega)]
    congr 1
    omega
  · rw [if_neg (by omega), if_neg h, e1,
      to_ulong_of_nonneg (by omega) (by unfold LONG_MAX; omega)]
    congr 1
    omega

/-- A write on a device of shape `pipe_inv` with no space left. -/
theorem pipe_write_full (C : Nat) (b : Option (List Byte)) (rp wp : Nat) (nr nw : Int)
    (hC1 : 1 ≤ C) (hC : (C : Int) ≤ INT_MAX) (hrp : rp < C) (hwp : wp < C)
    (hfull : free_of C rp wp = 0) (nonblock : Bool) (buf : List Byte) (count : Nat) :
    my_scull_p_write
        { buffer := b, end_ := C, buffersize := C, rp := rp, wp := wp,
          nreaders := nr, nwriters := nw, sem := 1 } nonblock buf count =
      some { retval := if nonblock then -EAGAIN else -ERESTARTSYS,
             dev := { buffer := b, end_ := C, buffersize := C, rp := rp, wp := wp,
                      nreaders := nr, nwriters := nw, sem := 1 },
             out := [] } := by
  unfold my_scull_p_write my_scull_p_get_write_space
  simp only [down_interruptible, up, zero_lt_one, if_true, ne_eq, not_true_eq_false, if_false]
  rw [space_free_eq C b rp wp nr nw _ hC1 hC hrp hwp, hfull]
  cases nonblock <;> simp [EAGAIN, ERESTARTSYS]

theorem wrap_cast (C pos n : Nat) :
    (if (pos : Int) + (n : Int) = (C : Int) then (0 : Int) else (pos : Int) + (n : Int))
      = ((wrap C pos n : Nat) : Int) := by
  unfold wrap
  by_cases h : pos + n = C
  · rw [if_pos (by omega), if_pos h]
    rfl
  · rw [if_neg (by omega), if_neg h]
    push_cast
    rfl

/-- A write on a device of shape `pipe_inv` with space left and a user buffer
that can be read. -/
theorem pipe_write_space (C : Nat) (b : List Byte) (rp wp : Nat) (nr nw : Int)
    (hC1 : 1 ≤ C) (hC : (C : Int) ≤ INT_MAX) (hb : b.length = C) (hrp : rp < C) (hwp : wp < C)
    (hfree : 0 < free_of C rp wp) (nonblock : Bool) (buf : List Byte) (count : Nat)
    (hbuf : write_run C rp wp count ≤ buf.length) :
    my_scull_p_write
        { buffer := some b, end_ := C, buffersize := C, rp := rp, wp := wp,
          nreaders := nr, nwriters := nw, sem := 1 } nonblock buf count =
      some { retval := (write_run C rp wp count : Nat),
             dev := { buffer := some (overwrite b wp (buf.take (write_run C rp wp count))),
                      end_ := C, buffersize := C, rp := rp,
                      wp := (wrap C wp (write_run C rp wp count) : Nat),
                      nreaders := nr, nwriters := nw, sem := 1 },
             out := [] } := by
  have hclamp := write_clamp C rp wp count hC hC1 hrp hwp
  have hle := (write_run_le C rp wp count hrp hwp).1
  have hfne : ¬ (((free_of C rp wp : Nat) : Int) = 0) := by
    clear hclamp
    omega
  have hsf := space_free_eq C (some b) rp wp nr nw (1 - 1) hC1 hC hrp hwp
  have hbound : ¬ ((wp : Int) < 0 ∨ b.length < wp + write_run C rp wp count) := by
    clear hclamp hsf
    rw [hb]
    omega
  have hcap : ¬ (buf.length < write_run C rp wp count) := Nat.not_lt.mpr hbuf
  have hret : to_long ((write_run C rp wp count : Nat) : Int)
      = ((write_run C rp wp count : Nat) : Int) := by
    clear hclamp hsf
    unfold INT_MAX at hC
    exact to_long_natCast (by unfold LONG_MAX; omega)
  have hwrap := wrap_cast C wp (write_run C rp wp count)
  unfold my_scull_p_write my_scull_p_get_write_space
  simp only [down_interruptible, up, zero_lt_one, if_true, ne_eq, not_true_eq_false, if_false,
    hsf, hfne, hclamp, Int.toNat_natCast, hcap, hret, hwrap]
  rw [if_neg hbound]

/-- A write whose user buffer cannot be read as far as needed. -/
theorem pipe_write_fault (C : Nat) (b : List Byte) (rp wp : Nat) (nr nw : Int)
    (hC1 : 1 ≤ C) (hC : (C : Int) ≤ INT_MAX) (hb : b.length = C) (hrp : rp < C) (hwp : wp < C)
    (hfree : 0 < free_of C rp wp) (nonblock : Bool) (buf : List Byte) (count : Nat)
    (hbuf : buf.length < write_run C rp wp count) :
    my_scull_p_write
        { buffer := some b, end_ := C, buffersize := C, rp := rp, wp := wp,
          nreaders := nr, nwriters := nw, sem := 1 } nonblock buf count =
      some { retval := -EFAULT,
             dev := { buffer := some (overwrite b wp
                        (buf ++ List.replicate (write_run C rp wp count - buf.length) 0)),
                      end_ := C, buffersize := C, rp := rp, wp := wp,
                      nreaders := nr, nwriters := nw, sem := 1 },
             out := [] } := by
  have hclamp := write_clamp C rp wp count hC hC1 hrp hwp
  have hle := (write_run_le C rp wp count hrp hwp).1
  have hfne : ¬ (((free_of C rp wp : Nat) : Int) = 0) := by
    clear hclamp
    omega
  have hsf := space_free_eq C (some b) rp wp nr nw (1 - 1) hC1 hC hrp hwp
  have hbound : ¬ ((wp : Int) < 0 ∨ b.length < wp + write_run C rp wp count) := by
    clear hclamp hsf
    rw [hb]
    omega
  unfold my_scull_p_write my_scull_p_get_write_space
  simp only [down_interruptible, up, zero_lt_one, if_true, ne_eq, not_true_eq_false, if_false,
    hsf, hfne, hclamp, Int.toNat_natCast, hbuf]
  rw [if_neg hbound]

/-! ## The pipe: reachable states -/

theorem wrap_lt (C pos n : Nat) (hC1 : 1 ≤ C) (h : pos + n ≤ C) : wrap C pos n < C := by
  unfold wrap
  split <;> omega

theorem read_run_le (C rp wp count : Nat) (hrp : rp < C) (hwp : wp < C) :
    read_run C rp wp count ≤ C - rp ∧ read_run C rp wp count ≤ count := by
  unfold read_run
  split <;> omega

/-- A first successful open of a fresh device gives the shape `pipe_inv`. -/
theorem pipe_open_inv (C : Nat) (hC1 : 1 ≤ C) (hC : (C : Int) ≤ INT_MAX) (m m1 : Kmem)
    (fr fw : Bool)
    (dev : my_scull_pipe) (h : my_scull_p_open (C : Int) pipe_init m fr fw = (0, dev, m1)) :
    pipe_inv C dev := by
  have hsz : to_ulong (C : Int) = C := by
    unfold INT_MAX at hC
    exact to_ulong_natCast (by unfold ULONG_MOD; omega)
  unfold my_scull_p_open at h
  simp only [pipe_init, down_interruptible, zero_lt_one, if_true, ne_eq, not_true_eq_false,
    if_false, hsz] at h
  split at h
  · simp only [Prod.mk.injEq] at h
    have := h.1
    simp [ENOMEM] at this
  · rename_i b m2 hk
    simp only [Prod.mk.injEq] at h
    obtain ⟨_, h2, _⟩ := h
    have hlen : b.length = C := by
      unfold kmalloc at hk
      simp only [Prod.mk.injEq] at hk
      have hk1 := hk.1
      split at hk1
      · cases ho : m.outcome m.calls with
        | none => rw [ho] at hk1; simp at hk1
        | some junk =>
          rw [ho] at hk1
          simp only [Option.map_some', Option.some.injEq] at hk1
          rw [← hk1]
          exact fresh_region_length junk C
      · simp at hk1
    subst h2
    refine ⟨b, 0, 0, ?_, hlen, ?_, ?_, ?_, ?_, by omega, by omega, ?_⟩ <;>
      cases fr <;> cases fw <;> rfl

/-- Reads and writes keep the shape `pipe_inv`. -/
theorem pipe_reachable_inv (C : Nat) (hC1 : 1 ≤ C) (hC : (C : Int) ≤ INT_MAX)
    (dev : my_scull_pipe) (h : pipe_reachable (C : Int) dev) : pipe_inv C dev := by
  induction h with
  | opened m fr fw dev m1 ho => exact pipe_open_inv C hC1 hC m m1 fr fw dev ho
  | read dev nonblock ucap count r _ hr ih =>
    obtain ⟨b, rp, wp, h1, h2, h3, h4, h5, h6, h7, h8, h9⟩ := ih
    obtain ⟨buffer, end_, bs, rp0, wp0, nr, nw, sem⟩ := dev
    simp only at h1 h3 h4 h5 h6 h9
    subst h1 h3 h4 h5 h6 h9
    by_cases he : rp = wp
    · rw [pipe_read_empty _ rfl (by simp [he])] at hr
      simp only [Option.some.injEq] at hr
      subst hr
      exact ⟨b, rp, wp, rfl, h2, rfl, rfl, rfl, rfl, h7, h8, rfl⟩
    · by_cases hu : read_run C rp wp count ≤ ucap
      · rw [pipe_read_nonempty C b rp wp nr nw hC h2 h7 h8 he nonblock ucap count hu] at hr
        simp only [Option.some.injEq] at hr
        subst hr
        have hl := (read_run_le C rp wp count h7 h8).1
        exact ⟨b, wrap C rp (read_run C rp wp count), wp, rfl, h2, rfl, rfl, rfl, rfl,
          wrap_lt C rp _ hC1 (by omega), h8, rfl⟩
      · rw [pipe_read_fault C b rp wp nr nw hC h2 h7 h8 he nonblock ucap count (by omega)] at hr
        simp only [Option.some.injEq] at hr
        subst hr
        exact ⟨b, rp, wp, rfl, h2, rfl, rfl, rfl, rfl, h7, h8, rfl⟩
  | write dev nonblock buf count r _ hr ih =>
    obtain ⟨b, rp, wp, h1, h2, h3, h4, h5, h6, h7, h8, h9⟩ := ih
    obtain ⟨buffer, end_, bs, rp0, wp0, nr, nw, sem⟩ := dev
    simp only at h1 h3 h4 h5 h6 h9
    subst h1 h3 h4 h5 h6 h9
    have hl := write_run_le C rp wp count h7 h8
    by_cases hf : free_of C rp wp = 0
    · rw [pipe_write_full C (some b) rp wp nr nw hC1 hC h7 h8 hf] at hr
      simp only [Option.some.injEq] at hr
      subst hr
      exact ⟨b, rp, wp, rfl, h2, rfl, rfl, rfl, rfl, h7, h8, rfl⟩
    · by_cases hu : write_run C rp wp count ≤ buf.length
      · rw [pipe_write_space C b rp wp nr nw hC1 hC h2 h7 h8 (by omega) nonblock buf count hu]
          at hr
        simp only [Option.some.injEq] at hr
        subst hr
        refine ⟨_, rp, wrap C wp (write_run C rp wp count), rfl, ?_, rfl, rfl, rfl, rfl, h7,
          wrap_lt C wp _ hC1 (by omega), rfl⟩
        rw [overwrite_length _ _ _ (by rw [List.length_take]; omega)]
        exact h2
      · rw [pipe_write_fault C b rp wp nr nw hC1 hC h2 h7 h8 (by omega) nonblock buf count
          (by omega)] at hr
        simp only [Option.some.injEq] at hr
        subst hr
        refine ⟨_, rp, wp, rfl, ?_, rfl, rfl, rfl, rfl, h7, h8, rfl⟩
        rw [overwrite_length _ _ _
          (by rw [List.length_append, List.length_replicate]; omega)]
        exact h2

/-! ## The pipe: contracts of one read and one write -/

/-- C27. In every reachable buffer state with `rp ≠ wp`, for every `max_len`
(with a user buffer that can take `max_len` bytes) `my_scull_p_read` returns
exactly `min(max_len, wp - rp)` bytes when `wp > rp` and
`min(max_len, end - rp)` bytes when `wp < rp`, copied from the region starting
at `rp`; the bytes read end at or before the physical end, and before `wp`
when `wp > rp`; afterwards `rp` has advanced by the count, back at the start
of the region exactly when it reaches the physical end, and `wp` and the
contents are unchanged. -/
theorem pipe_read_contract (C : Nat) (hC1 : 1 ≤ C) (hC : (C : Int) ≤ INT_MAX)
    (dev : my_scull_pipe) (hreach : pipe_reachable (C : Int) dev) (hne : dev.rp ≠ dev.wp)
    (nonblock : Bool) (ucap count : Nat) (hu : count ≤ ucap) :
    ∃ (b : List Byte) (r : PipeResult) (n : Nat),
      dev.buffer = some b ∧ my_scull_p_read dev nonblock ucap count = some r ∧
      (dev.wp > dev.rp → (n : Int) = min (count : Int) (dev.wp - dev.rp)) ∧
      (dev.wp < dev.rp → (n : Int) = min (count : Int) (dev.end_ - dev.rp)) ∧
      r.retval = n ∧ r.out = (b.drop dev.rp.toNat).take n ∧ r.out.length = n ∧
      dev.rp + n ≤ dev.end_ ∧ (dev.wp > dev.rp → dev.rp + n ≤ dev.wp) ∧
      r.dev.rp = (if dev.rp + n = dev.end_ then 0 else dev.rp + n) ∧
      r.dev.wp = dev.wp ∧ r.dev.buffer = dev.buffer := by
  obtain ⟨b, rp, wp, h1, h2, h3, h4, h5, h6, h7, h8, h9⟩ := pipe_reachable_inv C hC1 hC dev hreach
  obtain ⟨buffer, end_, bs, rp0, wp0, nr, nw, sem⟩ := dev
  simp only at h1 h3 h4 h5 h6 h9 hne
  subst h1 h3 h4 h5 h6 h9
  have he : rp ≠ wp := fun e => hne (by rw [e])
  have hl := read_run_le C rp wp count h7 h8
  have hrun1 : wp > rp → read_run C rp wp count = min count (wp - rp) := by
    intro h; unfold read_run; rw [if_pos h]
  have hrun2 : wp < rp → read_run C rp wp count = min count (C - rp) := by
    intro h; unfold read_run; rw [if_neg (by omega)]
  refine ⟨b, _, read_run C rp wp count, rfl,
    pipe_read_nonempty C b rp wp nr nw hC h2 h7 h8 he nonblock ucap count (by omega),
    ?_, ?_, rfl, ?_, ?_, ?_, ?_, ?_, rfl, rfl⟩
  · intro h
    simp only at h ⊢
    have h2 : rp < wp := by omega
    rw [hrun1 h2, Nat.cast_min, Nat.cast_sub (Nat.le_of_lt h2)]
  · intro h
    simp only at h ⊢
    have h2 : wp < rp := by omega
    rw [hrun2 h2, Nat.cast_min, Nat.cast_sub (Nat.le_of_lt h7)]
  · simp only [Int.toNat_natCast]
  · simp only [List.length_take, List.length_drop, h2]
    omega
  · simp only
    omega
  · intro h
    simp only at h ⊢
    rw [hrun1 (by omega)]
    omega
  · simp only
    exact (wrap_cast C rp _).symm

/-- Witness of C27: a pipe of capacity 4 is opened and two bytes are written;
the state is reachable and not empty, and a read of two bytes follows the
contract. -/
theorem pipe_read_contract_witness :
    ∃ dev : my_scull_pipe, pipe_reachable ((4 : Nat) : Int) dev ∧ dev.rp ≠ dev.wp ∧
      ∃ (b : List Byte) (r : PipeResult) (n : Nat),
        dev.buffer = some b ∧ my_scull_p_read dev false 2 2 = some r ∧
        (dev.wp > dev.rp → (n : Int) = min ((2 : Nat) : Int) (dev.wp - dev.rp)) ∧
        (dev.wp < dev.rp → (n : Int) = min ((2 : Nat) : Int) (dev.end_ - dev.rp)) ∧
        r.retval = n ∧ r.out = (b.drop dev.rp.toNat).take n ∧ r.out.length = n ∧
        dev.rp + n ≤ dev.end_ ∧ (dev.wp > dev.rp → dev.rp + n ≤ dev.wp) ∧
        r.dev.rp = (if dev.rp + n = dev.end_ then 0 else dev.rp + n) ∧
        r.dev.wp = dev.wp ∧ r.dev.buffer = dev.buffer := by
  have hr : pipe_reachable ((4 : Nat) : Int)
      { buffer := some [7, 8, 0, 0], end_ := 4, buffersize := 4, rp := 0, wp := 2,
        nreaders := 1, nwriters := 1, sem := 1 } :=
    @pipe_reachable.write ((4 : Nat) : Int) _ false [7, 8] 2 _
      (@pipe_reachable.opened ((4 : Nat) : Int) okmem true true _ _ rfl) rfl
  exact ⟨_, hr, by decide,
    pipe_read_contract 4 (by decide) (by decide) _ hr (by decide) false 2 2 (Nat.le_refl 2)⟩

/-- C28, as stated, fails: on a freshly opened pipe of capacity 4 both
cursors are at 0 and `space_free` is 3; a write of one byte is accepted, and
the written range `[wp, wp + 1)` contains `rp`. -/
theorem pipe_write_range_contains_rp :
    ∃ (dev : my_scull_pipe) (r : PipeResult),
      pipe_reachable ((4 : Nat) : Int) dev ∧ space_free dev = some 3 ∧
      my_scull_p_write dev false [7] 1 = some r ∧ r.retval = 1 ∧
      dev.wp ≤ dev.rp ∧ dev.rp < dev.wp + r.retval := by
  refine ⟨_, _, @pipe_reachable.opened ((4 : Nat) : Int) okmem true true _ _ rfl, ?_, rfl, ?_,
    ?_, ?_⟩ <;> decide

/-- C28, amended: in every reachable buffer state with `space_free > 0`, for
every data of length `len`, `my_scull_p_write` accepts
`min(len, space_free, end - wp)` bytes when `wp >= rp` and
`min(len, space_free, rp - wp - 1)` bytes when `wp < rp`; the written range
`[wp, wp + count)` does not cross the physical end and, unless the buffer was
empty (`rp == wp`), does not contain `rp`; after the write (with `wp` back at
the start when it reaches the end) `wp != rp` whenever `count > 0`. -/
theorem pipe_write_contract (C : Nat) (hC1 : 1 ≤ C) (hC : (C : Int) ≤ INT_MAX)
    (dev : my_scull_pipe) (hreach : pipe_reachable (C : Int) dev) (free : Int)
    (hsf : space_free dev = some free) (hfree : 0 < free)
    (nonblock : Bool) (buf : List Byte) (count : Nat) (hbuf : count ≤ buf.length) :
    ∃ (b : List Byte) (r : PipeResult) (n : Nat),
      dev.buffer = some b ∧ my_scull_p_write dev nonblock buf count = some r ∧
      (dev.wp ≥ dev.rp → (n : Int) = min (min (count : Int) free) (dev.end_ - dev.wp)) ∧
      (dev.wp < dev.rp → (n : Int) = min (min (count : Int) free) (dev.rp - dev.wp - 1)) ∧
      r.retval = n ∧ dev.wp + n ≤ dev.end_ ∧
      (dev.rp ≠ dev.wp → ¬ (dev.wp ≤ dev.rp ∧ dev.rp < dev.wp + n)) ∧
      r.dev.buffer = some (overwrite b dev.wp.toNat (buf.take n)) ∧
      r.dev.wp = (if dev.wp + n = dev.end_ then 0 else dev.wp + n) ∧
      r.dev.rp = dev.rp ∧ (0 < n → r.dev.wp ≠ r.dev.rp) := by
  obtain ⟨b, rp, wp, h1, h2, h3, h4, h5, h6, h7, h8, h9⟩ := pipe_reachable_inv C hC1 hC dev hreach
  obtain ⟨buffer, end_, bs, rp0, wp0, nr, nw, sem⟩ := dev
  simp only at h1 h3 h4 h5 h6 h9
  subst h1 h3 h4 h5 h6 h9
  rw [space_free_eq C (some b) rp wp nr nw 1 hC1 hC h7 h8] at hsf
  simp only [Option.some.injEq] at hsf
  subst hsf
  have hfpos : 0 < free_of C rp wp := by omega
  have hl := write_run_le C rp wp count h7 h8
  have hfc := free_of_cases C rp wp h7 h8
  have hrun1 : wp ≥ rp → write_run C rp wp count
      = min (min count (free_of C rp wp)) (C - wp) := by
    intro h; unfold write_run; rw [if_pos h]
  have hrun2 : wp < rp → write_run C rp wp count
      = min (min count (free_of C rp wp)) (rp - wp - 1) := by
    intro h; unfold write_run; rw [if_neg (by omega)]
  have hw2 : wp < rp → write_run C rp wp count ≤ rp - wp - 1 := by
    intro h
    rw [hrun2 h]
    exact Nat.min_le_right _ _
  refine ⟨b, _, write_run C rp wp count, rfl,
    pipe_write_space C b rp wp nr nw hC1 hC h2 h7 h8 hfpos nonblock buf count (by omega),
    ?_, ?_, rfl, ?_, ?_, ?_, ?_, rfl, ?_⟩
  · intro h
    simp only at h ⊢
    have h2 : rp ≤ wp := by omega
    rw [hrun1 h2, Nat.cast_min, Nat.cast_min, Nat.cast_sub (Nat.le_of_lt h8)]
  · intro h
    simp only at h ⊢
    have h2 : wp < rp := by omega
    have h3 : 1 ≤ rp - wp := by omega
    rw [hrun2 h2, Nat.cast_min, Nat.cast_min, Nat.cast_sub h3, Nat.cast_sub (Nat.le_of_lt h2),
      Nat.cast_one]
  · simp only
    omega
  · intro hne
    simp only at hne ⊢
    have hne2 : rp ≠ wp := fun e => hne (by rw [e])
    intro hc
    by_cases hlt : wp < rp
    · have := hw2 hlt
      omega
    · omega
  · simp only [Int.toNat_natCast]
  · simp only
    exact (wrap_cast C wp _).symm
  · intro hn
    simp only
    have hw2b := hw2
    generalize write_run C rp wp count = n at *
    have hwr : wrap C wp n ≠ rp := by
      unfold wrap
      by_cases hlt : wp < rp
      · have := hw2b hlt
        rw [if_neg (by omega)]
        omega
      · by_cases he : rp = wp
        · rw [if_pos he] at hfc
          split <;> omega
        · rw [if_neg he, if_neg hlt] at hfc
          split <;> omega
    intro e
    exact hwr (by exact_mod_cast e)

/-- Witness of the amended C28: a pipe of capacity 4 is opened, two bytes are
written, and a write of three more follows the contract. -/
theorem pipe_write_contract_witness :
    ∃ dev : my_scull_pipe, pipe_reachable ((4 : Nat) : Int) dev ∧
      space_free dev = some 1 ∧
      ∃ (b : List Byte) (r : PipeResult) (n : Nat),
        dev.buffer = some b ∧ my_scull_p_write dev false [1, 2, 3] 3 = some r ∧
        (dev.wp ≥ dev.rp → (n : Int) = min (min ((3 : Nat) : Int) 1) (dev.end_ - dev.wp)) ∧
        (dev.wp < dev.rp → (n : Int) = min (min ((3 : Nat) : Int) 1) (dev.rp - dev.wp - 1)) ∧
        r.retval = n ∧ dev.wp + n ≤ dev.end_ ∧
        (dev.rp ≠ dev.wp → ¬ (dev.wp ≤ dev.rp ∧ dev.rp < dev.wp + n)) ∧
        r.dev.buffer = some (overwrite b dev.wp.toNat (([1, 2, 3] : List Byte).take n)) ∧
        r.dev.wp = (if dev.wp + n = dev.end_ then 0 else dev.wp + n) ∧
        r.dev.rp = dev.rp ∧ (0 < n → r.dev.wp ≠ r.dev.rp) := by
  have hr : pipe_reachable ((4 : Nat) : Int)
      { buffer := some [7, 8, 0, 0], end_ := 4, buffersize := 4, rp := 0, wp := 2,
        nreaders := 1, nwriters := 1, sem := 1 } :=
    @pipe_reachable.write ((4 : Nat) : Int) _ false [7, 8] 2 _
      (@pipe_reachable.opened ((4 : Nat) : Int) okmem true true _ _ rfl) rfl
  exact ⟨_, hr, by decide,
    pipe_write_contract 4 (by decide) (by decide) _ hr 1 (by decide) (by decide) false [1, 2, 3]
      3 (Nat.le_refl 3)⟩

/-! ## The pipe: free space -/

/-- The free space as the source computes it, over the integers. -/
theorem free_of_int (C rp wp : Nat) (hC1 : 1 ≤ C) (hrp : rp < C) (hwp : wp < C) :
    (rp = wp → ((free_of C rp wp : Nat) : Int) = (C : Int) - 1) ∧
    (rp ≠ wp → ((free_of C rp wp : Nat) : Int) =
      ((rp : Int) + (C : Int) - (wp : Int)) % (C : Int) - 1) := by
  rw [free_of_cases C rp wp hrp hwp]
  constructor
  · intro h
    rw [if_pos h]
    omega
  · intro h
    rw [if_neg h]
    by_cases h2 : wp < rp
    · rw [if_pos h2]
      have e : ((rp : Int) + (C : Int) - (wp : Int)) = ((rp : Int) - (wp : Int)) + (C : Int) := by
        omega
      rw [e, Int.add_emod_self, Int.emod_eq_of_lt (by omega) (by omega)]
      omega
    · rw [if_neg h2, Int.emod_eq_of_lt (by omega) (by omega)]
      omega

/-- C11. In every buffer state reached from a fresh open with capacity
`C ≥ 1` by reads and writes, `space_free` returns `C - 1` when `rp == wp` and
`((rp + C - wp) mod C) - 1` otherwise, and the result lies in `[0, C - 1]`. -/
theorem space_free_contract (C : Nat) (hC1 : 1 ≤ C) (hC : (C : Int) ≤ INT_MAX)
    (dev : my_scull_pipe) (hreach : pipe_reachable (C : Int) dev) :
    ∃ f : Int, space_free dev = some f ∧ (dev.rp = dev.wp → f = (C : Int) - 1) ∧
      (dev.rp ≠ dev.wp → f = (dev.rp + (C : Int) - dev.wp) % (C : Int) - 1) ∧
      0 ≤ f ∧ f ≤ (C : Int) - 1 := by
  obtain ⟨b, rp, wp, h1, h2, h3, h4, h5, h6, h7, h8, h9⟩ := pipe_reachable_inv C hC1 hC dev hreach
  obtain ⟨buffer, end_, bs, rp0, wp0, nr, nw, sem⟩ := dev
  simp only at h1 h3 h4 h5 h6 h9
  subst h1 h3 h4 h5 h6 h9
  obtain ⟨f1, f2⟩ := free_of_int C rp wp hC1 h7 h8
  have hle := free_of_le C rp wp hC1
  refine ⟨((free_of C rp wp : Nat) : Int), space_free_eq C (some b) rp wp nr nw 1 hC1 hC h7 h8,
    ?_, ?_, Int.natCast_nonneg _, by omega⟩
  · intro h
    simp only at h
    exact f1 (Int.ofNat_inj.mp h)
  · intro h
    simp only at h ⊢
    exact f2 (fun e => h (by rw [e]))

/-- Witness of C11: a pipe of capacity 4 after two bytes were written. -/
theorem space_free_contract_witness :
    ∃ dev : my_scull_pipe, pipe_reachable ((4 : Nat) : Int) dev ∧
      ∃ f : Int, space_free dev = some f ∧ (dev.rp = dev.wp → f = ((4 : Nat) : Int) - 1) ∧
        (dev.rp ≠ dev.wp → f = (dev.rp + ((4 : Nat) : Int) - dev.wp) % ((4 : Nat) : Int) - 1) ∧
        0 ≤ f ∧ f ≤ ((4 : Nat) : Int) - 1 := by
  have hr : pipe_reachable ((4 : Nat) : Int)
      { buffer := some [7, 8, 0, 0], end_ := 4, buffersize := 4, rp := 0, wp := 2,
        nreaders := 1, nwriters := 1, sem := 1 } :=
    @pipe_reachable.write ((4 : Nat) : Int) _ false [7, 8] 2 _
      (@pipe_reachable.opened ((4 : Nat) : Int) okmem true true _ _ rfl) rfl
  exact ⟨_, hr, space_free_contract 4 (by decide) (by decide) _ hr⟩

/-- The free space of a freshly opened buffer, before and after one write. -/
theorem open_space (C : Nat) (hC1 : 1 ≤ C) (hC : (C : Int) ≤ INT_MAX) (m m1 : Kmem)
    (fr fw : Bool) (dev : my_scull_pipe)
    (ho : my_scull_p_open (C : Int) pipe_init m fr fw = (0, dev, m1)) :
    space_free dev = some ((C : Int) - 1) ∧
    ∀ (k : Nat) (buf : List Byte) (nonblock : Bool), k ≤ C - 1 → buf.length = k →
      ∃ r, my_scull_p_write dev nonblock buf k = some r ∧ (1 < C → r.retval = (k : Int)) ∧
        space_free r.dev = some ((C : Int) - 1 - (k : Int)) := by
  obtain ⟨b, rp, wp, h1, h2, h3, h4, h5, h6, h7, h8, h9⟩ := pipe_open_inv C hC1 hC m m1 fr fw dev ho
  obtain ⟨c1, c2, _, _⟩ := open_resets_cursors (C : Int) pipe_init m m1 fr fw dev ho
  obtain ⟨buffer, end_, bs, rp0, wp0, nr, nw, sem⟩ := dev
  simp only at h1 h3 h4 h5 h6 h9 c1 c2
  subst h1 h3 h4 h9
  have hrp : rp = 0 := by omega
  have hwp : wp = 0 := by omega
  subst hrp hwp
  subst h5 h6
  have hf0 : free_of C 0 0 = C - 1 := by
    unfold free_of
    rw [if_pos rfl]
  have hcast : ((C - 1 : Nat) : Int) = (C : Int) - 1 := by omega
  constructor
  · rw [space_free_eq C (some b) 0 0 nr nw 1 hC1 hC h7 h7, hf0, hcast]
  · intro k buf nonblock hk hbuf
    by_cases hone : C = 1
    · have hk0 : k = 0 := by omega
      subst hk0
      refine ⟨_, pipe_write_full C (some b) 0 0 nr nw hC1 hC h7 h7 (by rw [hf0]; omega) nonblock
        buf 0, fun h => absurd h (by omega), ?_⟩
      simp only
      rw [space_free_eq C (some b) 0 0 nr nw 1 hC1 hC h7 h7, hf0, hcast]
      simp
    · have hrun : write_run C 0 0 k = k := by
        unfold write_run
        rw [if_pos (Nat.le_refl 0), hf0]
        omega
      have hwrap : wrap C 0 k = k := by
        unfold wrap
        rw [if_neg (by omega)]
        omega
      have hfk : free_of C 0 k = C - 1 - k := by
        rw [free_of_cases C 0 k h7 (by omega)]
        by_cases hz : 0 = k
        · rw [if_pos hz]
          omega
        · rw [if_neg hz, if_neg (by omega)]
          omega
      have hw := pipe_write_space C b 0 0 nr nw hC1 hC h2 h7 h7 (by rw [hf0]; omega) nonblock buf
        k (by rw [hrun, hbuf])
      rw [hrun, hwrap] at hw
      refine ⟨_, hw, fun _ => rfl, ?_⟩
      simp only
      rw [space_free_eq C _ 0 k nr nw 1 hC1 hC h7 (by omega), hfk]
      congr 1
      omega

/-- C12. On a freshly opened buffer of capacity `C ≥ 1` `space_free` is
`C - 1`; and for every `k ≤ C - 1`, after a write of `k` bytes to the freshly
opened buffer, with no read, `space_free` is `C - 1 - k` (the write returns
`k`, unless the capacity is 1 and the buffer can hold nothing). -/
theorem fresh_space (C : Nat) (hC1 : 1 ≤ C) (hC : (C : Int) ≤ INT_MAX) (m m1 : Kmem)
    (fr fw : Bool) (dev : my_scull_pipe)
    (ho : my_scull_p_open (C : Int) pipe_init m fr fw = (0, dev, m1)) :
    space_free dev = some ((C : Int) - 1) ∧
    ∀ (k : Nat) (buf : List Byte) (nonblock : Bool), k ≤ C - 1 → buf.length = k →
      ∃ r, my_scull_p_write dev nonblock buf k = some r ∧ (1 < C → r.retval = (k : Int)) ∧
        space_free r.dev = some ((C : Int) - 1 - (k : Int)) :=
  open_space C hC1 hC m m1 fr fw dev ho

/-- Witness of C12: a pipe of capacity 4, freshly opened for reading and
writing: space 3, and 1 after a write of two bytes. -/
theorem fresh_space_witness :
    ∃ dev m1, my_scull_p_open ((4 : Nat) : Int) pipe_init okmem true true = (0, dev, m1) ∧
      space_free dev = some (((4 : Nat) : Int) - 1) ∧
      ∃ r, my_scull_p_write dev false [7, 8] 2 = some r ∧
        (1 < 4 → r.retval = ((2 : Nat) : Int)) ∧
        space_free r.dev = some (((4 : Nat) : Int) - 1 - ((2 : Nat) : Int)) :=
  ⟨_, _, rfl,
    (fresh_space 4 (by decide) (by decide) okmem _ true true _ rfl).1,
    (fresh_space 4 (by decide) (by decide) okmem _ true true _ rfl).2 2 [7, 8] false
      (by decide) rfl⟩

/-- A write that does not block, on a buffer with no space: nothing changes. -/
theorem pipe_write_nospace (d : my_scull_pipe) (hs : 0 < d.sem) (hf : space_free d = some 0)
    (buf : List Byte) (count : Nat) :
    my_scull_p_write d true buf count = some { retval := -EAGAIN, dev := d, out := [] } := by
  obtain ⟨buffer, end_, bs, rp, wp, nr, nw, sem⟩ := d
  simp only at hs
  have hf2 : space_free (my_scull_pipe.mk buffer end_ bs rp wp nr nw (sem - 1)) = some 0 := hf
  have hup : up (sem - 1) = sem := by unfold up; omega
  have hne : ¬ (-EAGAIN = 0) := by decide
  rw [my_scull_p_write]
  simp only [down_interruptible, hs, if_true, ne_eq, not_true_eq_false, if_false,
    my_scull_p_get_write_space, hf2, hup, hne, not_false_eq_true]

/-- A read that does not block, on an empty buffer: nothing changes. -/
theorem pipe_read_nodata (d : my_scull_pipe) (hs : 0 < d.sem) (he : d.rp = d.wp)
    (ucap count : Nat) :
    my_scull_p_read d true ucap count = some { retval := -EAGAIN, dev := d, out := [] } := by
  obtain ⟨buffer, end_, bs, rp, wp, nr, nw, sem⟩ := d
  simp only at hs he
  have hup : up (sem - 1) = sem := by unfold up; omega
  rw [my_scull_p_read]
  simp only [down_interruptible, hs, if_true, ne_eq, not_true_eq_false, if_false, he, hup]

/-- C13. After `C - 1` bytes are written to a freshly opened buffer
`space_free` is 0; in every state with `space_free == 0` (semaphore free) a
non-blocking `my_scull_p_write` returns `-EAGAIN`; in every state with
`rp == wp` a non-blocking `my_scull_p_read` returns `-EAGAIN`; in both cases
the device (cursors and contents) is as it was. -/
theorem would_block (C : Nat) (hC1 : 1 ≤ C) (hC : (C : Int) ≤ INT_MAX) (m m1 : Kmem)
    (fr fw : Bool) (dev : my_scull_pipe)
    (ho : my_scull_p_open (C : Int) pipe_init m fr fw = (0, dev, m1)) :
    (∀ (buf : List Byte) (nonblock : Bool), buf.length = C - 1 →
      ∃ r, my_scull_p_write dev nonblock buf (C - 1) = some r ∧ space_free r.dev = some 0) ∧
    (∀ (d : my_scull_pipe) (buf : List Byte) (count : Nat), 0 < d.sem →
      space_free d = some 0 →
      my_scull_p_write d true buf count = some { retval := -EAGAIN, dev := d, out := [] }) ∧
    (∀ (d : my_scull_pipe) (ucap count : Nat), 0 < d.sem → d.rp = d.wp →
      my_scull_p_read d true ucap count = some { retval := -EAGAIN, dev := d, out := [] }) := by
  refine ⟨?_, fun d buf count hs hf => pipe_write_nospace d hs hf buf count,
    fun d ucap count hs he => pipe_read_nodata d hs he ucap count⟩
  intro buf nonblock hbuf
  obtain ⟨r, hr, _, hsp⟩ :=
    (open_space C hC1 hC m m1 fr fw dev ho).2 (C - 1) buf nonblock (Nat.le_refl _) hbuf
  refine ⟨r, hr, ?_⟩
  rw [hsp]
  congr 1
  omega

/-- Witness of C13: a pipe of capacity 4; after three bytes are written the
space is 0. -/
theorem would_block_witness :
    ∃ dev m1, my_scull_p_open ((4 : Nat) : Int) pipe_init okmem true true = (0, dev, m1) ∧
      ∃ r, my_scull_p_write dev false [7, 8, 9] (4 - 1) = some r ∧ space_free r.dev = some 0 :=
  ⟨_, _, rfl,
    (would_block 4 (by decide) (by decide) okmem _ true true _ rfl).1 [7, 8, 9] false rfl⟩

/-! ## The pipe: progress, and what an open does -/

theorem read_run_pos (C rp wp count : Nat) (hrp : rp < C) (hc : 1 ≤ count) :
    1 ≤ read_run C rp wp count := by
  unfold read_run
  split <;> omega

theorem write_run_pos (C rp wp count : Nat) (hrp : rp < C) (hwp : wp < C)
    (hfree : 0 < free_of C rp wp) (hc : 1 ≤ count) : 1 ≤ write_run C rp wp count := by
  rw [free_of_cases C rp wp hrp hwp] at hfree
  unfold write_run
  rw [free_of_cases C rp wp hrp hwp]
  by_cases h : rp = wp
  · rw [if_pos h] at hfree ⊢
    rw [if_pos (by omega)]
    omega
  · rw [if_neg h] at hfree ⊢
    by_cases h2 : wp < rp
    · rw [if_pos h2] at hfree ⊢
      rw [if_neg (by omega)]
      omega
    · rw [if_neg h2] at hfree ⊢
      rw [if_pos (by omega)]
      omega

/-- C31. Progress of partial transfers. In every buffer state reached from a
fresh open with capacity `C` by reads and writes: when `rp != wp`, a read of
`max_len ≥ 1` bytes (into a user buffer that can take them) returns a count
in `[1, max_len]`; when `space_free > 0`, a write of `len ≥ 1` bytes accepts a
count in `[1, min(len, space_free)]`. -/
theorem transfer_progress (C : Nat) (hC1 : 1 ≤ C) (hC : (C : Int) ≤ INT_MAX)
    (dev : my_scull_pipe) (hreach : pipe_reachable (C : Int) dev) :
    (∀ (nonblock : Bool) (ucap count : Nat), dev.rp ≠ dev.wp → 1 ≤ count → count ≤ ucap →
      ∃ r, my_scull_p_read dev nonblock ucap count = some r ∧ 1 ≤ r.retval ∧
        r.retval ≤ (count : Int) ∧ (r.out.length : Int) = r.retval) ∧
    (∀ (nonblock : Bool) (buf : List Byte) (count : Nat) (f : Int), space_free dev = some f →
      0 < f → 1 ≤ count → count ≤ buf.length →
      ∃ r, my_scull_p_write dev nonblock buf count = some r ∧ 1 ≤ r.retval ∧
        r.retval ≤ min (count : Int) f) := by
  obtain ⟨b, rp, wp, h1, h2, h3, h4, h5, h6, h7, h8, h9⟩ := pipe_reachable_inv C hC1 hC dev hreach
  obtain ⟨buffer, end_, bs, rp0, wp0, nr, nw, sem⟩ := dev
  simp only at h1 h3 h4 h5 h6 h9
  subst h1 h3 h4 h5 h6 h9
  constructor
  · intro nonblock ucap count hne hc hu
    simp only at hne
    have he : rp ≠ wp := fun e => hne (by rw [e])
    have hl := read_run_le C rp wp count h7 h8
    have hp := read_run_pos C rp wp count h7 hc
    refine ⟨_, pipe_read_nonempty C b rp wp nr nw hC h2 h7 h8 he nonblock ucap count (by omega),
      ?_, ?_, ?_⟩
    · simp only
      omega
    · simp only
      omega
    · simp only [List.length_take, List.length_drop, h2]
      omega
  · intro nonblock buf count f hf hpos hc hbuf
    rw [space_free_eq C (some b) rp wp nr nw 1 hC1 hC h7 h8] at hf
    simp only [Option.some.injEq] at hf
    subst hf
    have hfree : 0 < free_of C rp wp := by omega
    have hl := write_run_le C rp wp count h7 h8
    have hp := write_run_pos C rp wp count h7 h8 hfree hc
    refine ⟨_, pipe_write_space C b rp wp nr nw hC1 hC h2 h7 h8 hfree nonblock buf count
      (by omega), ?_, ?_⟩
    · simp only
      omega
    · simp only
      omega

/-- Witness of C31: a pipe of capacity 4 after two bytes were written; a read
of three bytes returns a count between 1 and 3. -/
theorem transfer_progress_witness :
    ∃ dev : my_scull_pipe, pipe_reachable ((4 : Nat) : Int) dev ∧ dev.rp ≠ dev.wp ∧
      ∃ r, my_scull_p_read dev false 3 3 = some r ∧ 1 ≤ r.retval ∧
        r.retval ≤ ((3 : Nat) : Int) ∧ (r.out.length : Int) = r.retval := by
  have hr : pipe_reachable ((4 : Nat) : Int)
      { buffer := some [7, 8, 0, 0], end_ := 4, buffersize := 4, rp := 0, wp := 2,
        nreaders := 1, nwriters := 1, sem := 1 } :=
    @pipe_reachable.write ((4 : Nat) : Int) _ false [7, 8] 2 _
      (@pipe_reachable.opened ((4 : Nat) : Int) okmem true true _ _ rfl) rfl
  exact ⟨_, hr, by decide,
    (transfer_progress 4 (by decide) (by decide) _ hr).1 false 3 3 (by decide) (by decide)
      (by decide)⟩

/-- What a successful `my_scull_p_open` leaves behind. -/
theorem open_effect (C : Int) (d : my_scull_pipe) (m m2 : Kmem) (fr fw : Bool)
    (d2 : my_scull_pipe) (ho : my_scull_p_open C d m fr fw = (0, d2, m2)) :
    0 < d.sem ∧ d2.sem = d.sem ∧
    d2.nreaders = (if fr then to_int (d.nreaders + 1) else d.nreaders) ∧
    d2.nwriters = (if fw then to_int (d.nwriters + 1) else d.nwriters) ∧
    (∀ b, d.buffer = some b → d2.buffer = some b ∧ m2 = m) := by
  unfold my_scull_p_open at ho
  by_cases hs : 0 < d.sem
  · have hup : up (d.sem - 1) = d.sem := by unfold up; omega
    simp only [down_interruptible, hs, if_true, ne_eq, not_true_eq_false, if_false] at ho
    split at ho
    · simp only [Prod.mk.injEq] at ho
      have := ho.1
      simp [ENOMEM] at this
    · rename_i b0 m0 hgot
      simp only [Prod.mk.injEq] at ho
      obtain ⟨_, h2, h3⟩ := ho
      subst h2 h3
      refine ⟨hs, ?_, ?_, ?_, ?_⟩
      · cases fr <;> cases fw <;> simp [hup]
      · cases fr <;> cases fw <;> simp
      · cases fr <;> cases fw <;> simp
      · intro b hb
        simp only [hb, Prod.mk.injEq, Option.some.injEq] at hgot
        obtain ⟨g1, g2⟩ := hgot
        subst g1 g2
        cases fr <;> cases fw <;> simp
  · simp only [down_interruptible, hs, if_false] at ho
    simp [ERESTARTSYS, EINTR] at ho

/-- C32. Every successful `my_scull_p_open`, whether or not the region is
there and whatever unread data it holds, leaves `rp == wp ==` start of the
region and `end == start + buffersize`, and adds one to `nreaders` for a file
opened for reading and one to `nwriters` for a file opened for writing (the
counts being `int`s below `INT_MAX`); a region that was there is kept, and
the bytes written but not yet read are gone: the buffer is empty, so a
non-blocking read returns `-EAGAIN`. -/
theorem open_empties (C : Int) (d : my_scull_pipe) (m m2 : Kmem) (fr fw : Bool)
    (d2 : my_scull_pipe) (ho : my_scull_p_open C d m fr fw = (0, d2, m2))
    (hr0 : INT_MIN ≤ d.nreaders) (hr1 : d.nreaders < INT_MAX) (hw0 : INT_MIN ≤ d.nwriters)
    (hw1 : d.nwriters < INT_MAX) :
    d2.rp = 0 ∧ d2.wp = 0 ∧ d2.end_ = C ∧ d2.buffersize = C ∧
    d2.nreaders = d.nreaders + (if fr then 1 else 0) ∧
    d2.nwriters = d.nwriters + (if fw then 1 else 0) ∧
    (∀ b, d.buffer = some b → d2.buffer = some b) ∧
    ∀ (ucap count : Nat),
      my_scull_p_read d2 true ucap count = some { retval := -EAGAIN, dev := d2, out := [] } := by
  obtain ⟨c1, c2, c3, c4⟩ := open_resets_cursors C d m m2 fr fw d2 ho
  obtain ⟨e1, e2, e3, e4, e5⟩ := open_effect C d m m2 fr fw d2 ho
  have hr : to_int (d.nreaders + 1) = d.nreaders + 1 :=
    to_int_of_range (by omega) (by omega)
  have hw : to_int (d.nwriters + 1) = d.nwriters + 1 :=
    to_int_of_range (by omega) (by omega)
  refine ⟨c1, c2, c3, c4, ?_, ?_, fun b hb => (e5 b hb).1, ?_⟩
  · rw [e3]
    cases fr
    · simp
    · simp only [if_true]
      exact hr
  · rw [e4]
    cases fw
    · simp
    · simp only [if_true]
      exact hw
  · intro ucap count
    exact pipe_read_nodata d2 (by rw [e2]; exact e1) (by rw [c1, c2]) ucap count

/-- Witness of C32: a pipe of capacity 4 holding two unread bytes, one reader
and one writer, is opened once more for reading. -/
theorem open_empties_witness :
    ∃ d2 m2, my_scull_p_open 4
        { buffer := some [7, 8, 0, 0], end_ := 4, buffersize := 4, rp := 0, wp := 2,
          nreaders := 1, nwriters := 1, sem := 1 } okmem true false = (0, d2, m2) ∧
      d2.rp = 0 ∧ d2.wp = 0 ∧ d2.nreaders = 1 + (if true then 1 else 0) ∧
      d2.buffer = some [7, 8, 0, 0] := by
  refine ⟨_, _, rfl, ?_⟩
  have h := open_empties 4
    { buffer := some [7, 8, 0, 0], end_ := 4, buffersize := 4, rp := 0, wp := 2,
      nreaders := 1, nwriters := 1, sem := 1 } okmem _ true false _ rfl (by decide) (by decide)
    (by decide) (by decide)
  exact ⟨h.1, h.2.1, h.2.2.2.2.1, h.2.2.2.2.2.2.1 _ rfl⟩

/-! ## The pipe: one write, then one read -/

/-- C14, as stated, fails: a write never crosses the physical end of the
region. In a pipe of capacity 8 that is empty with both cursors at 4, a write
of 6 bytes accepts 4, and the read of 6 bytes that follows returns those 4. -/
theorem pipe_write_stops_at_end :
    ∃ dev : my_scull_pipe, pipe_reachable 8 dev ∧ dev.rp = 4 ∧ dev.wp = 4 ∧
      ∃ w r, my_scull_p_write dev false [1, 2, 3, 4, 5, 6] 6 = some w ∧ w.retval = 4 ∧
        my_scull_p_read w.dev false 6 6 = some r ∧ r.out = [1, 2, 3, 4] := by
  have hr : pipe_reachable 8
      { buffer := some [9, 9, 9, 9, 0, 0, 0, 0], end_ := 8, buffersize := 8, rp := 4, wp := 4,
        nreaders := 1, nwriters := 1, sem := 1 } :=
    @pipe_reachable.read 8 _ false 4 4 _
      (@pipe_reachable.write 8 _ false [9, 9, 9, 9] 4 _
        (@pipe_reachable.opened 8 okmem true true _ _ rfl) rfl) rfl
  exact ⟨_, hr, rfl, rfl, _, _, rfl, by decide, rfl, by decide⟩

/-- C14 (amended). In every empty buffer state reached from a fresh open with
capacity `C`, both cursors at `p`, and for every `1 ≤ k ≤ C - 1`: one write of
`k` bytes accepts `n = min(k, C - p)` bytes, and the read of `k` bytes that
follows returns exactly those `n` bytes, in order; they are the `k` bytes
written when `p + k ≤ C`, so that the data does not cross the physical end of
the region. -/
theorem pipe_write_then_read (C : Nat) (hC1 : 1 ≤ C) (hC : (C : Int) ≤ INT_MAX)
    (dev : my_scull_pipe) (hreach : pipe_reachable (C : Int) dev) (he : dev.rp = dev.wp)
    (k : Nat) (buf : List Byte) (hk1 : 1 ≤ k) (hk : k ≤ C - 1) (hbuf : buf.length = k)
    (nonblock : Bool) :
    ∃ w r, my_scull_p_write dev nonblock buf k = some w ∧
      w.retval = ((min k (C - dev.rp.toNat) : Nat) : Int) ∧
      my_scull_p_read w.dev nonblock k k = some r ∧
      r.retval = ((min k (C - dev.rp.toNat) : Nat) : Int) ∧
      r.out = buf.take (min k (C - dev.rp.toNat)) ∧
      (dev.rp.toNat + k ≤ C → r.out = buf) := by
  obtain ⟨b, rp, wp, h1, h2, h3, h4, h5, h6, h7, h8, h9⟩ := pipe_reachable_inv C hC1 hC dev hreach
  obtain ⟨buffer, end_, bs, rp0, wp0, nr, nw, sem⟩ := dev
  simp only at h1 h3 h4 h5 h6 h9 he
  subst h1 h3 h4 h5 h6 h9
  have hpw : rp = wp := Int.ofNat_inj.mp he
  subst hpw
  simp only [Int.toNat_natCast]
  have hf0 : free_of C rp rp = C - 1 := by
    unfold free_of
    rw [if_pos rfl]
  have hrun : write_run C rp rp k = min k (C - rp) := by
    unfold write_run
    rw [if_pos (Nat.le_refl _), hf0]
    omega
  have hn1 : 1 ≤ min k (C - rp) := by omega
  have hnk : min k (C - rp) ≤ k := Nat.min_le_left _ _
  have hnc : min k (C - rp) ≤ C - rp := Nat.min_le_right _ _
  have hw := pipe_write_space C b rp rp nr nw hC1 hC h2 h7 h7 (by rw [hf0]; omega) nonblock buf k
    (by rw [hrun, hbuf]; exact hnk)
  rw [hrun] at hw
  generalize hn : min k (C - rp) = n at *
  have hlen : (buf.take n).length = n := by
    rw [List.length_take]
    omega
  have hfit : rp + (buf.take n).length ≤ b.length := by
    rw [hlen, h2]
    omega
  have hb2 : (overwrite b rp (buf.take n)).length = C := by
    rw [overwrite_length _ _ _ hfit, h2]
  have hwlt : wrap C rp n < C := wrap_lt C rp n hC1 (by omega)
  have hne : rp ≠ wrap C rp n := by
    unfold wrap
    split <;> omega
  have hrr : read_run C rp (wrap C rp n) k = n := by
    unfold read_run wrap
    by_cases hc : rp + n = C
    · rw [if_pos hc, if_neg (by omega)]
      omega
    · rw [if_neg hc, if_pos (by omega)]
      omega
  have hrd := pipe_read_nonempty C (overwrite b rp (buf.take n)) rp (wrap C rp n) nr nw hC hb2
    h7 hwlt hne nonblock k k (by rw [hrr]; exact hnk)
  rw [hrr] at hrd
  have hout : ((overwrite b rp (buf.take n)).drop rp).take n = buf.take n := by
    have := overwrite_read b rp (buf.take n) hfit
    rw [hlen] at this
    exact this
  refine ⟨_, _, hw, rfl, hrd, rfl, hout, ?_⟩
  intro hpk
  simp only
  rw [hout]
  have : n = k := by omega
  rw [this, ← hbuf, List.take_length]

/-- Witness of C14 (amended): a freshly opened pipe of capacity 8, both
cursors at 0; three bytes are written and read back. -/
theorem pipe_write_then_read_witness :
    ∃ dev : my_scull_pipe, pipe_reachable ((8 : Nat) : Int) dev ∧ dev.rp = dev.wp ∧
      ∃ w r, my_scull_p_write dev false [1, 2, 3] 3 = some w ∧
        w.retval = ((min 3 (8 - dev.rp.toNat) : Nat) : Int) ∧
        my_scull_p_read w.dev false 3 3 = some r ∧
        r.retval = ((min 3 (8 - dev.rp.toNat) : Nat) : Int) ∧
        r.out = [1, 2, 3].take (min 3 (8 - dev.rp.toNat)) ∧
        (dev.rp.toNat + 3 ≤ 8 → r.out = [1, 2, 3]) := by
  have hr : pipe_reachable ((8 : Nat) : Int)
      { buffer := some [0, 0, 0, 0, 0, 0, 0, 0], end_ := 8, buffersize := 8, rp := 0, wp := 0,
        nreaders := 1, nwriters := 1, sem := 1 } :=
    @pipe_reachable.opened ((8 : Nat) : Int) okmem true true _ _ rfl
  exact ⟨_, hr, rfl,
    pipe_write_then_read 8 (by decide) (by decide) _ hr rfl 3 [1, 2, 3] (by decide) (by decide)
      rfl false⟩

/-! ## The pipe: the life of the region -/

/-- A successful open allocates exactly when it finds no region. -/
theorem open_calls (C : Int) (d : my_scull_pipe) (m m2 : Kmem) (fr fw : Bool)
    (d2 : my_scull_pipe) (ho : my_scull_p_open C d m fr fw = (0, d2, m2)) :
    d2.buffer.isSome = true ∧ m2.calls = m.calls + (if d.buffer.isSome then 0 else 1) := by
  unfold my_scull_p_open at ho
  by_cases hs : 0 < d.sem
  · simp only [down_interruptible, hs, if_true, ne_eq, not_true_eq_false, if_false] at ho
    split at ho
    · simp only [Prod.mk.injEq] at ho
      have := ho.1
      simp [ENOMEM] at this
    · rename_i b0 m0 hgot
      simp only [Prod.mk.injEq] at ho
      obtain ⟨_, h2, h3⟩ := ho
      subst h2 h3
      constructor
      · cases fr <;> cases fw <;> simp
      · cases hb : d.buffer with
        | some b =>
          simp only [hb, Prod.mk.injEq, Option.some.injEq] at hgot
          rw [← hgot.2]
          simp
        | none =>
          simp only [hb] at hgot
          have : m0.calls = m.calls + 1 := by
            unfold kmalloc at hgot
            simp only [Prod.mk.injEq] at hgot
            rw [← hgot.2]
          rw [this]
          simp
  · simp only [down_interruptible, hs, if_false] at ho
    simp [ERESTARTSYS, EINTR] at ho

/-- What `my_scull_p_release` leaves behind. -/
theorem release_effect (d d1 : my_scull_pipe) (fr fw : Bool) (ret : Int)
    (h : my_scull_p_release d fr fw = some (ret, d1)) (hs : d.sem = 1) :
    d1.sem = 1 ∧
    d1.nreaders = (if fr then to_int (d.nreaders - 1) else d.nreaders) ∧
    d1.nwriters = (if fw then to_int (d.nwriters - 1) else d.nwriters) ∧
    d1.buffer = (if to_int (d1.nreaders + d1.nwriters) = 0 then none else d.buffer) := by
  unfold my_scull_p_release at h
  simp only [down, hs, zero_lt_one, if_true, Option.some.injEq, Prod.mk.injEq] at h
  obtain ⟨_, h2⟩ := h
  subst h2
  cases fr <;> cases fw <;> simp only [up, if_true, if_false, Bool.false_eq_true] <;>
    split <;> simp_all

theorem to_int_succ_count (a : Nat) (h : (a : Int) < INT_MAX) :
    to_int ((a : Int) + 1) = ((a + 1 : Nat) : Int) := by
  unfold INT_MAX at h
  unfold to_int
  omega

theorem to_int_pred_count (a : Nat) (h0 : 0 < a) (h : (a : Int) ≤ INT_MAX) :
    to_int ((a : Int) - 1) = ((a - 1 : Nat) : Int) := by
  unfold INT_MAX at h
  unfold to_int
  omega

theorem to_int_sum_zero (a b : Nat) (ha : (a : Int) ≤ INT_MAX) (hb : (b : Int) ≤ INT_MAX) :
    to_int ((a : Int) + (b : Int)) = 0 ↔ a + b = 0 := by
  unfold INT_MAX at ha hb
  unfold to_int
  omega

/-- One successful open keeps the invariant of the device. -/
theorem life_open_inv (C : Int) (calls0 : Nat) (st : LifeState) (n : Nat) (fr fw : Bool)
    (files : PipeFiles) (d2 : my_scull_pipe) (m2 : Kmem) (hinv : life_inv calls0 st n)
    (hn : (n : Int) < INT_MAX) (hf : files_open st.files fr fw = some files)
    (ho : my_scull_p_open C st.dev st.mem fr fw = (0, d2, m2)) :
    life_inv calls0 { dev := d2, mem := m2, frees := st.frees, files := files } (n + 1) := by
  obtain ⟨i1, i2, i3, i4, i5, i6⟩ := hinv
  obtain ⟨_, e2, e3, e4, _⟩ := open_effect C st.dev st.mem m2 fr fw d2 ho
  obtain ⟨c1, c2⟩ := open_calls C st.dev st.mem m2 fr fw d2 ho
  have hr : ((st.files.ro + st.files.rw : Nat) : Int) < INT_MAX := by
    unfold PipeFiles.total at i4
    omega
  have hw : ((st.files.wo + st.files.rw : Nat) : Int) < INT_MAX := by
    unfold PipeFiles.total at i4
    omega
  have hcalls : m2.calls = calls0 + st.frees + 1 := by
    rw [c2, i6]
    split <;> omega
  rw [i2] at e3
  rw [i3] at e4
  have hr1 := to_int_succ_count _ hr
  have hw1 := to_int_succ_count _ hw
  unfold life_inv
  simp only [c1, if_true, true_iff]
  unfold PipeFiles.total at i4 ⊢
  clear hr hw c2 i6 i5 i2 i3 ho
  cases fr <;> cases fw <;> simp only [files_open, Option.some.injEq] at hf
  · cases hf
  · subst hf
    simp only [if_true, if_false, Bool.false_eq_true] at e3 e4
    rw [hw1] at e4
    clear hr1 hw1
    refine ⟨by rw [e2, i1], e3, ?_, by simp only; omega, by simp only; omega, hcalls⟩
    rw [e4]
    simp only
    congr 1
    omega
  · subst hf
    simp only [if_true, if_false, Bool.false_eq_true] at e3 e4
    rw [hr1] at e3
    clear hr1 hw1
    refine ⟨by rw [e2, i1], ?_, e4, by simp only; omega, by simp only; omega, hcalls⟩
    rw [e3]
    simp only
    congr 1
    omega
  · subst hf
    simp only [if_true] at e3 e4
    rw [hr1] at e3
    rw [hw1] at e4
    clear hr1 hw1
    refine ⟨by rw [e2, i1], ?_, ?_, by simp only; omega, by simp only; omega, hcalls⟩
    · rw [e3]
      simp only
      congr 1
    · rw [e4]
      simp only
      congr 1

/-- The counts after the release of a file that is open. -/
theorem life_release_counts (st : LifeState) (n : Nat) (calls0 : Nat) (fr fw : Bool)
    (files : PipeFiles) (ret : Int) (d1 : my_scull_pipe) (hinv : life_inv calls0 st n)
    (hn : (n : Int) < INT_MAX) (hf : files_close st.files fr fw = some files)
    (hr : my_scull_p_release st.dev fr fw = some (ret, d1)) :
    d1.nreaders = ((files.ro + files.rw : Nat) : Int) ∧
    d1.nwriters = ((files.wo + files.rw : Nat) : Int) ∧ files.total + 1 = st.files.total := by
  obtain ⟨i1, i2, i3, i4, _, _⟩ := hinv
  obtain ⟨_, e2, e3, _⟩ := release_effect st.dev d1 fr fw ret hr i1
  have hrb : ((st.files.ro + st.files.rw : Nat) : Int) ≤ INT_MAX := by
    unfold PipeFiles.total at i4
    omega
  have hwb : ((st.files.wo + st.files.rw : Nat) : Int) ≤ INT_MAX := by
    unfold PipeFiles.total at i4
    omega
  rw [i2] at e2
  rw [i3] at e3
  unfold PipeFiles.total
  clear i2 i3 hr i4 hn
  cases fr <;> cases fw <;> simp only [files_close] at hf
  · cases hf
  · split at hf
    · rename_i hpos
      simp only [Option.some.injEq] at hf
      subst hf
      simp only [if_true, if_false, Bool.false_eq_true] at e2 e3
      rw [to_int_pred_count _ (by omega) hwb] at e3
      clear hrb hwb
      refine ⟨e2, ?_, by simp only; omega⟩
      rw [e3]
      simp only
      congr 1
      omega
    · cases hf
  · split at hf
    · rename_i hpos
      simp only [Option.some.injEq] at hf
      subst hf
      simp only [if_true, if_false, Bool.false_eq_true] at e2 e3
      rw [to_int_pred_count _ (by omega) hrb] at e2
      clear hrb hwb
      refine ⟨?_, e3, by simp only; omega⟩
      rw [e2]
      simp only
      congr 1
      omega
    · cases hf
  · split at hf
    · rename_i hpos
      simp only [Option.some.injEq] at hf
      subst hf
      simp only [if_true] at e2 e3
      rw [to_int_pred_count _ (by omega) hrb] at e2
      rw [to_int_pred_count _ (by omega) hwb] at e3
      clear hrb hwb
      refine ⟨?_, ?_, by simp only; omega⟩
      · rw [e2]
        simp only
        congr 1
        omega
      · rw [e3]
        simp only
        congr 1
        omega
    · cases hf

/-- The release of a file that is open keeps the invariant of the device. -/
theorem life_release_inv (st : LifeState) (n : Nat) (calls0 : Nat) (fr fw : Bool)
    (files : PipeFiles) (ret : Int) (d1 : my_scull_pipe) (hinv : life_inv calls0 st n)
    (hn : (n : Int) < INT_MAX) (hf : files_close st.files fr fw = some files)
    (hr : my_scull_p_release st.dev fr fw = some (ret, d1)) :
    life_inv calls0
      { dev := d1, mem := st.mem,
        frees := st.frees + (if st.dev.buffer.isSome && d1.buffer.isNone then 1 else 0),
        files := files } n := by
  obtain ⟨k1, k2, k3⟩ := life_release_counts st n calls0 fr fw files ret d1 hinv hn hf hr
  obtain ⟨i1, _, _, i4, i5, i6⟩ := hinv
  obtain ⟨e1, _, _, e4⟩ := release_effect st.dev d1 fr fw ret hr i1
  have hold : st.dev.buffer.isSome = true := i5.mpr (by omega)
  have hrb : ((files.ro + files.rw : Nat) : Int) ≤ INT_MAX := by
    unfold PipeFiles.total at k3 i4
    omega
  have hwb : ((files.wo + files.rw : Nat) : Int) ≤ INT_MAX := by
    unfold PipeFiles.total at k3 i4
    omega
  rw [k1, k2] at e4
  have hd1 : d1.buffer =
      if files.ro + files.rw + (files.wo + files.rw) = 0 then none else st.dev.buffer := by
    rw [e4]
    by_cases hz : files.ro + files.rw + (files.wo + files.rw) = 0
    · rw [if_pos hz, if_pos ((to_int_sum_zero _ _ hrb hwb).mpr hz)]
    · rw [if_neg hz, if_neg (fun hc => hz ((to_int_sum_zero _ _ hrb hwb).mp hc))]
  clear e4
  have e4 := hd1
  clear hd1
  clear hrb hwb
  rw [hold] at i6
  simp only [if_true] at i6
  unfold life_inv
  simp only [hold, Bool.true_and]
  by_cases hz : files.ro + files.rw + (files.wo + files.rw) = 0
  · rw [if_pos hz] at e4
    rw [e4]
    simp only [Option.isNone_none, if_true, Option.isSome_none, Bool.false_eq_true, if_false,
      false_iff]
    unfold PipeFiles.total at k3 i4 ⊢
    refine ⟨e1, k1, k2, by omega, by omega, by omega⟩
  · rw [if_neg hz] at e4
    rw [e4]
    cases hb : st.dev.buffer with
    | none => rw [hb] at hold; cases hold
    | some b =>
      simp only [Option.isNone_some, Bool.false_eq_true, if_false, Option.isSome_some, if_true,
        true_iff]
      unfold PipeFiles.total at k3 i4 ⊢
      refine ⟨e1, k1, k2, by omega, by omega, by omega⟩

theorem life_inv_mono (calls0 : Nat) (st : LifeState) (n n1 : Nat) (h : life_inv calls0 st n)
    (hn : n ≤ n1) : life_inv calls0 st n1 := by
  obtain ⟨i1, i2, i3, i4, i5, i6⟩ := h
  exact ⟨i1, i2, i3, Nat.le_trans i4 hn, i5, i6⟩

/-- One call keeps the invariant of the device. -/
theorem life_step_inv (C : Int) (calls0 : Nat) (st st1 : LifeState) (op : LifeOp) (n : Nat)
    (hinv : life_inv calls0 st n) (hn : (n : Int) < INT_MAX)
    (h : life_step C st op = some st1) : life_inv calls0 st1 (n + 1) := by
  cases op with
  | «open» fr fw =>
    simp only [life_step] at h
    cases hf : files_open st.files fr fw with
    | none => rw [hf] at h; cases h
    | some files =>
      rw [hf] at h
      simp only at h
      rcases ho : my_scull_p_open C st.dev st.mem fr fw with ⟨ret, d2, m2⟩
      rw [ho] at h
      simp only at h
      by_cases hret : ret = 0
      · rw [if_pos hret] at h
        simp only [Option.some.injEq] at h
        subst h
        subst hret
        exact life_open_inv C calls0 st n fr fw files d2 m2 hinv hn hf ho
      · rw [if_neg hret] at h
        cases h
  | release fr fw =>
    simp only [life_step] at h
    cases hf : files_close st.files fr fw with
    | none => rw [hf] at h; cases h
    | some files =>
      rw [hf] at h
      simp only at h
      cases hr : my_scull_p_release st.dev fr fw with
      | none => rw [hr] at h; cases h
      | some p =>
        obtain ⟨ret, d1⟩ := p
        rw [hr] at h
        simp only [Option.some.injEq] at h
        subst h
        exact life_inv_mono calls0 _ n (n + 1)
          (life_release_inv st n calls0 fr fw files ret d1 hinv hn hf hr) (Nat.le_succ n)

/-- A sequence of calls keeps the invariant of the device. -/
theorem life_run_inv (C : Int) (calls0 : Nat) (ops : List LifeOp) :
    ∀ (st st1 : LifeState) (n : Nat), life_inv calls0 st n →
      ((n + ops.length : Nat) : Int) ≤ INT_MAX → life_run C st ops = some st1 →
      ∃ n1, life_inv calls0 st1 n1 := by
  induction ops with
  | nil =>
    intro st st1 n hinv _ h
    simp only [life_run, Option.some.injEq] at h
    subst h
    exact ⟨n, hinv⟩
  | cons op ops ih =>
    intro st st1 n hinv hn h
    simp only [life_run, Option.bind_eq_some] at h
    obtain ⟨st2, h2, h3⟩ := h
    simp only [List.length_cons] at hn
    have hn1 : (n : Int) < INT_MAX := by omega
    refine ih st2 st1 (n + 1) (life_step_inv C calls0 st st2 op n hinv hn1 h2) ?_ h3
    have : n + 1 + ops.length = n + (ops.length + 1) := by omega
    rw [this]
    exact hn

/-- C20. Buffer lifecycle. From the initial device, after every sequence of
successful opens (for reading, writing or both) and releases of files that
are open (fewer than `2^31` calls, the counts being `int`s): the region is
there exactly when `nreaders + nwriters > 0`; the regions allocated are those
freed and, if it is there, the one held; so with zero readers and zero
writers no region is held and as many were freed as allocated. An open
allocates exactly when it finds no region, and a release frees the region
exactly when it brings both counts to zero. Every `kmalloc` of such a
sequence succeeds, so the allocations are counted by the calls of the
allocator. -/
theorem buffer_lifecycle (C : Int) (m0 : Kmem) (ops : List LifeOp) (st : LifeState)
    (hlen : (ops.length : Int) ≤ INT_MAX)
    (hrun : life_run C { dev := pipe_init, mem := m0, frees := 0, files := ⟨0, 0, 0⟩ } ops
      = some st) :
    (st.dev.buffer.isSome = true ↔ 0 < st.dev.nreaders + st.dev.nwriters) ∧
    st.mem.calls - m0.calls = st.frees + (if st.dev.buffer.isSome then 1 else 0) ∧
    (st.dev.nreaders = 0 → st.dev.nwriters = 0 →
      st.dev.buffer = none ∧ st.frees = st.mem.calls - m0.calls) ∧
    (∀ (d : my_scull_pipe) (m : Kmem) (fr fw : Bool) (d2 : my_scull_pipe) (m2 : Kmem),
      my_scull_p_open C d m fr fw = (0, d2, m2) →
      m2.calls = m.calls + (if d.buffer.isSome then 0 else 1)) ∧
    (∀ (d : my_scull_pipe) (fr fw : Bool) (ret : Int) (d1 : my_scull_pipe), d.sem = 1 →
      my_scull_p_release d fr fw = some (ret, d1) →
      d1.buffer = if to_int (d1.nreaders + d1.nwriters) = 0 then none else d.buffer) := by
  have h0 : life_inv m0.calls { dev := pipe_init, mem := m0, frees := 0, files := ⟨0, 0, 0⟩ } 0 := by
    refine ⟨rfl, rfl, rfl, Nat.le_refl _, ?_, rfl⟩
    simp [pipe_init, PipeFiles.total]
  obtain ⟨n1, i1, i2, i3, i4, i5, i6⟩ :=
    life_run_inv C m0.calls ops _ st 0 h0 (by rw [Nat.zero_add]; exact hlen) hrun
  have hpos : 0 < st.dev.nreaders + st.dev.nwriters ↔ 0 < st.files.total := by
    rw [i2, i3]
    unfold PipeFiles.total
    omega
  refine ⟨by rw [hpos]; exact i5, ?_, ?_,
    fun d m fr fw d2 m2 ho => (open_calls C d m m2 fr fw d2 ho).2,
    fun d fr fw ret d1 hs hr => (release_effect d d1 fr fw ret hr hs).2.2.2⟩
  · rw [i6]
    omega
  · intro hr hw
    have ht : ¬ (0 < st.files.total) := by
      rw [← hpos, hr, hw]
      decide
    have hb : st.dev.buffer.isSome = false := by
      cases hc : st.dev.buffer.isSome with
      | false => rfl
      | true => exact absurd (i5.mp hc) ht
    have hnone : st.dev.buffer = none := by
      cases hc : st.dev.buffer with
      | none => rfl
      | some b => rw [hc] at hb; cases hb
    refine ⟨hnone, ?_⟩
    rw [i6, hb]
    simp

/-- Witness of C20: a pipe of capacity 4 is opened for reading, opened for
writing, and both files are released; one region was allocated and freed. -/
theorem buffer_lifecycle_witness :
    ∃ st, life_run 4 { dev := pipe_init, mem := okmem, frees := 0, files := ⟨0, 0, 0⟩ }
        [LifeOp.open true false, LifeOp.open false true, LifeOp.release true false,
         LifeOp.release false true] = some st ∧
      st.dev.buffer = none ∧ st.frees = 1 ∧ st.mem.calls - okmem.calls = 1 := by
  refine ⟨_, rfl, ?_⟩
  have h := buffer_lifecycle 4 okmem
    [LifeOp.open true false, LifeOp.open false true, LifeOp.release true false,
     LifeOp.release false true] _ (by decide) rfl
  exact ⟨(h.2.2.1 rfl rfl).1, rfl, rfl⟩

/-! ## The pipe as a byte stream -/

/-- The byte at position `i` of what is held. -/
theorem held_at_getElem? (b : List Byte) (C rp wp : Nat) (hb : b.length = C) (i : Nat) :
    (held_at b C rp wp)[i]? =
      if rp ≤ wp then (if i < wp - rp then b[rp + i]? else none)
      else if i < C - rp then b[rp + i]?
      else if i - (C - rp) < wp then b[i - (C - rp)]? else none := by
  unfold held_at
  by_cases h : rp ≤ wp
  · rw [if_pos h, if_pos h, drop_take_getElem?]
  · have hl : ((b.drop rp).take (C - rp)).length = C - rp := by
      rw [List.length_take, List.length_drop, hb]
      omega
    rw [if_neg h, if_neg h, List.getElem?_append, hl]
    by_cases h1 : i < C - rp
    · rw [if_pos h1, if_pos h1, drop_take_getElem?, if_pos h1]
    · rw [if_neg h1, if_neg h1, List.getElem?_take]

theorem held_at_length (b : List Byte) (C rp wp : Nat) (hb : b.length = C) (hrp : rp < C)
    (hwp : wp < C) :
    (held_at b C rp wp).length = if rp ≤ wp then wp - rp else C - rp + wp := by
  unfold held_at
  split
  · rw [List.length_take, List.length_drop, hb]
    omega
  · rw [List.length_append, List.length_take, List.length_drop, List.length_take, hb]
    omega

/-- A read of `n` bytes hands out the oldest `n` bytes held and leaves the
others. -/
theorem held_at_read (b : List Byte) (C rp wp n : Nat) (hb : b.length = C) (hrp : rp < C)
    (hwp : wp < C) (hn1 : n ≤ C - rp) (hn2 : rp ≤ wp → n ≤ wp - rp) :
    held_at b C rp wp = (b.drop rp).take n ++ held_at b C (wrap C rp n) wp := by
  have hw : wrap C rp n < C := wrap_lt C rp n (by omega) (by omega)
  have hl : ((b.drop rp).take n).length = n := by
    rw [List.length_take, List.length_drop, hb]
    omega
  apply List.ext_getElem?
  intro i
  rw [List.getElem?_append, hl, held_at_getElem? b C rp wp hb,
    held_at_getElem? b C (wrap C rp n) wp hb, drop_take_getElem?]
  unfold wrap at *
  by_cases hr : rp + n = C
  · rw [if_pos hr] at hw ⊢
    split_ifs <;> first | rfl | omega | (congr 1; omega)
  · rw [if_neg hr] at hw ⊢
    split_ifs <;> first | rfl | omega | (congr 1; omega)

/-- A write of the bytes `src` at `wp`, within the free space, appends them to
what is held. -/
theorem held_at_write (b : List Byte) (C rp wp : Nat) (src : List Byte) (hb : b.length = C)
    (hrp : rp < C) (hwp : wp < C) (hn1 : src.length ≤ C - wp)
    (hn2 : src.length ≤ free_of C rp wp) :
    held_at (overwrite b wp src) C rp (wrap C wp src.length) = held_at b C rp wp ++ src := by
  rw [free_of_cases C rp wp hrp hwp] at hn2
  have hw : wrap C wp src.length < C := wrap_lt C wp _ (by omega) (by omega)
  have ho : wp + src.length ≤ b.length := by omega
  have hlo : (overwrite b wp src).length = C := by rw [overwrite_length b wp src ho, hb]
  have hl := held_at_length b C rp wp hb hrp hwp
  apply List.ext_getElem?
  intro i
  rw [List.getElem?_append, hl, held_at_getElem? _ C rp _ hlo,
    held_at_getElem? b C rp wp hb]
  simp only [overwrite_getElem? b wp src ho]
  clear hl hlo
  generalize hn : src.length = n at *
  have hnone : ∀ k, n ≤ k → src[k]? = none := by
    intro k hk
    rw [List.getElem?_eq_none]
    omega
  unfold wrap at *
  by_cases hr : wp + n = C
  · rw [if_pos hr] at hw ⊢
    split_ifs at hn2 ⊢ <;>
      first | rfl | omega | (congr 1; omega) | (rw [hnone _ (by omega)])
  · rw [if_neg hr] at hw ⊢
    split_ifs at hn2 ⊢ <;>
      first | rfl | omega | (congr 1; omega) | (rw [hnone _ (by omega)])

/-- Bytes stored at `wp` within the free space, the cursor staying where it
is, leave what is held as it was. -/
theorem held_at_fault (b : List Byte) (C rp wp : Nat) (src : List Byte) (hb : b.length = C)
    (hrp : rp < C) (hwp : wp < C) (hn1 : src.length ≤ C - wp)
    (hn2 : src.length ≤ free_of C rp wp) :
    held_at (overwrite b wp src) C rp wp = held_at b C rp wp := by
  rw [free_of_cases C rp wp hrp hwp] at hn2
  have ho : wp + src.length ≤ b.length := by omega
  have hlo : (overwrite b wp src).length = C := by rw [overwrite_length b wp src ho, hb]
  apply List.ext_getElem?
  intro i
  rw [held_at_getElem? _ C rp _ hlo, held_at_getElem? b C rp wp hb]
  simp only [overwrite_getElem? b wp src ho]
  clear hlo
  generalize hn : src.length = n at *
  split_ifs at hn2 ⊢ <;> first | rfl | omega

theorem held_eq (b : List Byte) (C rp wp : Nat) (nr nw : Int) (sem : Nat) :
    held (my_scull_pipe.mk (some b) (C : Int) (C : Int) (rp : Int) (wp : Int) nr nw sem)
      = held_at b C rp wp := by
  simp only [held, Int.toNat_natCast]

/-- One call keeps the shape of the device and the stream: what was accepted
is what was returned followed by what is held. -/
theorem pipe_call_stream (C : Nat) (hC1 : 1 ≤ C) (hC : (C : Int) ≤ INT_MAX) (t : PipeTrace)
    (hinv : pipe_inv C t.dev) (hs : t.accepted = t.returned ++ held t.dev) (c : PipeCall) :
    ∃ t1, pipe_call t c = some t1 ∧ pipe_inv C t1.dev ∧
      t1.accepted = t1.returned ++ held t1.dev := by
  obtain ⟨dev, acc, ret⟩ := t
  obtain ⟨b, rp, wp, h1, h2, h3, h4, h5, h6, h7, h8, h9⟩ := hinv
  obtain ⟨buffer, end_, bs, rp0, wp0, nr, nw, sem⟩ := dev
  simp only at h1 h3 h4 h5 h6 h9 hs
  subst h1 h3 h4 h5 h6 h9
  rw [held_eq] at hs
  have eag : ¬ ((0 : Int) ≤ -EAGAIN) := by decide
  have ers : ¬ ((0 : Int) ≤ -ERESTARTSYS) := by decide
  have efa : ¬ ((0 : Int) ≤ -EFAULT) := by decide
  have hsame : pipe_inv C (my_scull_pipe.mk (some b) (C : Int) (C : Int) (rp : Int) (wp : Int)
      nr nw 1) := ⟨b, rp, wp, rfl, h2, rfl, rfl, rfl, rfl, h7, h8, rfl⟩
  cases c with
  | read nonblock ucap count =>
    by_cases he : rp = wp
    · have hcall : pipe_call (PipeTrace.mk (my_scull_pipe.mk (some b) (C : Int) (C : Int)
          (rp : Int) (wp : Int) nr nw 1) acc ret) (PipeCall.read nonblock ucap count)
          = some (PipeTrace.mk (my_scull_pipe.mk (some b) (C : Int) (C : Int)
              (rp : Int) (wp : Int) nr nw 1) acc (ret ++ [])) := by
        simp only [pipe_call]
        rw [pipe_read_empty _ rfl (by simp [he])]
        cases nonblock <;> simp [eag, ers]
      refine ⟨_, hcall, hsame, ?_⟩
      simp only [List.append_nil]
      rw [held_eq]
      exact hs
    · have hl := read_run_le C rp wp count h7 h8
      by_cases hu : read_run C rp wp count ≤ ucap
      · have hcall : pipe_call (PipeTrace.mk (my_scull_pipe.mk (some b) (C : Int) (C : Int)
            (rp : Int) (wp : Int) nr nw 1) acc ret) (PipeCall.read nonblock ucap count)
            = some (PipeTrace.mk (my_scull_pipe.mk (some b) (C : Int) (C : Int)
                ((wrap C rp (read_run C rp wp count) : Nat) : Int) (wp : Int) nr nw 1) acc
                (ret ++ (b.drop rp).take (read_run C rp wp count))) := by
          simp only [pipe_call]
          rw [pipe_read_nonempty C b rp wp nr nw hC h2 h7 h8 he nonblock ucap count hu]
          simp
        refine ⟨_, hcall, ⟨b, wrap C rp (read_run C rp wp count), wp, rfl, h2, rfl, rfl, rfl,
          rfl, wrap_lt C rp _ hC1 (by omega), h8, rfl⟩, ?_⟩
        simp only
        rw [held_eq, List.append_assoc, ← held_at_read b C rp wp _ h2 h7 h8 hl.1 ?_]
        · exact hs
        · intro hle
          unfold read_run
          rw [if_pos (by omega)]
          omega
      · have hcall : pipe_call (PipeTrace.mk (my_scull_pipe.mk (some b) (C : Int) (C : Int)
            (rp : Int) (wp : Int) nr nw 1) acc ret) (PipeCall.read nonblock ucap count)
            = some (PipeTrace.mk (my_scull_pipe.mk (some b) (C : Int) (C : Int)
                (rp : Int) (wp : Int) nr nw 1) acc (ret ++ [])) := by
          simp only [pipe_call]
          rw [pipe_read_fault C b rp wp nr nw hC h2 h7 h8 he nonblock ucap count (by omega)]
          simp [efa]
        refine ⟨_, hcall, hsame, ?_⟩
        simp only [List.append_nil]
        rw [held_eq]
        exact hs
  | write nonblock buf count =>
    have hl := write_run_le C rp wp count h7 h8
    by_cases hf : free_of C rp wp = 0
    · have hcall : pipe_call (PipeTrace.mk (my_scull_pipe.mk (some b) (C : Int) (C : Int)
          (rp : Int) (wp : Int) nr nw 1) acc ret) (PipeCall.write nonblock buf count)
          = some (PipeTrace.mk (my_scull_pipe.mk (some b) (C : Int) (C : Int)
              (rp : Int) (wp : Int) nr nw 1) (acc ++ []) ret) := by
        simp only [pipe_call]
        rw [pipe_write_full C (some b) rp wp nr nw hC1 hC h7 h8 hf]
        cases nonblock <;> simp [eag, ers]
      refine ⟨_, hcall, hsame, ?_⟩
      simp only [List.append_nil]
      rw [held_eq]
      exact hs
    · have hfp : 0 < free_of C rp wp := Nat.pos_of_ne_zero hf
      by_cases hu : write_run C rp wp count ≤ buf.length
      · have hlen : (buf.take (write_run C rp wp count)).length = write_run C rp wp count := by
          rw [List.length_take]
          omega
        have hcall : pipe_call (PipeTrace.mk (my_scull_pipe.mk (some b) (C : Int) (C : Int)
            (rp : Int) (wp : Int) nr nw 1) acc ret) (PipeCall.write nonblock buf count)
            = some (PipeTrace.mk (my_scull_pipe.mk
                (some (overwrite b wp (buf.take (write_run C rp wp count)))) (C : Int) (C : Int)
                (rp : Int) ((wrap C wp (write_run C rp wp count) : Nat) : Int) nr nw 1)
                (acc ++ buf.take (write_run C rp wp count)) ret) := by
          simp only [pipe_call]
          rw [pipe_write_space C b rp wp nr nw hC1 hC h2 h7 h8 hfp nonblock buf count hu]
          simp
        have hlo : (overwrite b wp (buf.take (write_run C rp wp count))).length = C := by
          rw [overwrite_length _ _ _ (by rw [hlen]; omega)]
          exact h2
        refine ⟨_, hcall, ⟨_, rp, wrap C wp (write_run C rp wp count), rfl, hlo, rfl, rfl, rfl,
          rfl, h7, wrap_lt C wp _ hC1 (by omega), rfl⟩, ?_⟩
        simp only
        have hw := held_at_write b C rp wp (buf.take (write_run C rp wp count)) h2 h7 h8
          (by rw [hlen]; exact hl.1) (by rw [hlen]; exact hl.2.1)
        rw [hlen] at hw
        rw [held_eq, hw, hs, List.append_assoc]
      · have hlen : (buf ++ List.replicate (write_run C rp wp count - buf.length) 0).length
            = write_run C rp wp count := by
          rw [List.length_append, List.length_replicate]
          omega
        have hcall : pipe_call (PipeTrace.mk (my_scull_pipe.mk (some b) (C : Int) (C : Int)
            (rp : Int) (wp : Int) nr nw 1) acc ret) (PipeCall.write nonblock buf count)
            = some (PipeTrace.mk (my_scull_pipe.mk
                (some (overwrite b wp
                  (buf ++ List.replicate (write_run C rp wp count - buf.length) 0)))
                (C : Int) (C : Int) (rp : Int) (wp : Int) nr nw 1) (acc ++ []) ret) := by
          simp only [pipe_call]
          rw [pipe_write_fault C b rp wp nr nw hC1 hC h2 h7 h8 hfp nonblock buf count
            (by omega)]
          simp [efa]
        have hlo : (overwrite b wp
            (buf ++ List.replicate (write_run C rp wp count - buf.length) 0)).length = C := by
          rw [overwrite_length _ _ _ (by rw [hlen]; omega)]
          exact h2
        refine ⟨_, hcall, ⟨_, rp, wp, rfl, hlo, rfl, rfl, rfl, rfl, h7, h8, rfl⟩, ?_⟩
        simp only [List.append_nil]
        rw [held_eq, held_at_fault b C rp wp _ h2 h7 h8 (by rw [hlen]; exact hl.1)
          (by rw [hlen]; exact hl.2.1)]
        exact hs

/-- A run of calls keeps the shape of the device and the stream. -/
theorem pipe_calls_stream (C : Nat) (hC1 : 1 ≤ C) (hC : (C : Int) ≤ INT_MAX)
    (calls : List PipeCall) :
    ∀ t : PipeTrace, pipe_inv C t.dev → t.accepted = t.returned ++ held t.dev →
      ∃ t1, pipe_calls t calls = some t1 ∧ pipe_inv C t1.dev ∧
        t1.accepted = t1.returned ++ held t1.dev := by
  induction calls with
  | nil =>
    intro t hinv hs
    exact ⟨t, rfl, hinv, hs⟩
  | cons c cs ih =>
    intro t hinv hs
    obtain ⟨t1, h1, hinv1, hs1⟩ := pipe_call_stream C hC1 hC t hinv hs c
    obtain ⟨t2, h2, hinv2, hs2⟩ := ih t1 hinv1 hs1
    refine ⟨t2, ?_, hinv2, hs2⟩
    simp only [pipe_calls, h1, Option.some_bind]
    exact h2

/-- A device of shape `pipe_inv` holds at most `C - 1` bytes. -/
theorem held_length_le (C : Nat) (dev : my_scull_pipe) (hinv : pipe_inv C dev) :
    (held dev).length ≤ C - 1 := by
  obtain ⟨b, rp, wp, h1, h2, h3, h4, h5, h6, h7, h8, h9⟩ := hinv
  obtain ⟨buffer, end_, bs, rp0, wp0, nr, nw, sem⟩ := dev
  simp only at h1 h3 h4 h5 h6 h9
  subst h1 h3 h4 h5 h6 h9
  rw [held_eq, held_at_length b C rp wp h2 h7 h8]
  split <;> omega

/-- C2. The ring buffer is a FIFO byte stream: for every capacity `C ≥ 1` (an
`int`) and every sequence of `my_scull_p_read` and `my_scull_p_write` calls
on a freshly opened buffer, every call returns, the concatenation of all bytes
returned by reads is a prefix of the concatenation of all bytes accepted by
writes, the bytes still held (those from `rp` round to `wp`) are exactly the
remainder in order, and the number of bytes held is at most `C - 1`. -/
theorem fifo_byte_stream (C : Nat) (hC1 : 1 ≤ C) (hC : (C : Int) ≤ INT_MAX) (m m1 : Kmem)
    (fr fw : Bool) (dev : my_scull_pipe)
    (ho : my_scull_p_open (C : Int) pipe_init m fr fw = (0, dev, m1))
    (calls : List PipeCall) :
    ∃ t, pipe_calls (PipeTrace.mk dev [] []) calls = some t ∧
      t.returned <+: t.accepted ∧
      t.accepted = t.returned ++ held t.dev ∧
      (held t.dev).length ≤ C - 1 := by
  have hinv := pipe_open_inv C hC1 hC m m1 fr fw dev ho
  have hempty : held dev = [] := by
    obtain ⟨c1, c2, _, _⟩ := open_resets_cursors (C : Int) pipe_init m m1 fr fw dev ho
    unfold held held_at
    cases dev.buffer with
    | none => rfl
    | some b => simp [c1, c2]
  obtain ⟨t, h1, hinv1, hs1⟩ := pipe_calls_stream C hC1 hC calls (PipeTrace.mk dev [] []) hinv
    (by simp only [hempty, List.append_nil])
  exact ⟨t, h1, ⟨held t.dev, hs1.symm⟩, hs1, held_length_le C t.dev hinv1⟩

/-- Witness of C2: a pipe of capacity 4 is opened, then three bytes are
written, two are read, a write of three bytes is cut at the end of the
region, a read goes round the end, and one more byte is written. -/
theorem fifo_byte_stream_witness :
    ∃ dev m1, my_scull_p_open ((4 : Nat) : Int) pipe_init okmem true true = (0, dev, m1) ∧
      ∃ t, pipe_calls (PipeTrace.mk dev [] [])
          [PipeCall.write false [1, 2, 3] 3, PipeCall.read false 2 2,
           PipeCall.write false [4, 5, 6] 3, PipeCall.read false 5 5,
           PipeCall.write false [9] 1] = some t ∧
        t.returned <+: t.accepted ∧
        t.accepted = t.returned ++ held t.dev ∧
        (held t.dev).length ≤ 4 - 1 :=
  ⟨_, _, rfl, fifo_byte_stream 4 (by decide) (by decide) okmem _ true true _ rfl _⟩

/-- The run of the witness of C2, evaluated: five bytes were accepted, four
returned in the order written, and the last one is held. -/
theorem fifo_byte_stream_run :
    (pipe_calls
        (PipeTrace.mk (my_scull_p_open ((4 : Nat) : Int) pipe_init okmem true true).2.1 [] [])
        [PipeCall.write false [1, 2, 3] 3, PipeCall.read false 2 2,
         PipeCall.write false [4, 5, 6] 3, PipeCall.read false 5 5,
         PipeCall.write false [9] 1]).map (fun t => (t.accepted, t.returned, held t.dev))
      = some ([1, 2, 3, 4, 9], [1, 2, 3, 4], [9]) := by
  rfl

/-! ## One write of the store, taken apart -/

theorem extends_dev_refl (d : my_scull_dev) : extends_dev d d :=
  ⟨rfl, rfl, rfl, rfl, Nat.le_refl _, fun _ _ => rfl, fun _ _ h => Or.inl h⟩

theorem extends_dev_trans {d d1 d2 : my_scull_dev} (h1 : extends_dev d d1)
    (h2 : extends_dev d1 d2) : extends_dev d d2 := by
  obtain ⟨a1, a2, a3, a4, a5, a6, a7⟩ := h1
  obtain ⟨b1, b2, b3, b4, b5, b6, b7⟩ := h2
  refine ⟨by rw [b1, a1], by rw [b2, a2], by rw [b3, a3], by rw [b4, a4], Nat.le_trans a5 b5,
    fun i s => by rw [b6, a6], ?_⟩
  intro i len hl
  rcases b7 i len hl with h | h
  · exact a7 i len h
  · rw [a2] at h
    exact Or.inr h

/-- Whatever it returns, the walk only appends empty nodes to the tail. -/
theorem follow_loop_appends (n : Nat) : ∀ (succs : List my_scull_qset) (m : Kmem),
    ∃ k, (follow_loop n succs m).2.1 = succs ++ List.replicate k { data := none } := by
  induction n with
  | zero => intro succs m; exact ⟨0, by simp [follow_loop]⟩
  | succ n ih =>
    intro succs m
    cases succs with
    | nil =>
      unfold follow_loop
      split
      · exact ⟨0, by simp⟩
      · rename_i r m0 hk
        obtain ⟨k, hk2⟩ := ih [] m0
        exact ⟨k + 1, by simp only [hk2, List.nil_append, List.replicate_succ]⟩
    | cons q succs =>
      unfold follow_loop
      obtain ⟨k, hk2⟩ := ih succs m
      exact ⟨k, by simp only [hk2, List.cons_append]⟩

theorem block_at_append_empty (chain : List my_scull_qset) (k i s : Nat) :
    block_at (chain ++ List.replicate k { data := none }) i s = block_at chain i s := by
  unfold block_at
  by_cases h : i < chain.length
  · rw [List.getElem?_append_left h]
  · rw [List.getElem?_append_right (by omega), List.getElem?_replicate,
      List.getElem?_eq_none (by omega)]
    split <;> rfl

/-- Whatever `my_scull_follow` returns, it only appends empty nodes. -/
theorem my_scull_follow_appends (dev : my_scull_dev) (m : Kmem) (n : Int) :
    ∃ k, (my_scull_follow dev m n).2.1 =
      { dev with data := dev.data ++ List.replicate k { data := none } } := by
  unfold my_scull_follow
  cases hd : dev.data with
  | nil =>
    simp only
    split
    · exact ⟨0, by cases dev; simp_all⟩
    · rename_i r m0 hk
      obtain ⟨k, hk2⟩ := follow_loop_appends (follow_rounds n) [] m0
      exact ⟨k + 1, by simp only [hk2, List.nil_append, List.replicate_succ]⟩
  | cons q succs =>
    simp only
    obtain ⟨k, hk2⟩ := follow_loop_appends (follow_rounds n) succs m
    exact ⟨k, by simp only [hk2, List.cons_append]⟩

theorem my_scull_follow_extends (dev : my_scull_dev) (m : Kmem) (n : Int) :
    extends_dev dev (my_scull_follow dev m n).2.1 := by
  obtain ⟨k, hk⟩ := my_scull_follow_appends dev m n
  rw [hk]
  refine ⟨rfl, rfl, rfl, rfl, ?_, ?_, ?_⟩
  · simp only [List.length_append]
    omega
  · intro i s
    simp only
    rw [block_at_append_empty]
  · intro i len hl
    simp only at hl
    rw [array_len_append_empty] at hl
    exact Or.inl hl

theorem alloc_pointers_extends (dev : my_scull_dev) (m : Kmem) (p : Nat) (node : my_scull_qset)
    (hnode : dev.data[p]? = some node) :
    extends_dev dev (alloc_pointers dev m p node).2.1 := by
  unfold alloc_pointers
  split
  · exact extends_dev_refl dev
  · rename_i hnone
    split
    · exact extends_dev_refl dev
    · rename_i region m1 hk
      have hp : p < dev.data.length := by
        by_contra hc
        rw [List.getElem?_eq_none (by omega)] at hnode
        cases hnode
      refine ⟨rfl, rfl, rfl, rfl, ?_, ?_, ?_⟩
      · simp only [List.length_set]
        exact Nat.le_refl _
      · intro i s
        simp only
        rw [block_at_set _ _ _ hp]
        by_cases hi : i = p
        · subst hi
          rw [if_pos rfl]
          unfold block_at
          rw [hnode]
          simp only [Option.some_bind, node_block, hnone, Option.none_bind]
          rw [List.getElem?_replicate]
          split <;> rfl
        · rw [if_neg hi]
      · intro i len hl
        simp only at hl
        rw [array_len_set _ _ _ hp] at hl
        by_cases hi : i = p
        · rw [if_pos hi] at hl
          simp only [Option.map_some', List.length_replicate, Option.some.injEq] at hl
          right
          rw [← hl, kmalloc_region m _ _ _ hk]
        · rw [if_neg hi] at hl
          exact Or.inl hl

theorem alloc_quantum_params (dev : my_scull_dev) (m : Kmem) (p : Nat)
    (arr : List (Option (List Byte))) (s : Nat) (slot : Option (List Byte)) :
    (alloc_quantum dev m p arr s slot).2.1.quantum = dev.quantum ∧
    (alloc_quantum dev m p arr s slot).2.1.qset = dev.qset ∧
    (alloc_quantum dev m p arr s slot).2.1.size = dev.size ∧
    (alloc_quantum dev m p arr s slot).2.1.sem = dev.sem ∧
    ((alloc_quantum dev m p arr s slot).1 = none → (alloc_quantum dev m p arr s slot).2.1 = dev) := by
  unfold alloc_quantum
  split
  · exact ⟨rfl, rfl, rfl, rfl, fun _ => rfl⟩
  · split
    · exact ⟨rfl, rfl, rfl, rfl, fun _ => rfl⟩
    · exact ⟨rfl, rfl, rfl, rfl, fun h => by cases h⟩

/-- The ways `write_locked` comes back: out of memory, with the device only
extended by empty nodes and arrays; or through `write_tail` on a device with
the same parameters, size and semaphore. -/
theorem write_locked_inv (dev : my_scull_dev) (m : Kmem) (itemsize : Int) (buf : List Byte)
    (count : Nat) (f_pos : Int) (r : IoResult)
    (h : write_locked dev m itemsize buf count f_pos = some r) :
    (∃ d1 m1, extends_dev dev d1 ∧ r = io_out (-ENOMEM) f_pos d1 m1) ∨
    (∃ d3 m3 p arr s blk q_pos, d3.quantum = dev.quantum ∧ d3.qset = dev.qset ∧
      d3.size = dev.size ∧ d3.sem = dev.sem ∧
      write_tail d3 m3 p arr s blk q_pos buf count f_pos = some r) := by
  unfold write_locked at h
  split at h
  · cases h
  · rename_i ix hix
    have hf := my_scull_follow_extends dev m ix.item
    split at h
    · rename_i dev1 m1 hfo
      rw [hfo] at hf
      simp only [Option.some.injEq] at h
      exact Or.inl ⟨dev1, m1, hf, h.symm⟩
    · rename_i p dev1 m1 hfo
      rw [hfo] at hf
      simp only at hf
      split at h
      · cases h
      · rename_i node hnode
        have ha := alloc_pointers_extends dev1 m1 p node hnode
        split at h
        · rename_i dev2 m2 hap
          rw [hap] at ha
          simp only [Option.some.injEq] at h
          exact Or.inl ⟨dev2, m2, extends_dev_trans hf ha, h.symm⟩
        · rename_i arr dev2 m2 hap
          rw [hap] at ha
          simp only at ha
          have h02 := extends_dev_trans hf ha
          split at h
          · cases h
          · split at h
            · cases h
            · rename_i slot hslot
              have hq := alloc_quantum_params dev2 m2 p arr ix.s_pos.toNat slot
              split at h
              · rename_i dev3 m3 haq
                rw [haq] at hq
                simp only [Option.some.injEq] at h
                have e : dev3 = dev2 := hq.2.2.2.2 rfl
                subst e
                exact Or.inl ⟨dev3, m3, h02, h.symm⟩
              · rename_i blk dev3 m3 haq
                rw [haq] at hq
                simp only at hq
                obtain ⟨a1, a2, a3, a4, _, _⟩ := h02
                exact Or.inr ⟨dev3, m3, p, arr, ix.s_pos.toNat, blk, ix.q_pos,
                  by rw [hq.1, a1], by rw [hq.2.1, a2], by rw [hq.2.2.1, a3],
                  by rw [hq.2.2.2.1, a4], h⟩

/-- The ways `write_tail` comes back: a fault, with position and size as they
were; or `n ≤ count` bytes accepted, the position advanced by `n` and the
size raised to the new position if that is beyond it. -/
theorem write_tail_inv (dev : my_scull_dev) (m : Kmem) (p : Nat)
    (arr : List (Option (List Byte))) (s : Nat) (blk : List Byte) (q_pos : Int)
    (buf : List Byte) (count : Nat) (f_pos : Int) (r : IoResult)
    (h : write_tail dev m p arr s blk q_pos buf count f_pos = some r) :
    r.dev.quantum = dev.quantum ∧ r.dev.qset = dev.qset ∧ r.dev.sem = up dev.sem ∧ r.out = [] ∧
    ((r.retval = -EFAULT ∧ r.f_pos = f_pos ∧ r.dev.size = dev.size) ∨
     (∃ n, n ≤ count ∧ r.retval = to_long (n : Int) ∧
        r.f_pos = to_long (((to_ulong f_pos + n) % ULONG_MOD : Nat) : Int) ∧
        r.dev.size = (if dev.size < to_ulong r.f_pos then to_ulong r.f_pos else dev.size))) := by
  unfold write_tail at h
  simp only at h
  have hle : (if count > to_ulong (int_sub dev.quantum q_pos)
      then to_ulong (int_sub dev.quantum q_pos) else count) ≤ count := by
    split
    · rename_i hgt
      exact Nat.le_of_lt hgt
    · exact Nat.le_refl _
  generalize (if count > to_ulong (int_sub dev.quantum q_pos)
      then to_ulong (int_sub dev.quantum q_pos) else count) = n at h hle
  by_cases h1 : q_pos < 0 ∨ blk.length < q_pos.toNat + n
  · rw [if_pos h1] at h
    cases h
  · rw [if_neg h1] at h
    by_cases h2 : buf.length < n
    · rw [if_pos h2] at h
      simp only [Option.some.injEq] at h
      subst h
      exact ⟨rfl, rfl, rfl, rfl, Or.inl ⟨rfl, rfl, rfl⟩⟩
    · rw [if_neg h2] at h
      simp only [Option.some.injEq] at h
      subst h
      refine ⟨rfl, rfl, rfl, rfl, Or.inr ⟨n, hle, ?_, ?_, ?_⟩⟩ <;> simp only

theorem advance_eq (off n : Nat) (h : (off : Int) + n ≤ LONG_MAX) :
    to_long (((to_ulong (off : Int) + n) % ULONG_MOD : Nat) : Int) = ((off + n : Nat) : Int) := by
  unfold LONG_MAX at h
  rw [to_ulong_natCast (by unfold ULONG_MOD; omega),
    Nat.mod_eq_of_lt (by unfold ULONG_MOD; omega)]
  exact to_long_natCast (by unfold LONG_MAX; omega)

/-- How `my_scull_write` comes back: interrupted at the semaphore, or through
`write_locked` with the semaphore taken. -/
theorem my_scull_write_inv (dev : my_scull_dev) (m : Kmem) (buf : List Byte) (count : Nat)
    (f_pos : Int) (r : IoResult) (h : my_scull_write dev m buf count f_pos = some r) :
    (dev.sem = 0 ∧ r = { retval := -ERESTARTSYS, f_pos := f_pos, dev := dev, mem := m, out := [] }) ∨
    (0 < dev.sem ∧
      write_locked { dev with sem := dev.sem - 1 } m (int_mul dev.quantum dev.qset) buf count f_pos
        = some r) := by
  unfold my_scull_write at h
  by_cases hs : 0 < dev.sem
  · simp only [down_interruptible, hs, if_true, ne_eq, not_true_eq_false, if_false] at h
    exact Or.inr ⟨hs, h⟩
  · simp only [down_interruptible, hs, if_false, ne_eq] at h
    have hne : ¬ (-EINTR = 0) := by decide
    simp only [hne, not_false_eq_true, if_true, Option.some.injEq] at h
    exact Or.inl ⟨by omega, h.symm⟩

theorem write_size_arith (dsize off n count : Nat) (hn : n ≤ count)
    (hrange : (off : Int) + count ≤ LONG_MAX) :
    to_long (n : Int) ≤ count ∧
    to_long (((to_ulong (off : Int) + n) % ULONG_MOD : Nat) : Int) = (off : Int) + to_long (n : Int) ∧
    (((if dsize < to_ulong (to_long (((to_ulong (off : Int) + n) % ULONG_MOD : Nat) : Int))
        then to_ulong (to_long (((to_ulong (off : Int) + n) % ULONG_MOD : Nat) : Int))
        else dsize : Nat) : Int) = max (dsize : Int) ((off : Int) + to_long (n : Int))) ∧
    dsize ≤ (if dsize < to_ulong (to_long (((to_ulong (off : Int) + n) % ULONG_MOD : Nat) : Int))
        then to_ulong (to_long (((to_ulong (off : Int) + n) % ULONG_MOD : Nat) : Int))
        else dsize) := by
  have h1 : (off : Int) + n ≤ LONG_MAX := by omega
  have h2 : (n : Int) ≤ LONG_MAX := by omega
  have h3 : off + n < ULONG_MOD := by
    unfold LONG_MAX at hrange
    unfold ULONG_MOD
    omega
  rw [advance_eq off n h1, to_long_natCast h2, to_ulong_natCast h3]
  clear h1 h2 h3 hrange
  refine ⟨by omega, by push_cast; rfl, ?_, ?_⟩
  · split <;> omega
  · split <;> omega

/-- C23. After a successful `my_scull_write` that accepted `w` bytes at offset
`o` (a request the VFS passes down: `o ≥ 0` and `o + count` within `loff_t`),
the file position is `o + w` and the size of the store is
`max(old size, o + w)`; a write never decreases the size. -/
theorem write_raises_size (dev : my_scull_dev) (m : Kmem) (buf : List Byte) (count : Nat)
    (f_pos : Int) (r : IoResult) (h : my_scull_write dev m buf count f_pos = some r)
    (hok : 0 ≤ r.retval) (hpos : 0 ≤ f_pos) (hrange : f_pos + count ≤ LONG_MAX) :
    r.retval ≤ count ∧ r.f_pos = f_pos + r.retval ∧
    (r.dev.size : Int) = max (dev.size : Int) (f_pos + r.retval) ∧ dev.size ≤ r.dev.size := by
  rcases my_scull_write_inv dev m buf count f_pos r h with ⟨_, hr⟩ | ⟨_, hl⟩
  · subst hr
    have : ¬ ((0 : Int) ≤ -ERESTARTSYS) := by decide
    exact absurd hok this
  · rcases write_locked_inv _ m _ buf count f_pos r hl with ⟨d1, m1, _, hr⟩ | hw
    · subst hr
      have : ¬ ((0 : Int) ≤ -ENOMEM) := by decide
      exact absurd hok this
    · obtain ⟨d3, m3, p, arr, s, blk, q_pos, _, _, hsz, _, ht⟩ := hw
      obtain ⟨_, _, _, _, hcase⟩ := write_tail_inv d3 m3 p arr s blk q_pos buf count f_pos r ht
      rcases hcase with ⟨hr, _, _⟩ | ⟨n, hn, hret, hfp, hsize⟩
      · rw [hr] at hok
        have : ¬ ((0 : Int) ≤ -EFAULT) := by decide
        exact absurd hok this
      · simp only at hsz
        lift f_pos to ℕ using hpos with off
        have ha := write_size_arith dev.size off n count hn hrange
        rw [hfp, hsz] at hsize
        rw [hret, hfp, hsize]
        exact ha

/-! ## One read of the store, taken apart -/

/-- How `read_tail` comes back: the device with the semaphore released, and a
fault, or `n` bytes of the quantum from `q_pos` on, with `n` at most the
count asked for. -/
theorem read_tail_inv (dev : my_scull_dev) (m : Kmem) (blk : List Byte) (q_pos : Int)
    (ucap count : Nat) (f_pos : Int) (r : IoResult)
    (h : read_tail dev m blk q_pos ucap count f_pos = some r) :
    r.dev = { dev with sem := up dev.sem } ∧ r.mem = m ∧
    ((r.retval = -EFAULT ∧ r.f_pos = f_pos) ∨
     (∃ n, n ≤ count ∧ r.retval = to_long (n : Int) ∧ r.out = (blk.drop q_pos.toNat).take n ∧
        r.f_pos = to_long (((to_ulong f_pos + n) % ULONG_MOD : Nat) : Int))) := by
  unfold read_tail at h
  simp only at h
  have hle : (if count > to_ulong (int_sub dev.quantum q_pos)
      then to_ulong (int_sub dev.quantum q_pos) else count) ≤ count := by
    split
    · rename_i hgt
      exact Nat.le_of_lt hgt
    · exact Nat.le_refl _
  generalize (if count > to_ulong (int_sub dev.quantum q_pos)
      then to_ulong (int_sub dev.quantum q_pos) else count) = n at h hle
  by_cases h1 : q_pos < 0 ∨ blk.length < q_pos.toNat + n
  · rw [if_pos h1] at h
    cases h
  · rw [if_neg h1] at h
    by_cases h2 : ucap < n
    · rw [if_pos h2] at h
      simp only [Option.some.injEq] at h
      subst h
      exact ⟨rfl, rfl, Or.inl ⟨rfl, rfl⟩⟩
    · rw [if_neg h2] at h
      simp only [Option.some.injEq] at h
      subst h
      refine ⟨rfl, rfl, Or.inr ⟨n, hle, ?_, ?_, ?_⟩⟩ <;> simp only

/-- How `read_locked` comes back: nothing read, or through `read_tail` on a
quantum found in the chain; either way the device is only extended by empty
nodes. -/
theorem read_locked_inv (dev : my_scull_dev) (m : Kmem) (itemsize : Int) (ucap count : Nat)
    (f_pos : Int) (r : IoResult) (h : read_locked dev m itemsize ucap count f_pos = some r) :
    ∃ d1 m1, extends_dev dev d1 ∧
      (r = io_out 0 f_pos d1 m1 ∨
       (¬ (to_ulong f_pos ≥ dev.size) ∧ ∃ blk q_pos,
          read_tail d1 m1 blk q_pos ucap (size_clamp dev.size f_pos count) f_pos = some r)) := by
  unfold read_locked at h
  by_cases hsz : to_ulong f_pos ≥ dev.size
  · rw [if_pos hsz] at h
    simp only [Option.some.injEq] at h
    exact ⟨dev, m, extends_dev_refl dev, Or.inl h.symm⟩
  · rw [if_neg hsz] at h
    simp only at h
    split at h
    · cases h
    · rename_i ix hix
      have hf := my_scull_follow_extends dev m ix.item
      split at h
      · rename_i dev1 m1 hfo
        rw [hfo] at hf
        simp only [Option.some.injEq] at h
        exact ⟨dev1, m1, hf, Or.inl h.symm⟩
      · rename_i p dev1 m1 hfo
        rw [hfo] at hf
        simp only at hf
        split at h
        · cases h
        · split at h
          · simp only [Option.some.injEq] at h
            exact ⟨dev1, m1, hf, Or.inl h.symm⟩
          · split at h
            · cases h
            · split at h
              · cases h
              · simp only [Option.some.injEq] at h
                exact ⟨dev1, m1, hf, Or.inl h.symm⟩
              · rename_i blk _
                exact ⟨dev1, m1, hf, Or.inr ⟨hsz, blk, ix.q_pos, h⟩⟩

/-- How `my_scull_read` comes back: interrupted at the semaphore, or through
`read_locked` with the semaphore taken. -/
theorem my_scull_read_inv (dev : my_scull_dev) (m : Kmem) (ucap count : Nat)
    (f_pos : Int) (r : IoResult) (h : my_scull_read dev m ucap count f_pos = some r) :
    (dev.sem = 0 ∧ r = { retval := -ERESTARTSYS, f_pos := f_pos, dev := dev, mem := m, out := [] }) ∨
    (0 < dev.sem ∧
      read_locked { dev with sem := dev.sem - 1 } m (int_mul dev.quantum dev.qset) ucap count f_pos
        = some r) := by
  unfold my_scull_read at h
  by_cases hs : 0 < dev.sem
  · simp only [down_interruptible, hs, if_true, ne_eq, not_true_eq_false, if_false] at h
    exact Or.inr ⟨hs, h⟩
  · simp only [down_interruptible, hs, if_false, ne_eq] at h
    have hne : ¬ (-EINTR = 0) := by decide
    simp only [hne, not_false_eq_true, if_true, Option.some.injEq] at h
    exact Or.inl ⟨by omega, h.symm⟩

/-- A read changes neither the size nor the parameters of the store, and
leaves the semaphore as it found it. -/
theorem my_scull_read_frame (dev : my_scull_dev) (m : Kmem) (ucap count : Nat)
    (f_pos : Int) (r : IoResult) (h : my_scull_read dev m ucap count f_pos = some r) :
    r.dev.size = dev.size ∧ r.dev.quantum = dev.quantum ∧ r.dev.qset = dev.qset ∧
    r.dev.sem = dev.sem := by
  rcases my_scull_read_inv dev m ucap count f_pos r h with ⟨_, hr⟩ | ⟨hs, hl⟩
  · subst hr
    exact ⟨rfl, rfl, rfl, rfl⟩
  · obtain ⟨d1, m1, ⟨e1, e2, e3, e4, _, _⟩, hcase⟩ := read_locked_inv _ m _ ucap count f_pos r hl
    simp only at e1 e2 e3 e4
    have hup : up (dev.sem - 1) = dev.sem := by unfold up; omega
    rcases hcase with hr | ⟨_, blk, q_pos, ht⟩
    · subst hr
      simp only [io_out]
      exact ⟨e3, e1, e2, by rw [e4, hup]⟩
    · obtain ⟨hd, _, _⟩ := read_tail_inv d1 m1 blk q_pos ucap _ f_pos r ht
      rw [hd]
      simp only
      exact ⟨e3, e1, e2, by rw [e4, hup]⟩

/-- Witness of C23: on the empty store with quantum 4 and qset 2, six bytes
are offered at offset 10; two are accepted and the size becomes 12. -/
theorem write_raises_size_witness :
    ∃ r, my_scull_write (empty_dev 4 2) okmem [1, 2, 3, 4, 5, 6] 6 10 = some r ∧
      r.retval = 2 ∧ r.retval ≤ ((6 : Nat) : Int) ∧ r.f_pos = 10 + r.retval ∧
      (r.dev.size : Int) = max (((empty_dev 4 2).size : Nat) : Int) (10 + r.retval) ∧
      (empty_dev 4 2).size ≤ r.dev.size := by
  refine ⟨_, rfl, by decide, ?_⟩
  exact write_raises_size (empty_dev 4 2) okmem [1, 2, 3, 4, 5, 6] 6 10 _ rfl (by decide)
    (by decide) (by decide)

/-! ## The size of the store -/

/-- A write that fails leaves size and position as they were. -/
theorem write_failed_size (dev : my_scull_dev) (m : Kmem) (buf : List Byte) (count : Nat)
    (f_pos : Int) (r : IoResult) (h : my_scull_write dev m buf count f_pos = some r)
    (hbad : r.retval < 0) (hpos : 0 ≤ f_pos) (hrange : f_pos + count ≤ LONG_MAX) :
    r.dev.size = dev.size ∧ r.f_pos = f_pos := by
  rcases my_scull_write_inv dev m buf count f_pos r h with ⟨_, hr⟩ | ⟨_, hl⟩
  · subst hr
    exact ⟨rfl, rfl⟩
  · rcases write_locked_inv _ m _ buf count f_pos r hl with ⟨d1, m1, he, hr⟩ | hw
    · subst hr
      exact ⟨he.2.2.1, rfl⟩
    · obtain ⟨d3, m3, p, arr, s, blk, q_pos, _, _, hsz, _, ht⟩ := hw
      obtain ⟨_, _, _, _, hcase⟩ := write_tail_inv d3 m3 p arr s blk q_pos buf count f_pos r ht
      rcases hcase with ⟨_, hf, hs⟩ | ⟨n, hn, hret, _, _⟩
      · exact ⟨by rw [hs, hsz], hf⟩
      · exfalso
        have h2 : (n : Int) ≤ LONG_MAX := by omega
        rw [hret, to_long_natCast h2] at hbad
        omega

/-- C24, as stated, fails: on the empty store with quantum 4 and qset 2 a
write of zero bytes at offset 5 succeeds and stores no byte, yet the size
is 5 afterwards, not 0. -/
theorem zero_length_write_raises_size :
    ∃ r, my_scull_write (empty_dev 4 2) okmem [] 0 5 = some r ∧
      r.retval = 0 ∧ r.dev.size = 5 := by
  refine ⟨_, rfl, ?_, ?_⟩ <;> decide

/-- One request keeps the size equal to the ghost value. -/
theorem store_step_size (st st1 : StoreState) (op : StoreOp) (hv : op.valid)
    (hinv : st.dev.size = st.high) (h : store_step st op = some st1) :
    st1.dev.size = st1.high := by
  cases op with
  | write buf count f_pos =>
    simp only [store_step, Option.map_eq_some'] at h
    obtain ⟨r, hr, hst⟩ := h
    subst hst
    simp only
    obtain ⟨hpos, hrange⟩ := hv
    by_cases hok : 0 ≤ r.retval
    · rw [if_pos hok]
      obtain ⟨_, _, hsize, _⟩ := write_raises_size _ _ _ _ _ _ hr hok hpos hrange
      rw [← hinv]
      rcases le_total (st.dev.size : Int) (f_pos + r.retval) with hle | hle
      · rw [max_eq_right hle] at hsize
        omega
      · rw [max_eq_left hle] at hsize
        omega
    · rw [if_neg hok]
      rw [(write_failed_size _ _ _ _ _ _ hr (by omega) hpos hrange).1]
      exact hinv
  | read ucap count f_pos =>
    simp only [store_step, Option.map_eq_some'] at h
    obtain ⟨r, hr, hst⟩ := h
    subst hst
    simp only
    rw [(my_scull_read_frame _ _ _ _ _ _ hr).1]
    exact hinv
  | trim quantum qset =>
    simp only [store_step, Option.some.injEq] at h
    subst h
    rfl

/-- C24, amended: in every store state reached from the empty store by
`my_scull_write`, `my_scull_read` and `my_scull_trim` (requests as the VFS
passes them down), the size equals the largest end position
`offset + accepted count` of the successful writes since the last trim, and
is 0 when there was none; a successful write of zero bytes at a position
beyond the size counts, it raises the size to that position. -/
theorem size_is_highest_end (quantum qset : Int) (m : Kmem) (ops : List StoreOp)
    (hv : ∀ op ∈ ops, op.valid) (st : StoreState)
    (h : store_run { dev := empty_dev quantum qset, mem := m, high := 0 } ops = some st) :
    st.dev.size = st.high := by
  have gen : ∀ (ops : List StoreOp) (s0 s1 : StoreState), (∀ op ∈ ops, op.valid) →
      s0.dev.size = s0.high → store_run s0 ops = some s1 → s1.dev.size = s1.high := by
    intro ops
    induction ops with
    | nil =>
      intro s0 s1 _ hinv hrun
      simp only [store_run, Option.some.injEq] at hrun
      subst hrun
      exact hinv
    | cons op ops ih =>
      intro s0 s1 hval hinv hrun
      simp only [store_run, Option.bind_eq_some] at hrun
      obtain ⟨s2, hstep, hrest⟩ := hrun
      exact ih s2 s1 (fun o ho => hval o (List.mem_cons_of_mem _ ho))
        (store_step_size s0 s2 op (hval op (List.mem_cons_self _ _)) hinv hstep) hrest
  exact gen ops _ st hv rfl h

/-- Witness of the amended C24: on the empty store with quantum 4 and qset 2,
a write of zero bytes at offset 5, then two bytes at offset 1, then a read;
the size is 5, the largest end position. -/
theorem size_is_highest_end_witness :
    ∃ st, store_run { dev := empty_dev 4 2, mem := okmem, high := 0 }
        [StoreOp.write [] 0 5, StoreOp.write [7, 8] 2 1, StoreOp.read 4 4 0] = some st ∧
      st.high = 5 ∧ st.dev.size = st.high := by
  refine ⟨_, rfl, by decide, ?_⟩
  refine size_is_highest_end 4 2 okmem
    [StoreOp.write [] 0 5, StoreOp.write [7, 8] 2 1, StoreOp.read 4 4 0] ?_ _ rfl
  intro op hop
  simp only [List.mem_cons, List.mem_singleton, List.not_mem_nil, or_false] at hop
  rcases hop with e | e | e <;> subst e <;> exact ⟨by decide, by decide⟩

/-! ## The allocations of one write -/

theorem granted_refl (m : Kmem) : granted m m :=
  ⟨rfl, Nat.le_refl _, fun k h1 h2 => absurd h1 (by omega)⟩

theorem granted_trans {m m1 m2 : Kmem} (h1 : granted m m1) (h2 : granted m1 m2) :
    granted m m2 := by
  obtain ⟨a1, a2, a3⟩ := h1
  obtain ⟨b1, b2, b3⟩ := h2
  refine ⟨by rw [b1, a1], Nat.le_trans a2 b2, ?_⟩
  intro k hk1 hk2
  by_cases hk : k < m1.calls
  · exact a3 k hk1 hk
  · have := b3 k (by omega) hk2
    rw [a1] at this
    exact this

theorem kmalloc_granted (m : Kmem) (size : Nat) (region : List Byte) (m1 : Kmem)
    (h : kmalloc m size = (some region, m1)) : granted m m1 := by
  unfold kmalloc at h
  simp only [Prod.mk.injEq] at h
  obtain ⟨h1, h2⟩ := h
  subst h2
  refine ⟨rfl, by simp only; omega, ?_⟩
  intro k hk1 hk2
  simp only at hk2
  have hk : k = m.calls := by omega
  subst hk
  split at h1
  · cases hj : m.outcome m.calls with
    | none => rw [hj] at h1; cases h1
    | some junk => rfl
  · cases h1

theorem follow_loop_granted (n : Nat) : ∀ (succs : List my_scull_qset) (m : Kmem)
    (succs1 : List my_scull_qset) (m1 : Kmem), follow_loop n succs m = (true, succs1, m1) →
    granted m m1 := by
  induction n with
  | zero =>
    intro succs m succs1 m1 h
    simp only [follow_loop, Prod.mk.injEq, true_and] at h
    obtain ⟨_, h2⟩ := h
    subst h2
    exact granted_refl m
  | succ n ih =>
    intro succs m succs1 m1 h
    cases succs with
    | nil =>
      simp only [follow_loop] at h
      split at h
      · simp at h
      · rename_i r m0 hk
        rcases hl : follow_loop n [] m0 with ⟨ok, s2, m2⟩
        rw [hl] at h
        simp only [Prod.mk.injEq] at h
        obtain ⟨h1, h2, h3⟩ := h
        subst h1 h2 h3
        exact granted_trans (kmalloc_granted m _ _ _ hk) (ih [] m0 s2 m2 hl)
    | cons q succs =>
      simp only [follow_loop] at h
      rcases hl : follow_loop n succs m with ⟨ok, s2, m2⟩
      rw [hl] at h
      simp only [Prod.mk.injEq] at h
      obtain ⟨h1, h2, h3⟩ := h
      subst h1 h2 h3
      exact ih succs m s2 m2 hl

theorem my_scull_follow_granted {dev : my_scull_dev} {m : Kmem} {n : Int} {p : Nat}
    {dev1 : my_scull_dev} {m1 : Kmem} (h : my_scull_follow dev m n = (some p, dev1, m1)) :
    granted m m1 := by
  unfold my_scull_follow at h
  split at h
  · split at h
    · simp at h
    · rename_i r m0 hk
      rcases hl : follow_loop (follow_rounds n) [] m0 with ⟨ok, s2, m2⟩
      rw [hl] at h
      cases ok with
      | false => simp at h
      | true =>
        simp only [if_true, Prod.mk.injEq, Option.some.injEq] at h
        obtain ⟨_, _, h3⟩ := h
        subst h3
        exact granted_trans (kmalloc_granted m _ _ _ hk) (follow_loop_granted _ _ _ _ _ hl)
  · rename_i q succs hd
    rcases hl : follow_loop (follow_rounds n) succs m with ⟨ok, s2, m2⟩
    rw [hl] at h
    cases ok with
    | false => simp at h
    | true =>
      simp only [if_true, Prod.mk.injEq, Option.some.injEq] at h
      obtain ⟨_, _, h3⟩ := h
      subst h3
      exact follow_loop_granted _ _ _ _ _ hl

/-- When `alloc_pointers` comes back with an array, that array is the one of
node `p` afterwards, and every request was granted. -/
theorem alloc_pointers_some (dev : my_scull_dev) (m : Kmem) (p : Nat) (node : my_scull_qset)
    (hnode : dev.data[p]? = some node) (arr : List (Option (List Byte)))
    (dev2 : my_scull_dev) (m2 : Kmem) (h : alloc_pointers dev m p node = (some arr, dev2, m2)) :
    granted m m2 ∧ dev2.data[p]? = some { data := some arr } := by
  unfold alloc_pointers at h
  split at h
  · rename_i arr0 ha
    simp only [Prod.mk.injEq, Option.some.injEq] at h
    obtain ⟨h1, h2, h3⟩ := h
    subst h1 h2 h3
    refine ⟨granted_refl m, ?_⟩
    rw [hnode]
    cases node
    simp only at ha
    rw [ha]
  · split at h
    · simp at h
    · rename_i region m1 hk
      simp only [Prod.mk.injEq, Option.some.injEq] at h
      obtain ⟨h1, h2, h3⟩ := h
      subst h1 h2 h3
      have hp : p < dev.data.length := by
        by_contra hc
        rw [List.getElem?_eq_none (by omega)] at hnode
        cases hnode
      refine ⟨kmalloc_granted m _ _ _ hk, ?_⟩
      simp only
      rw [List.getElem?_set, if_pos rfl, if_pos hp]

/-- When `alloc_quantum` comes back with a quantum: it was in the slot already
and nothing changed, or the slot was empty and now holds a fresh region of
`quantum` bytes. -/
theorem alloc_quantum_some (dev : my_scull_dev) (m : Kmem) (p : Nat)
    (arr : List (Option (List Byte))) (s : Nat) (slot : Option (List Byte)) (blk : List Byte)
    (dev3 : my_scull_dev) (m3 : Kmem)
    (h : alloc_quantum dev m p arr s slot = (some blk, dev3, m3)) :
    granted m m3 ∧
    ((slot = some blk ∧ dev3 = dev) ∨
     (slot = none ∧ blk.length = to_ulong dev.quantum ∧
        dev3 = { dev with data := store_block dev.data p arr s blk })) := by
  unfold alloc_quantum at h
  split at h
  · simp only [Prod.mk.injEq, Option.some.injEq] at h
    obtain ⟨h1, h2, h3⟩ := h
    subst h1 h2 h3
    exact ⟨granted_refl m, Or.inl ⟨rfl, rfl⟩⟩
  · split at h
    · simp at h
    · rename_i region m1 hk
      simp only [Prod.mk.injEq, Option.some.injEq] at h
      obtain ⟨h1, h2, h3⟩ := h
      subst h1 h2 h3
      exact ⟨kmalloc_granted m _ _ _ hk, Or.inr ⟨rfl, kmalloc_region m _ _ _ hk, rfl⟩⟩

theorem room_clamp_le (quantum q_pos : Int) (count : Nat) :
    room_clamp quantum q_pos count ≤ count := by
  unfold room_clamp
  split
  · rename_i hgt
    exact Nat.le_of_lt hgt
  · exact Nat.le_refl _

/-- How `write_tail` comes back: the quantum of slot `s` of node `p` is
overwritten from `q_pos` on by as many bytes as the clamped count. -/
theorem write_tail_some (dev : my_scull_dev) (m : Kmem) (p : Nat)
    (arr : List (Option (List Byte))) (s : Nat) (blk : List Byte) (q_pos : Int)
    (buf : List Byte) (count : Nat) (f_pos : Int) (r : IoResult)
    (h : write_tail dev m p arr s blk q_pos buf count f_pos = some r) :
    0 ≤ q_pos ∧ q_pos.toNat + room_clamp dev.quantum q_pos count ≤ blk.length ∧ r.mem = m ∧
    ∃ src, src.length = room_clamp dev.quantum q_pos count ∧
      r.dev.data = store_block dev.data p arr s (overwrite blk q_pos.toNat src) ∧
      ((buf.length < room_clamp dev.quantum q_pos count ∧ r.retval = -EFAULT ∧
          r.f_pos = f_pos ∧ r.dev.size = dev.size) ∨
       (room_clamp dev.quantum q_pos count ≤ buf.length ∧
          src = buf.take (room_clamp dev.quantum q_pos count) ∧
          r.retval = to_long (room_clamp dev.quantum q_pos count : Nat) ∧
          r.f_pos = to_long (((to_ulong f_pos + room_clamp dev.quantum q_pos count)
            % ULONG_MOD : Nat) : Int) ∧
          r.dev.size = (if dev.size < to_ulong r.f_pos then to_ulong r.f_pos else dev.size))) := by
  unfold write_tail at h
  simp only at h
  unfold room_clamp
  generalize (if count > to_ulong (int_sub dev.quantum q_pos)
      then to_ulong (int_sub dev.quantum q_pos) else count) = n at h
  by_cases h1 : q_pos < 0 ∨ blk.length < q_pos.toNat + n
  · rw [if_pos h1] at h
    cases h
  · rw [if_neg h1] at h
    have hq : 0 ≤ q_pos := by
      by_contra hc
      exact h1 (Or.inl (by omega))
    have hb : q_pos.toNat + n ≤ blk.length := by
      by_contra hc
      exact h1 (Or.inr (by omega))
    by_cases h2 : buf.length < n
    · rw [if_pos h2] at h
      simp only [Option.some.injEq] at h
      subst h
      have hlen : (buf ++ List.replicate (n - buf.length) 0).length = n := by
        simp only [List.length_append, List.length_replicate]
        omega
      refine ⟨hq, hb, ?_, buf ++ List.replicate (n - buf.length) 0, hlen, ?_,
        Or.inl ⟨h2, ?_, ?_, ?_⟩⟩ <;> simp only
    · rw [if_neg h2] at h
      simp only [Option.some.injEq] at h
      subst h
      have hlen : (buf.take n).length = n := by
        simp only [List.length_take]
        omega
      refine ⟨hq, hb, ?_, buf.take n, hlen, ?_, Or.inr ⟨by omega, ?_, ?_, ?_, ?_⟩⟩ <;> simp only

theorem block_at_store_block (chain : List my_scull_qset) (p : Nat)
    (arr : List (Option (List Byte))) (s : Nat) (blk : List Byte) (hp : p < chain.length)
    (hs : s < arr.length) (i j : Nat) :
    block_at (store_block chain p arr s blk) i j =
      if i = p then (if j = s then some blk else node_block { data := some arr } j)
      else block_at chain i j := by
  unfold store_block
  rw [block_at_set _ _ _ hp, node_block_set _ _ _ hs]

theorem array_len_store_block (chain : List my_scull_qset) (p : Nat)
    (arr : List (Option (List Byte))) (s : Nat) (blk : List Byte) (hp : p < chain.length)
    (i : Nat) :
    array_len (store_block chain p arr s blk) i =
      if i = p then some arr.length else array_len chain i := by
  unfold store_block
  rw [array_len_set _ _ _ hp]
  simp only [Option.map_some', List.length_set]

theorem store_block_length (chain : List my_scull_qset) (p : Nat)
    (arr : List (Option (List Byte))) (s : Nat) (blk : List Byte) :
    (store_block chain p arr s blk).length = chain.length := by
  simp only [store_block, List.length_set]

theorem store_block_twice (chain : List my_scull_qset) (p : Nat)
    (arr : List (Option (List Byte))) (s : Nat) (blk blk1 : List Byte) :
    store_block (store_block chain p arr s blk) p arr s blk1 = store_block chain p arr s blk1 := by
  simp only [store_block, List.set_set]

/-- The ways `write_locked` comes back, with the path taken: out of memory,
or through the indices, the node, its array, the slot and the quantum to
`write_tail`, every allocation on the way granted. -/
theorem write_locked_path (dev : my_scull_dev) (m : Kmem) (itemsize : Int) (buf : List Byte)
    (count : Nat) (f_pos : Int) (r : IoResult)
    (h : write_locked dev m itemsize buf count f_pos = some r) :
    (∃ d1 m1, extends_dev dev d1 ∧ r = io_out (-ENOMEM) f_pos d1 m1) ∨
    (∃ ix d2 m2 arr slot blk d3 m3,
      indices dev.quantum itemsize f_pos = some ix ∧ 0 ≤ ix.s_pos ∧
      extends_dev dev d2 ∧ granted m m2 ∧
      d2.data[follow_rounds ix.item]? = some { data := some arr } ∧
      arr[ix.s_pos.toNat]? = some slot ∧
      alloc_quantum d2 m2 (follow_rounds ix.item) arr ix.s_pos.toNat slot = (some blk, d3, m3) ∧
      write_tail d3 m3 (follow_rounds ix.item) arr ix.s_pos.toNat blk ix.q_pos buf count f_pos
        = some r) := by
  unfold write_locked at h
  split at h
  · cases h
  · rename_i ix hix
    have hf := my_scull_follow_extends dev m ix.item
    split at h
    · rename_i dev1 m1 hfo
      rw [hfo] at hf
      simp only [Option.some.injEq] at h
      exact Or.inl ⟨dev1, m1, hf, h.symm⟩
    · rename_i p dev1 m1 hfo
      rw [hfo] at hf
      simp only at hf
      have hg1 := my_scull_follow_granted hfo
      have hp := (my_scull_follow_some hfo).1
      subst hp
      split at h
      · cases h
      · rename_i node hnode
        have ha := alloc_pointers_extends dev1 m1 _ node hnode
        split at h
        · rename_i dev2 m2 hap
          rw [hap] at ha
          simp only [Option.some.injEq] at h
          exact Or.inl ⟨dev2, m2, extends_dev_trans hf ha, h.symm⟩
        · rename_i arr dev2 m2 hap
          rw [hap] at ha
          simp only at ha
          obtain ⟨hg2, hd2⟩ := alloc_pointers_some dev1 m1 _ node hnode arr dev2 m2 hap
          have h02 := extends_dev_trans hf ha
          split at h
          · cases h
          · rename_i hs
            split at h
            · cases h
            · rename_i slot hslot
              have hq := alloc_quantum_params dev2 m2 (follow_rounds ix.item) arr
                ix.s_pos.toNat slot
              split at h
              · rename_i dev3 m3 haq
                rw [haq] at hq
                simp only [Option.some.injEq] at h
                have e : dev3 = dev2 := hq.2.2.2.2 rfl
                subst e
                exact Or.inl ⟨dev3, m3, h02, h.symm⟩
              · rename_i blk dev3 m3 haq
                exact Or.inr ⟨ix, dev2, m2, arr, slot, blk, dev3, m3, hix, by omega, h02,
                  granted_trans hg1 hg2, hd2, hslot, haq, h⟩

/-- The quanta of the store after `alloc_quantum` and `write_tail`: the
quantum addressed is the old one, or a fresh one, overwritten from `q_pos` on;
every other quantum and every array is as before. -/
theorem write_path_blocks (d2 : my_scull_dev) (m2 : Kmem) (p : Nat)
    (arr : List (Option (List Byte))) (s : Nat) (slot : Option (List Byte)) (blk : List Byte)
    (d3 : my_scull_dev) (m3 : Kmem) (q_pos : Int) (buf : List Byte) (count : Nat) (f_pos : Int)
    (r : IoResult) (hd2 : d2.data[p]? = some { data := some arr })
    (hslot : arr[s]? = some slot)
    (haq : alloc_quantum d2 m2 p arr s slot = (some blk, d3, m3))
    (h : write_tail d3 m3 p arr s blk q_pos buf count f_pos = some r) :
    granted m2 r.mem ∧ r.dev.quantum = d2.quantum ∧ r.dev.qset = d2.qset ∧
    r.dev.sem = up d2.sem ∧ r.out = [] ∧ r.dev.data.length = d2.data.length ∧
    (∀ i, array_len r.dev.data i = array_len d2.data i) ∧
    (block_at d2.data p s = some blk ∨
      (block_at d2.data p s = none ∧ blk.length = to_ulong d2.quantum)) ∧
    0 ≤ q_pos ∧ q_pos.toNat + room_clamp d2.quantum q_pos count ≤ blk.length ∧
    ∃ src, src.length = room_clamp d2.quantum q_pos count ∧
      (∀ i j, block_at r.dev.data i j =
        if i = p ∧ j = s then some (overwrite blk q_pos.toNat src) else block_at d2.data i j) ∧
      ((buf.length < room_clamp d2.quantum q_pos count ∧ r.retval = -EFAULT ∧
          r.f_pos = f_pos ∧ r.dev.size = d2.size) ∨
       (room_clamp d2.quantum q_pos count ≤ buf.length ∧
          src = buf.take (room_clamp d2.quantum q_pos count) ∧
          r.retval = to_long (room_clamp d2.quantum q_pos count : Nat) ∧
          r.f_pos = to_long (((to_ulong f_pos + room_clamp d2.quantum q_pos count)
            % ULONG_MOD : Nat) : Int) ∧
          r.dev.size = (if d2.size < to_ulong r.f_pos then to_ulong r.f_pos else d2.size))) := by
  have hp : p < d2.data.length := by
    by_contra hc
    rw [List.getElem?_eq_none (by omega)] at hd2
    cases hd2
  have hs : s < arr.length := by
    by_contra hc
    rw [List.getElem?_eq_none (by omega)] at hslot
    cases hslot
  have hnb : ∀ j, node_block { data := some arr } j = block_at d2.data p j := by
    intro j
    unfold block_at
    rw [hd2]
    rfl
  have hal : array_len d2.data p = some arr.length := by
    unfold array_len
    rw [hd2]
    rfl
  have hps : block_at d2.data p s = slot := by
    unfold block_at
    rw [hd2]
    show (arr[s]?).join = slot
    rw [hslot]
    rfl
  obtain ⟨t1, t2, t3, t4, _⟩ := write_tail_inv d3 m3 p arr s blk q_pos buf count f_pos r h
  obtain ⟨w1, w2, w3, src, w4, w5, w6⟩ :=
    write_tail_some d3 m3 p arr s blk q_pos buf count f_pos r h
  obtain ⟨g, hcase⟩ := alloc_quantum_some d2 m2 p arr s slot blk d3 m3 haq
  have hchain : r.dev.data = store_block d2.data p arr s (overwrite blk q_pos.toNat src) ∧
      d3.quantum = d2.quantum ∧ d3.qset = d2.qset ∧ d3.sem = d2.sem ∧ d3.size = d2.size := by
    rcases hcase with ⟨_, e⟩ | ⟨_, _, e⟩
    · subst e
      exact ⟨w5, rfl, rfl, rfl, rfl⟩
    · subst e
      simp only at w5
      rw [store_block_twice] at w5
      exact ⟨w5, rfl, rfl, rfl, rfl⟩
  obtain ⟨c1, c2, c3, c4, c5⟩ := hchain
  have hold : block_at d2.data p s = some blk ∨
      (block_at d2.data p s = none ∧ blk.length = to_ulong d2.quantum) := by
    rcases hcase with ⟨e, _⟩ | ⟨e, e2, _⟩
    · left
      rw [hps, e]
    · right
      rw [hps, e]
      exact ⟨rfl, e2⟩
  rw [c2] at w2 w4 w6
  rw [c5] at w6
  refine ⟨by rw [w3]; exact g, by rw [t1, c2], by rw [t2, c3], by rw [t3, c4], t4,
    by rw [c1, store_block_length], ?_, hold, w1, w2, src, w4, ?_, w6⟩
  · intro i
    rw [c1, array_len_store_block _ _ _ _ _ hp]
    by_cases hi : i = p
    · rw [if_pos hi, hi, hal]
    · rw [if_neg hi]
  · intro i j
    rw [c1, block_at_store_block _ _ _ _ _ hp hs]
    by_cases hi : i = p
    · subst hi
      by_cases hj : j = s
      · subst hj
        simp only [and_self, if_true]
      · rw [if_pos rfl, if_neg hj, if_neg (fun hc => hj hc.2), hnb]
    · rw [if_neg hi, if_neg (fun hc => hi hc.1)]

/-! ## One read of a store with sound parameters -/

theorem room_clamp_sane (Q q count : Nat) (hQ : (Q : Int) ≤ INT_MAX) (hq : q < Q) :
    room_clamp (Q : Int) (q : Int) count = min count (Q - q) := by
  unfold INT_MAX at hQ
  have e : to_ulong (int_sub (Q : Int) (q : Int)) = Q - q := by
    unfold int_sub to_int to_ulong
    omega
  unfold room_clamp
  rw [e]
  clear e hQ
  split <;> omega

theorem size_clamp_sane (size off count : Nat) (hlt : off < size)
    (hrange : (off : Int) + count ≤ LONG_MAX) :
    size_clamp size (off : Int) count = min count (size - off) := by
  unfold LONG_MAX at hrange
  have e : to_ulong (off : Int) = off := to_ulong_natCast (by unfold ULONG_MOD; omega)
  unfold size_clamp
  rw [e]
  clear e
  unfold ULONG_MOD
  split <;> omega

theorem my_scull_follow_none {dev : my_scull_dev} {m : Kmem} {n : Int}
    {dev1 : my_scull_dev} {m1 : Kmem} (h : my_scull_follow dev m n = (none, dev1, m1)) :
    dev.data.length ≤ follow_rounds n := by
  by_contra hc
  rw [my_scull_follow_covered dev m n (by omega)] at h
  simp at h

/-- What `read_tail` hands out from a quantum of `Q` bytes at position `q`. -/
theorem read_tail_sane (dev : my_scull_dev) (m : Kmem) (blk : List Byte) (Q q ucap cnt off : Nat)
    (hq : dev.quantum = (Q : Int)) (hQ : (Q : Int) ≤ INT_MAX) (hqlt : q < Q)
    (hblk : blk.length = Q) (hoff : (off : Int) + cnt ≤ LONG_MAX) :
    ∃ r, read_tail dev m blk (q : Int) ucap cnt (off : Int) = some r ∧
      r.dev = { dev with sem := up dev.sem } ∧ r.mem = m ∧
      (r.retval, r.f_pos, r.out) =
        (if ucap < min cnt (Q - q) then
          (-EFAULT, (off : Int), ((blk.drop q).take (min cnt (Q - q))).take ucap)
        else (((min cnt (Q - q) : Nat) : Int), ((off + min cnt (Q - q) : Nat) : Int),
          (blk.drop q).take (min cnt (Q - q)))) := by
  have e : (if cnt > to_ulong (int_sub dev.quantum (q : Int))
      then to_ulong (int_sub dev.quantum (q : Int)) else cnt) = min cnt (Q - q) := by
    rw [hq]
    exact room_clamp_sane Q q cnt hQ hqlt
  have hle : min cnt (Q - q) ≤ cnt := Nat.min_le_left _ _
  have hle2 : min cnt (Q - q) ≤ Q - q := Nat.min_le_right _ _
  unfold read_tail
  simp only []
  rw [e]
  clear e
  generalize min cnt (Q - q) = n at *
  have h1 : (off : Int) + n ≤ LONG_MAX := by omega
  have h2 : (n : Int) ≤ LONG_MAX := by omega
  have hc1 : ¬ ((q : Int) < 0 ∨ blk.length < (q : Int).toNat + n) := by
    rw [hblk, Int.toNat_natCast]
    omega
  clear hoff hle hle2 hqlt hQ hq hblk
  rw [if_neg hc1, advance_eq off n h1, to_long_natCast h2, Int.toNat_natCast]
  clear h1 h2 hc1
  by_cases hu : ucap < n
  · rw [if_pos hu, if_pos hu]
    exact ⟨_, rfl, rfl, rfl, rfl⟩
  · rw [if_neg hu, if_neg hu]
    exact ⟨_, rfl, rfl, rfl, rfl⟩

theorem read_view_sane (dev : my_scull_dev) (Q S ucap count off : Nat)
    (hq : dev.quantum = (Q : Int)) (hs : dev.qset = (S : Int)) :
    read_view dev ucap count off =
      if off ≥ dev.size then (0, (off : Int), [])
      else
        match block_at dev.data (off / (Q * S)) (off % (Q * S) / Q) with
        | none => (0, (off : Int), [])
        | some blk =>
          if ucap < min (min count (dev.size - off)) (Q - off % (Q * S) % Q) then
            (-EFAULT, (off : Int), ((blk.drop (off % (Q * S) % Q)).take
              (min (min count (dev.size - off)) (Q - off % (Q * S) % Q))).take ucap)
          else (((min (min count (dev.size - off)) (Q - off % (Q * S) % Q) : Nat) : Int),
            ((off + min (min count (dev.size - off)) (Q - off % (Q * S) % Q) : Nat) : Int),
            (blk.drop (off % (Q * S) % Q)).take
              (min (min count (dev.size - off)) (Q - off % (Q * S) % Q))) := by
  unfold read_view
  simp only [hq, hs, Int.toNat_natCast]

/-- The body of `my_scull_read` on a store with sound parameters: it returns,
the store is at most extended by empty nodes, and what it hands out is told
by `read_view`. -/
theorem read_locked_sane (dev : my_scull_dev) (m : Kmem) (Q S ucap count off : Nat)
    (hq : dev.quantum = (Q : Int)) (hs : dev.qset = (S : Int)) (hQ : 0 < Q) (hS : 0 < S)
    (hQS : ((Q * S : Nat) : Int) ≤ INT_MAX) (hsh : shaped dev)
    (hitem : ((off / (Q * S) : Nat) : Int) ≤ INT_MAX)
    (hoff : (off : Int) + count ≤ LONG_MAX) :
    ∃ r d1, read_locked dev m (int_mul (Q : Int) (S : Int)) ucap count (off : Int) = some r ∧
      extends_dev dev d1 ∧ r.dev = { d1 with sem := up d1.sem } ∧
      (r.retval, r.f_pos, r.out) = read_view dev ucap count off ∧
      ((dev.size ≤ off ∨ off / (Q * S) < dev.data.length) → d1 = dev ∧ r.mem = m) := by
  have hton : to_ulong (off : Int) = off :=
    to_ulong_natCast (by unfold LONG_MAX at hoff; unfold ULONG_MOD; omega)
  have hix := indices_natCast Q S off hQ hS hQS hitem
  have hfr : follow_rounds ((off / (Q * S) : Nat) : Int) = off / (Q * S) :=
    follow_rounds_natCast hitem
  have hslt : off % (Q * S) / Q < S :=
    Nat.div_lt_of_lt_mul (Nat.mod_lt _ (Nat.mul_pos hQ hS))
  have hqlt : off % (Q * S) % Q < Q := Nat.mod_lt _ hQ
  have hQle : (Q : Int) ≤ INT_MAX := by
    have : Q ≤ Q * S := Nat.le_mul_of_pos_right Q hS
    have h2 : (Q : Int) ≤ ((Q * S : Nat) : Int) := Int.ofNat_le.mpr this
    exact le_trans h2 hQS
  rw [read_view_sane dev Q S ucap count off hq hs]
  by_cases hsz : off ≥ dev.size
  · refine ⟨io_out 0 (off : Int) dev m, dev, ?_, extends_dev_refl dev, rfl, ?_, fun _ => ⟨rfl, rfl⟩⟩
    · unfold read_locked
      rw [hton, if_pos hsz]
    · rw [if_pos hsz]
      rfl
  · have hclamp := size_clamp_sane dev.size off count (by omega) hoff
    unfold size_clamp at hclamp
    rw [hton] at hclamp
    have hoff2 : (off : Int) + (min count (dev.size - off) : Nat) ≤ LONG_MAX := by
      have : min count (dev.size - off) ≤ count := Nat.min_le_left _ _
      omega
    rw [if_neg hsz]
    unfold read_locked
    rw [hton, if_neg hsz]
    simp only []
    rw [hq, hix, hclamp]
    simp only [Int.toNat_natCast, hfr]
    clear hix hton hitem hQS hoff hclamp
    generalize off / (Q * S) = p at *
    generalize off % (Q * S) / Q = s at *
    generalize off % (Q * S) % Q = q at *
    generalize min count (dev.size - off) = cnt at *
    have hsneg : ¬ ((s : Int) < 0) := by omega
    have hext := my_scull_follow_extends dev m (p : Int)
    rcases hfo : my_scull_follow dev m (p : Int) with ⟨_ | p1, d1, m1⟩
    · rw [hfo] at hext
      have hshort := my_scull_follow_none hfo
      rw [hfr] at hshort
      have hb : block_at dev.data p s = none := by
        unfold block_at
        rw [List.getElem?_eq_none hshort]
        rfl
      rw [hb]
      refine ⟨io_out 0 (off : Int) d1 m1, d1, rfl, hext, rfl, rfl, ?_⟩
      intro hcov
      omega
    · rw [hfo] at hext
      simp only at hext
      have hcov : (dev.size ≤ off ∨ p < dev.data.length) → d1 = dev ∧ m1 = m := by
        intro hc
        have hlt : follow_rounds (p : Int) < dev.data.length := by
          rw [hfr]
          omega
        have hcv := my_scull_follow_covered dev m (p : Int) hlt
        rw [hfo] at hcv
        simp only [Prod.mk.injEq] at hcv
        exact ⟨hcv.2.1, hcv.2.2⟩
      obtain ⟨e1, e2, _⟩ := my_scull_follow_some hfo
      rw [hfr] at e1
      subst e1
      simp only []
      have hq1 : d1.quantum = (Q : Int) := by rw [hext.1, hq]
      have hnode : d1.data[p1]? =
          if p1 < dev.data.length then dev.data[p1]? else some { data := none } := by
        rw [e2]
        simp only []
        rw [grown_getElem?]
        by_cases hl : p1 < dev.data.length
        · rw [if_pos hl, if_pos hl]
        · rw [if_neg hl, if_neg hl, if_pos (Nat.le_refl _)]
      rw [hnode]
      by_cases hl : p1 < dev.data.length
      · rw [if_pos hl]
        cases hnd : dev.data[p1]? with
        | none =>
          rw [List.getElem?_eq_none_iff] at hnd
          omega
        | some node =>
          simp only []
          cases ha : node.data with
          | none =>
            have hb : block_at dev.data p1 s = none := by
              unfold block_at
              rw [hnd]
              simp only [Option.some_bind, node_block, ha, Option.none_bind]
            rw [hb]
            exact ⟨io_out 0 (off : Int) d1 m1, d1, rfl, hext, rfl, rfl,
              fun hc => ⟨(hcov hc).1, (hcov hc).2⟩⟩
          | some arr =>
            simp only []
            rw [if_neg hsneg]
            obtain ⟨hlen, hblks⟩ := hsh p1 node arr hnd ha
            rw [hs] at hlen
            have hlen2 : arr.length = S := Int.ofNat_inj.mp hlen
            cases hslot : arr[s]? with
            | none =>
              rw [List.getElem?_eq_none_iff] at hslot
              omega
            | some slot =>
              have hb : block_at dev.data p1 s = slot := by
                unfold block_at
                rw [hnd]
                show (node.data.bind fun a => (a[s]?).join) = slot
                rw [ha]
                show (arr[s]?).join = slot
                rw [hslot]
                rfl
              rw [hb]
              cases slot with
              | none =>
                exact ⟨io_out 0 (off : Int) d1 m1, d1, rfl, hext, rfl, rfl,
                  fun hc => ⟨(hcov hc).1, (hcov hc).2⟩⟩
              | some blk =>
                simp only []
                have hbl := hblks s blk hslot
                rw [hq] at hbl
                have hbl2 : blk.length = Q := Int.ofNat_inj.mp hbl
                obtain ⟨r, hr, hr1, hr2, hr3⟩ :=
                  read_tail_sane d1 m1 blk Q q ucap cnt off hq1 hQle hqlt hbl2 hoff2
                exact ⟨r, d1, hr, hext, hr1, hr3,
                  fun hc => ⟨(hcov hc).1, by rw [hr2]; exact (hcov hc).2⟩⟩
      · rw [if_neg hl]
        simp only []
        have hb : block_at dev.data p1 s = none := by
          unfold block_at
          rw [List.getElem?_eq_none (by omega)]
          rfl
        rw [hb]
        exact ⟨io_out 0 (off : Int) d1 m1, d1, rfl, hext, rfl, rfl,
          fun hc => ⟨(hcov hc).1, (hcov hc).2⟩⟩

/-- A device with the semaphore taken and released again. -/
theorem extends_dev_unlock {dev d1 : my_scull_dev} (hsem : 0 < dev.sem)
    (h : extends_dev { dev with sem := dev.sem - 1 } d1) :
    extends_dev dev { d1 with sem := up d1.sem } := by
  obtain ⟨a1, a2, a3, a4, a5, a6, a7⟩ := h
  simp only at a1 a2 a3 a4 a5 a6 a7
  refine ⟨a1, a2, a3, ?_, a5, a6, a7⟩
  simp only [a4, up]
  omega

/-- `my_scull_read` on a store with sound parameters and a free semaphore: it
returns, the store is at most extended by empty nodes, and what it hands out
is told by `read_view`. -/
theorem my_scull_read_sane (dev : my_scull_dev) (m : Kmem) (Q S ucap count off : Nat)
    (hq : dev.quantum = (Q : Int)) (hs : dev.qset = (S : Int)) (hQ : 0 < Q) (hS : 0 < S)
    (hQS : ((Q * S : Nat) : Int) ≤ INT_MAX) (hsh : shaped dev) (hsem : 0 < dev.sem)
    (hitem : ((off / (Q * S) : Nat) : Int) ≤ INT_MAX)
    (hoff : (off : Int) + count ≤ LONG_MAX) :
    ∃ r, my_scull_read dev m ucap count (off : Int) = some r ∧ extends_dev dev r.dev ∧
      (r.retval, r.f_pos, r.out) = read_view dev ucap count off ∧
      ((dev.size ≤ off ∨ off / (Q * S) < dev.data.length) → r.dev = dev ∧ r.mem = m) := by
  obtain ⟨r, d1, h1, h2, h3, h4, h5⟩ :=
    read_locked_sane { dev with sem := dev.sem - 1 } m Q S ucap count off hq hs hQ hS hQS hsh
      hitem hoff
  refine ⟨r, ?_, ?_, h4, ?_⟩
  rotate_left 2
  · intro hc
    obtain ⟨e1, e2⟩ := h5 hc
    refine ⟨?_, e2⟩
    rw [h3, e1]
    have hup : up (dev.sem - 1) = dev.sem := by unfold up; omega
    simp only [hup]
  · unfold my_scull_read
    simp only [down_interruptible, hsem, if_true, ne_eq, not_true_eq_false, if_false]
    rw [← hq, ← hs] at h1
    exact h1
  · rw [h3]
    exact extends_dev_unlock hsem h2

/-! ## One write to a store with sound parameters -/

theorem pointers_size (S : Nat) (hS : (S : Int) ≤ INT_MAX) :
    (to_ulong (S : Int) * SIZEOF_PTR) % ULONG_MOD = S * 8 ∧
    ((to_ulong (S : Int) * SIZEOF_PTR) % ULONG_MOD) / SIZEOF_PTR = S ∧
    S * 8 < 9223372036854775808 := by
  unfold INT_MAX at hS
  have e : to_ulong (S : Int) = S := to_ulong_natCast (by unfold ULONG_MOD; omega)
  rw [e]
  clear e
  unfold SIZEOF_PTR ULONG_MOD
  omega

/-- A store that extends a shaped store is shaped. -/
theorem extends_dev_shaped {d d1 : my_scull_dev} (S : Nat) (hs : d.qset = (S : Int))
    (hS : (S : Int) ≤ INT_MAX) (hsh : shaped d) (h : extends_dev d d1) : shaped d1 := by
  obtain ⟨a1, a2, _, _, _, a6, a7⟩ := h
  rw [shaped_iff] at hsh ⊢
  obtain ⟨s1, s2⟩ := hsh
  constructor
  · intro i len hl
    rw [a2]
    rcases a7 i len hl with h1 | h1
    · exact s1 i len h1
    · rw [hs, (pointers_size S hS).2.1] at h1
      rw [h1, hs]
  · intro i s blk hb
    rw [a6] at hb
    rw [a1]
    exact s2 i s blk hb

/-- With a quantum of `Q` bytes that has room from `q` on, `write_tail`
returns: a fault, or a count that is not negative. -/
theorem write_tail_returns (dev : my_scull_dev) (m : Kmem) (p : Nat)
    (arr : List (Option (List Byte))) (s : Nat) (blk : List Byte) (Q q : Nat)
    (buf : List Byte) (count : Nat) (f_pos : Int) (hq : dev.quantum = (Q : Int))
    (hQ : (Q : Int) ≤ INT_MAX) (hqlt : q < Q) (hblk : blk.length = Q) :
    ∃ r, write_tail dev m p arr s blk (q : Int) buf count f_pos = some r ∧
      ((r.retval = -EFAULT ∧ buf.length < count) ∨ (0 : Int) ≤ r.retval) := by
  have e : (if count > to_ulong (int_sub dev.quantum (q : Int))
      then to_ulong (int_sub dev.quantum (q : Int)) else count) = min count (Q - q) := by
    rw [hq]
    exact room_clamp_sane Q q count hQ hqlt
  have hle2 : min count (Q - q) ≤ Q - q := Nat.min_le_right _ _
  have hle : min count (Q - q) ≤ count := Nat.min_le_left _ _
  rw [write_tail]
  simp only []
  rw [e]
  clear e
  generalize min count (Q - q) = n at *
  have hc1 : ¬ ((q : Int) < 0 ∨ blk.length < (q : Int).toNat + n) := by
    rw [hblk, Int.toNat_natCast]
    omega
  have hn : (n : Int) ≤ LONG_MAX := by
    unfold INT_MAX at hQ
    unfold LONG_MAX
    omega
  have hret : (0 : Int) ≤ to_long (n : Int) := by
    rw [to_long_natCast hn]
    exact Int.natCast_nonneg _
  rw [if_neg hc1]
  by_cases hu : buf.length < n
  · rw [if_pos hu]
    exact ⟨_, rfl, Or.inl ⟨rfl, by omega⟩⟩
  · rw [if_neg hu]
    exact ⟨_, rfl, Or.inr hret⟩

theorem alloc_pointers_generous (dev : my_scull_dev) (m : Kmem) (p : Nat) (node : my_scull_qset)
    (S : Nat) (hs : dev.qset = (S : Int)) (hS : (S : Int) ≤ INT_MAX) (hm : generous m) :
    ∃ arr dev2 m2, alloc_pointers dev m p node = (some arr, dev2, m2) ∧ generous m2 := by
  obtain ⟨hp1, _, hp3⟩ := pointers_size S hS
  rw [alloc_pointers]
  cases ha : node.data with
  | some arr => exact ⟨arr, dev, m, rfl, hm⟩
  | none =>
    simp only []
    rw [hs, hp1]
    obtain ⟨junk, hk⟩ := kmalloc_generous hm (S * 8) hp3
    rw [hk]
    exact ⟨_, _, _, rfl, hm⟩

theorem alloc_quantum_generous (dev : my_scull_dev) (m : Kmem) (p : Nat)
    (arr : List (Option (List Byte))) (s : Nat) (slot : Option (List Byte)) (Q : Nat)
    (hq : dev.quantum = (Q : Int)) (hQ : (Q : Int) ≤ INT_MAX) (hm : generous m) :
    ∃ blk dev3 m3, alloc_quantum dev m p arr s slot = (some blk, dev3, m3) ∧ generous m3 := by
  have hQ63 : Q < 9223372036854775808 := by
    unfold INT_MAX at hQ
    omega
  have hQmod : Q < ULONG_MOD := by
    unfold ULONG_MOD
    omega
  cases slot with
  | some blk => exact ⟨blk, dev, m, rfl, hm⟩
  | none =>
    rw [alloc_quantum, hq, to_ulong_natCast hQmod]
    obtain ⟨junk, hk⟩ := kmalloc_generous hm Q hQ63
    rw [hk]
    exact ⟨_, _, _, rfl, hm⟩

/-- With a generous allocator the body of `my_scull_write` returns, and not
out of memory, whenever the indices it computes lie inside the array and the
quantum. -/
theorem write_locked_returns_ix (dev : my_scull_dev) (m : Kmem) (itemsize : Int) (Q S : Nat)
    (buf : List Byte) (count : Nat) (f_pos item rest : Int) (s q : Nat)
    (hq : dev.quantum = (Q : Int)) (hs : dev.qset = (S : Int)) (hQle : (Q : Int) ≤ INT_MAX)
    (hSle : (S : Int) ≤ INT_MAX) (hsh : shaped dev) (hm : generous m)
    (hix : indices dev.quantum itemsize f_pos =
      some { item := item, rest := rest, s_pos := (s : Int), q_pos := (q : Int) })
    (hslt : s < S) (hqlt : q < Q) :
    ∃ r, write_locked dev m itemsize buf count f_pos = some r ∧
      ((r.retval = -EFAULT ∧ buf.length < count) ∨ (0 : Int) ≤ r.retval) := by
  have hsneg : ¬ ((s : Int) < 0) := not_lt.mpr (Int.natCast_nonneg _)
  have hQ63 : Q < 9223372036854775808 := by
    unfold INT_MAX at hQle
    omega
  have hQmod : Q < ULONG_MOD := by
    unfold ULONG_MOD
    omega
  have hqsz : to_ulong (Q : Int) = Q := to_ulong_natCast hQmod
  obtain ⟨hp1, hp2, hp3⟩ := pointers_size S hSle
  rw [write_locked, hix]
  simp only [Int.toNat_natCast]
  clear hix
  have hext := my_scull_follow_extends dev m item
  obtain ⟨m1, hfo, hg1⟩ := my_scull_follow_generous dev m item hm
  rw [hfo] at hext
  generalize follow_rounds item = p at *
  simp only at hext
  rw [hfo]
  simp only []
  have hsh1 := extends_dev_shaped S hs hSle hsh hext
  generalize hd1 : ({ dev with data := grown dev.data p } : my_scull_dev) = dev1 at *
  have hq1 : dev1.quantum = (Q : Int) := by rw [hext.1, hq]
  have hs1 : dev1.qset = (S : Int) := by rw [hext.2.1, hs]
  have hgd : dev1.data = grown dev.data p := by rw [← hd1]
  rw [← hgd]
  have hlen : p < dev1.data.length := by
    rw [hgd, grown_length]
    omega
  cases hnode : dev1.data[p]? with
  | none =>
    rw [List.getElem?_eq_none_iff] at hnode
    omega
  | some node =>
    simp only []
    obtain ⟨arr, dev2, m2, hap, hg2⟩ := alloc_pointers_generous dev1 m1 p node S hs1 hSle hg1
    have hext2 := alloc_pointers_extends dev1 m1 p node hnode
    obtain ⟨_, hd2⟩ := alloc_pointers_some dev1 m1 p node hnode arr dev2 m2 hap
    rw [hap] at hext2
    simp only at hext2
    rw [hap]
    simp only []
    rw [if_neg hsneg]
    have hsh2 := extends_dev_shaped S hs1 hSle hsh1 hext2
    have hq2 : dev2.quantum = (Q : Int) := by rw [hext2.1, hq1]
    have hs2 : dev2.qset = (S : Int) := by rw [hext2.2.1, hs1]
    obtain ⟨hal, hbl⟩ := hsh2 p _ arr hd2 rfl
    rw [hs2] at hal
    have hal2 : arr.length = S := Int.ofNat_inj.mp hal
    cases hslot : arr[s]? with
    | none =>
      rw [List.getElem?_eq_none_iff] at hslot
      omega
    | some slot =>
      simp only []
      obtain ⟨blk, dev3, m3, haq, hg3⟩ :=
        alloc_quantum_generous dev2 m2 p arr s slot Q hq2 hQle hg2
      have hpar := alloc_quantum_params dev2 m2 p arr s slot
      obtain ⟨_, hcase⟩ := alloc_quantum_some dev2 m2 p arr s slot blk dev3 m3 haq
      rw [haq] at hpar
      simp only at hpar
      rw [haq]
      simp only []
      have hq3 : dev3.quantum = (Q : Int) := by rw [hpar.1, hq2]
      have hblk : blk.length = Q := by
        rcases hcase with ⟨e, _⟩ | ⟨_, e, _⟩
        · rw [e] at hslot
          have := hbl s blk hslot
          rw [hq2] at this
          exact Int.ofNat_inj.mp this
        · rw [e, hq2, hqsz]
      obtain ⟨r, hr, hret⟩ :=
        write_tail_returns dev3 m3 p arr s blk Q q buf count f_pos hq3 hQle hqlt hblk
      exact ⟨r, hr, hret⟩

/-- With a generous allocator the body of `my_scull_write` on a store with
sound parameters returns, and not out of memory. -/
theorem write_locked_returns (dev : my_scull_dev) (m : Kmem) (Q S : Nat) (buf : List Byte)
    (count off : Nat) (hq : dev.quantum = (Q : Int)) (hs : dev.qset = (S : Int)) (hQ : 0 < Q)
    (hS : 0 < S) (hQS : ((Q * S : Nat) : Int) ≤ INT_MAX) (hsh : shaped dev) (hm : generous m)
    (hitem : ((off / (Q * S) : Nat) : Int) ≤ INT_MAX) :
    ∃ r, write_locked dev m (int_mul (Q : Int) (S : Int)) buf count (off : Int) = some r ∧
      ((r.retval = -EFAULT ∧ buf.length < count) ∨ (0 : Int) ≤ r.retval) := by
  have hslt : off % (Q * S) / Q < S :=
    Nat.div_lt_of_lt_mul (Nat.mod_lt _ (Nat.mul_pos hQ hS))
  have hqlt : off % (Q * S) % Q < Q := Nat.mod_lt _ hQ
  have hQle : (Q : Int) ≤ INT_MAX := by
    have : Q ≤ Q * S := Nat.le_mul_of_pos_right Q hS
    have h2 : (Q : Int) ≤ ((Q * S : Nat) : Int) := Int.ofNat_le.mpr this
    exact le_trans h2 hQS
  have hSle : (S : Int) ≤ INT_MAX := by
    have : S ≤ Q * S := Nat.le_mul_of_pos_left S hQ
    have h2 : (S : Int) ≤ ((Q * S : Nat) : Int) := Int.ofNat_le.mpr this
    exact le_trans h2 hQS
  have hix := indices_natCast Q S off hQ hS hQS hitem
  rw [← hq] at hix
  rw [← hq]
  exact write_locked_returns_ix dev m _ Q S buf count _ _ _ _ _ hq hs hQle hSle hsh hm hix hslt
    hqlt

/-- With the semaphore free `my_scull_write` is its body run with the
semaphore taken. -/
theorem my_scull_write_unlocked (dev : my_scull_dev) (m : Kmem) (buf : List Byte) (count : Nat)
    (f_pos : Int) (hsem : 0 < dev.sem) :
    my_scull_write dev m buf count f_pos =
      write_locked { dev with sem := dev.sem - 1 } m (int_mul dev.quantum dev.qset) buf count
        f_pos := by
  rw [my_scull_write]
  simp only [down_interruptible, hsem, if_true, ne_eq, not_true_eq_false, if_false]

/-- With a generous allocator `my_scull_write` on a store with sound
parameters and a free semaphore returns; it fails only by a fault, when the
user buffer is shorter than the count. -/
theorem my_scull_write_returns (dev : my_scull_dev) (m : Kmem) (Q S : Nat) (buf : List Byte)
    (count off : Nat) (hq : dev.quantum = (Q : Int)) (hs : dev.qset = (S : Int)) (hQ : 0 < Q)
    (hS : 0 < S) (hQS : ((Q * S : Nat) : Int) ≤ INT_MAX) (hsh : shaped dev) (hsem : 0 < dev.sem)
    (hm : generous m) (hitem : ((off / (Q * S) : Nat) : Int) ≤ INT_MAX) :
    ∃ r, my_scull_write dev m buf count (off : Int) = some r ∧
      ((r.retval = -EFAULT ∧ buf.length < count) ∨ (0 : Int) ≤ r.retval) := by
  obtain ⟨r, h1, h2⟩ :=
    write_locked_returns { dev with sem := dev.sem - 1 } m Q S buf count off hq hs hQ hS hQS hsh
      hm hitem
  refine ⟨r, ?_, h2⟩
  rw [my_scull_write]
  simp only [down_interruptible, hsem, if_true, ne_eq, not_true_eq_false, if_false]
  rw [← hq, ← hs] at h1
  exact h1

/-! ## The effect of one write -/

/-- What a returning `my_scull_write` has done when the semaphore was free.
Either it ran out of memory: the position is as it was and the store is only
extended by empty nodes and arrays. Or every allocation was granted: the
quantum addressed by the indices (its old contents `old`, or a fresh region)
is overwritten from `q_pos` on with the clamped count of bytes, every other
quantum is as it was, and the call faulted or accepted the bytes. -/
theorem my_scull_write_effect (dev : my_scull_dev) (m : Kmem) (buf : List Byte) (count : Nat)
    (f_pos : Int) (r : IoResult) (h : my_scull_write dev m buf count f_pos = some r)
    (hsem : 0 < dev.sem) :
    (r.retval = -ENOMEM ∧ r.f_pos = f_pos ∧ r.out = [] ∧ extends_dev dev r.dev) ∨
    (∃ ix old src,
      indices dev.quantum (int_mul dev.quantum dev.qset) f_pos = some ix ∧
      0 ≤ ix.s_pos ∧ 0 ≤ ix.q_pos ∧ granted m r.mem ∧
      r.dev.quantum = dev.quantum ∧ r.dev.qset = dev.qset ∧ r.dev.sem = dev.sem ∧ r.out = [] ∧
      dev.data.length ≤ r.dev.data.length ∧
      (∀ i len, array_len r.dev.data i = some len → array_len dev.data i = some len ∨
        len = ((to_ulong dev.qset * SIZEOF_PTR) % ULONG_MOD) / SIZEOF_PTR) ∧
      (block_at dev.data (follow_rounds ix.item) ix.s_pos.toNat = some old ∨
        (block_at dev.data (follow_rounds ix.item) ix.s_pos.toNat = none ∧
          old.length = to_ulong dev.quantum)) ∧
      ix.q_pos.toNat + room_clamp dev.quantum ix.q_pos count ≤ old.length ∧
      src.length = room_clamp dev.quantum ix.q_pos count ∧
      (∀ i j, block_at r.dev.data i j =
        if i = follow_rounds ix.item ∧ j = ix.s_pos.toNat
        then some (overwrite old ix.q_pos.toNat src) else block_at dev.data i j) ∧
      ((buf.length < room_clamp dev.quantum ix.q_pos count ∧ r.retval = -EFAULT ∧
          r.f_pos = f_pos ∧ r.dev.size = dev.size) ∨
       (room_clamp dev.quantum ix.q_pos count ≤ buf.length ∧
          src = buf.take (room_clamp dev.quantum ix.q_pos count) ∧
          r.retval = to_long (room_clamp dev.quantum ix.q_pos count : Nat) ∧
          r.f_pos = to_long (((to_ulong f_pos + room_clamp dev.quantum ix.q_pos count)
            % ULONG_MOD : Nat) : Int) ∧
          r.dev.size =
            (if dev.size < to_ulong r.f_pos then to_ulong r.f_pos else dev.size)))) := by
  rcases my_scull_write_inv dev m buf count f_pos r h with ⟨h0, _⟩ | ⟨_, hl⟩
  · omega
  · have hup : up (dev.sem - 1) = dev.sem := by unfold up; omega
    rcases write_locked_path _ m _ buf count f_pos r hl with ⟨d1, m1, he, hr⟩ | hw
    · left
      subst hr
      exact ⟨rfl, rfl, rfl, extends_dev_unlock hsem he⟩
    · right
      obtain ⟨ix, d2, m2, arr, slot, blk, d3, m3, hix, hs0, he, hg, hd2, hslot, haq, ht⟩ := hw
      obtain ⟨b1, b2, b3, b4, b5, b6, b7, b8, b9, b10, src, b11, b12, b13⟩ :=
        write_path_blocks d2 m2 _ arr _ slot blk d3 m3 ix.q_pos buf count f_pos r hd2 hslot haq ht
      obtain ⟨e1, e2, e3, e4, e5, e6, e7⟩ := he
      simp only at e1 e2 e3 e4 e5 e6 e7 hix
      rw [e1] at b2 b8 b10 b11 b13
      rw [e2] at b3
      rw [e3] at b13
      rw [e4, hup] at b4
      rw [e6] at b8
      refine ⟨ix, blk, src, hix, hs0, b9, granted_trans hg b1, b2, b3, b4, b5,
        by rw [b6]; exact e5, ?_, b8, b10, b11, ?_, b13⟩
      · intro i len hl2
        rw [b7] at hl2
        exact e7 i len hl2
      · intro i j
        rw [b12, e6]

theorem size_after (dsize off n : Nat) (h : (off : Int) + n ≤ LONG_MAX) :
    to_long (n : Int) = (n : Int) ∧
    to_long (((to_ulong (off : Int) + n) % ULONG_MOD : Nat) : Int) = ((off + n : Nat) : Int) ∧
    (if dsize < to_ulong (to_long (((to_ulong (off : Int) + n) % ULONG_MOD : Nat) : Int))
      then to_ulong (to_long (((to_ulong (off : Int) + n) % ULONG_MOD : Nat) : Int))
      else dsize) = max dsize (off + n) := by
  have h2 : (n : Int) ≤ LONG_MAX := by omega
  have h3 : off + n < ULONG_MOD := by
    unfold LONG_MAX at h
    unfold ULONG_MOD
    omega
  rw [advance_eq off n h, to_long_natCast h2, to_ulong_natCast h3]
  clear h h2 h3
  refine ⟨rfl, rfl, ?_⟩
  split <;> omega

/-- One `my_scull_write` of `count` bytes at offset `off` to a shaped store
with quantum `Q > 0`, qset `S > 0` and `Q * S` within `int`, the semaphore
free. Either it ran out of memory, leaving position, size and every quantum
as they were. Or the quantum of slot `off % (Q * S) / Q` of node
`off / (Q * S)`, fresh if it was not there, is overwritten from
`off % (Q * S) % Q` on by `n = min count (Q - off % (Q * S) % Q)` bytes and
nothing else changes; the call then faults, if the user buffer has fewer than
`n` bytes, or returns `n`, advances the position by `n` and raises the size
to `off + n` if that is larger. -/
theorem my_scull_write_sane (dev : my_scull_dev) (m : Kmem) (Q S : Nat) (buf : List Byte)
    (count off : Nat) (r : IoResult) (hq : dev.quantum = (Q : Int)) (hs : dev.qset = (S : Int))
    (hQ : 0 < Q) (hS : 0 < S) (hQS : ((Q * S : Nat) : Int) ≤ INT_MAX) (hsh : shaped dev)
    (hsem : 0 < dev.sem) (hitem : ((off / (Q * S) : Nat) : Int) ≤ INT_MAX)
    (hoff : (off : Int) + count ≤ LONG_MAX)
    (h : my_scull_write dev m buf count (off : Int) = some r) :
    r.dev.quantum = dev.quantum ∧ r.dev.qset = dev.qset ∧ r.dev.sem = dev.sem ∧ r.out = [] ∧
    shaped r.dev ∧ dev.data.length ≤ r.dev.data.length ∧
    ((r.retval = -ENOMEM ∧ r.f_pos = (off : Int) ∧ r.dev.size = dev.size ∧
        ∀ i j, block_at r.dev.data i j = block_at dev.data i j) ∨
     (∃ old src, granted m r.mem ∧ old.length = Q ∧
        (block_at dev.data (off / (Q * S)) (off % (Q * S) / Q) = some old ∨
          block_at dev.data (off / (Q * S)) (off % (Q * S) / Q) = none) ∧
        src.length = min count (Q - off % (Q * S) % Q) ∧
        (∀ i j, block_at r.dev.data i j =
          if i = off / (Q * S) ∧ j = off % (Q * S) / Q
          then some (overwrite old (off % (Q * S) % Q) src) else block_at dev.data i j) ∧
        ((buf.length < min count (Q - off % (Q * S) % Q) ∧ r.retval = -EFAULT ∧
            r.f_pos = (off : Int) ∧ r.dev.size = dev.size) ∨
         (min count (Q - off % (Q * S) % Q) ≤ buf.length ∧
            src = buf.take (min count (Q - off % (Q * S) % Q)) ∧
            r.retval = ((min count (Q - off % (Q * S) % Q) : Nat) : Int) ∧
            r.f_pos = ((off + min count (Q - off % (Q * S) % Q) : Nat) : Int) ∧
            r.dev.size = max dev.size (off + min count (Q - off % (Q * S) % Q)))))) := by
  have hqlt : off % (Q * S) % Q < Q := Nat.mod_lt _ hQ
  have hQle : (Q : Int) ≤ INT_MAX := by
    have : Q ≤ Q * S := Nat.le_mul_of_pos_right Q hS
    have h2 : (Q : Int) ≤ ((Q * S : Nat) : Int) := Int.ofNat_le.mpr this
    exact le_trans h2 hQS
  have hSle : (S : Int) ≤ INT_MAX := by
    have : S ≤ Q * S := Nat.le_mul_of_pos_left S hQ
    have h2 : (S : Int) ≤ ((Q * S : Nat) : Int) := Int.ofNat_le.mpr this
    exact le_trans h2 hQS
  have hQmod : Q < ULONG_MOD := by
    unfold INT_MAX at hQle
    unfold ULONG_MOD
    omega
  have hoffn : (off : Int) + (min count (Q - off % (Q * S) % Q) : Nat) ≤ LONG_MAX := by
    have : min count (Q - off % (Q * S) % Q) ≤ count := Nat.min_le_left _ _
    omega
  have hqsz : to_ulong (Q : Int) = Q := to_ulong_natCast hQmod
  have hclamp := room_clamp_sane Q (off % (Q * S) % Q) count hQle hqlt
  have hfr : follow_rounds ((off / (Q * S) : Nat) : Int) = off / (Q * S) :=
    follow_rounds_natCast hitem
  have hix := indices_natCast Q S off hQ hS hQS hitem
  obtain ⟨hsz1, hsz2, hsz3⟩ := size_after dev.size off _ hoffn
  clear hoff hoffn hitem hQS hQmod
  rcases my_scull_write_effect dev m buf count (off : Int) r h hsem with
    ⟨h1, h2, h3, h4⟩ | ⟨ix, old, src, gix, _, _, g1, g2, g3, g4, g5, g6, g7, g8, g9, g10, g11, g12⟩
  · exact ⟨h4.1, h4.2.1, h4.2.2.2.1, h3, extends_dev_shaped S hs hSle hsh h4, h4.2.2.2.2.1,
      Or.inl ⟨h1, h2, h4.2.2.1, h4.2.2.2.2.2.1⟩⟩
  · rw [hq, hs, hix] at gix
    simp only [Option.some.injEq] at gix
    subst gix
    simp only [Int.toNat_natCast] at g8 g9 g10 g11 g12
    rw [hfr] at g8 g11
    rw [hq, hclamp] at g9 g10 g12
    rw [hq, hqsz] at g8
    clear hix hfr hclamp hqsz
    generalize off / (Q * S) = p at *
    generalize off % (Q * S) / Q = s at *
    generalize off % (Q * S) % Q = q at *
    generalize min count (Q - q) = n at *
    have hold : old.length = Q := by
      rcases g8 with e | ⟨_, e⟩
      · have := ((shaped_iff dev).mp hsh).2 p s old e
        rw [hq] at this
        exact Int.ofNat_inj.mp this
      · exact e
    have hshr : shaped r.dev := by
      rw [shaped_iff]
      constructor
      · intro i len hl
        rw [g3]
        rcases g7 i len hl with e | e
        · exact ((shaped_iff dev).mp hsh).1 i len e
        · rw [hs, (pointers_size S hSle).2.1] at e
          rw [e, hs]
      · intro i j blk hb
        rw [g11] at hb
        rw [g2]
        split at hb
        · simp only [Option.some.injEq] at hb
          rw [← hb, overwrite_length _ _ _ (by rw [g10]; exact g9), hold, hq]
        · exact ((shaped_iff dev).mp hsh).2 i j blk hb
    refine ⟨g2, g3, g4, g5, hshr, g6, Or.inr ⟨old, src, g1, hold, ?_, g10, g11, ?_⟩⟩
    · rcases g8 with e | ⟨e, _⟩
      · exact Or.inl e
      · exact Or.inr e
    · rcases g12 with ⟨f1, f2, f3, f4⟩ | ⟨f1, f2, f3, f4, f5⟩
      · exact Or.inl ⟨f1, f2, f3, f4⟩
      · right
        rw [hsz1] at f3
        rw [f4, hsz3] at f5
        rw [hsz2] at f4
        exact ⟨f1, f2, f3, f4, f5⟩

/-! ## A write that runs out of memory -/

theorem read_view_congr (d d1 : my_scull_dev) (ucap count off : Nat)
    (h1 : d1.quantum = d.quantum) (h2 : d1.qset = d.qset) (h3 : d1.size = d.size)
    (h4 : ∀ i j, block_at d1.data i j = block_at d.data i j) :
    read_view d1 ucap count off = read_view d ucap count off := by
  simp only [read_view, h1, h2, h3, h4]

/-- A store of qset `-1` whose nodes have no array: every write runs out of
memory, whatever the allocator does, because the array of pointers it asks
for has `(size_t)-1 * sizeof(char *)` bytes. -/
theorem negative_qset_write (chain : List my_scull_qset)
    (hc : chain = [] ∨ chain = [{ data := none }]) (m : Kmem) (buf : List Byte) (count : Nat) :
    ∃ r, my_scull_write { data := chain, quantum := 4, qset := -1, size := 0, sem := 1 } m buf
        count 0 = some r ∧
      r.retval = -ENOMEM ∧ r.dev.quantum = 4 ∧ r.dev.qset = -1 ∧ r.dev.size = 0 ∧
      r.dev.sem = 1 ∧ (r.dev.data = [] ∨ r.dev.data = [{ data := none }]) := by
  have hix : indices 4 (int_mul 4 (-1)) 0 =
      some { item := 0, rest := 0, s_pos := 0, q_pos := 0 } := rfl
  have hbig : ¬ ((to_ulong (-1) * SIZEOF_PTR) % ULONG_MOD < 9223372036854775808) := by decide
  have hfr : follow_rounds 0 = 0 := by decide
  rcases hc with e | e
  · subst e
    cases ho : m.outcome m.calls with
    | none =>
      refine ⟨io_out (-ENOMEM) 0 { data := [], quantum := 4, qset := -1, size := 0, sem := 0 }
        { m with calls := m.calls + 1 }, ?_, rfl, rfl, rfl, rfl, rfl, Or.inl rfl⟩
      simp [my_scull_write, down_interruptible, write_locked, hix, my_scull_follow, kmalloc, ho,
        SIZEOF_QSET]
    | some junk =>
      refine ⟨io_out (-ENOMEM) 0
        { data := [{ data := none }], quantum := 4, qset := -1, size := 0, sem := 0 }
        { calls := m.calls + 1 + 1, outcome := m.outcome }, ?_, rfl, rfl, rfl, rfl, rfl,
        Or.inr rfl⟩
      simp [my_scull_write, down_interruptible, write_locked, hix, my_scull_follow, kmalloc, ho,
        SIZEOF_QSET, hfr, follow_loop, alloc_pointers, hbig]
  · subst e
    refine ⟨io_out (-ENOMEM) 0
      { data := [{ data := none }], quantum := 4, qset := -1, size := 0, sem := 0 }
      { m with calls := m.calls + 1 }, ?_, rfl, rfl, rfl, rfl, rfl, Or.inr rfl⟩
    simp [my_scull_write, down_interruptible, write_locked, hix, my_scull_follow, kmalloc,
      hfr, follow_loop, alloc_pointers, hbig]

/-- C22, as stated, fails for "every store state": on the empty store with
quantum 4 and qset -1 (the value `my_scull_ioctl` stores without a check and
`my_scull_trim` copies) a write of one byte at offset 0 runs out of memory
although the allocator grants every request it can, and so does the same
write tried again (`negative_qset_write`: with any allocator). -/
theorem enomem_retry_never_succeeds :
    ∃ r, my_scull_write (empty_dev 4 (-1)) okmem [1] 1 0 = some r ∧ r.retval = -ENOMEM ∧
      ∃ r2, my_scull_write r.dev r.mem [1] 1 0 = some r2 ∧ r2.retval = -ENOMEM := by
  obtain ⟨r, h1, h2, h3, h4, h5, h6, h7⟩ := negative_qset_write [] (Or.inl rfl) okmem [1] 1
  refine ⟨r, h1, h2, ?_⟩
  obtain ⟨r2, g1, g2, _⟩ := negative_qset_write r.dev.data h7 r.mem [1] 1
  refine ⟨r2, ?_, g2⟩
  rw [← g1]
  congr 1
  cases hd : r.dev with
  | mk data quantum qset size sem =>
    rw [hd] at h3 h4 h5 h6
    simp only at h3 h4 h5 h6
    subst h3 h4 h5 h6
    rfl

/-- C22 (amended). On a shaped store with quantum `Q > 0`, qset `S > 0` and
`Q * S` within `int`, the semaphore free: when an allocation is refused
during `my_scull_write`, the call returns `-ENOMEM`; position, size and
semaphore are as they were; every quantum is where it was with the bytes it
had, and the chain is no shorter; every read hands out what it handed out
before the failed write; and with an allocator that grants its requests a
later write of the same data at the same offset succeeds. -/
theorem failed_write_frame (dev : my_scull_dev) (m : Kmem) (Q S : Nat) (buf : List Byte)
    (count off : Nat) (r : IoResult) (hq : dev.quantum = (Q : Int)) (hs : dev.qset = (S : Int))
    (hQ : 0 < Q) (hS : 0 < S) (hQS : ((Q * S : Nat) : Int) ≤ INT_MAX) (hsh : shaped dev)
    (hsem : 0 < dev.sem) (hitem : ((off / (Q * S) : Nat) : Int) ≤ INT_MAX)
    (hoff : (off : Int) + count ≤ LONG_MAX)
    (h : my_scull_write dev m buf count (off : Int) = some r)
    (hfail : ∃ k, m.calls ≤ k ∧ k < r.mem.calls ∧ m.outcome k = none) :
    r.retval = -ENOMEM ∧ r.f_pos = (off : Int) ∧ r.out = [] ∧ r.dev.size = dev.size ∧
    r.dev.sem = dev.sem ∧ dev.data.length ≤ r.dev.data.length ∧
    (∀ i j, block_at r.dev.data i j = block_at dev.data i j) ∧
    (∀ (ma mb : Kmem) (ucap cnt pos : Nat), ((pos / (Q * S) : Nat) : Int) ≤ INT_MAX →
      (pos : Int) + cnt ≤ LONG_MAX →
      ∃ ra rb, my_scull_read dev ma ucap cnt (pos : Int) = some ra ∧
        my_scull_read r.dev mb ucap cnt (pos : Int) = some rb ∧
        rb.retval = ra.retval ∧ rb.f_pos = ra.f_pos ∧ rb.out = ra.out) ∧
    (∀ m2, generous m2 → count ≤ buf.length →
      ∃ r2, my_scull_write r.dev m2 buf count (off : Int) = some r2 ∧
        r2.retval = ((min count (Q - off % (Q * S) % Q) : Nat) : Int)) := by
  obtain ⟨e1, e2, e3, e4, hshr, e5, hcase⟩ :=
    my_scull_write_sane dev m Q S buf count off r hq hs hQ hS hQS hsh hsem hitem hoff h
  rcases hcase with ⟨f1, f2, f3, f4⟩ | ⟨old, src, g, _⟩
  · refine ⟨f1, f2, e4, f3, e3, e5, f4, ?_, ?_⟩
    · intro ma mb ucap cnt pos hpi hpo
      obtain ⟨ra, ha1, _, ha3, _⟩ :=
        my_scull_read_sane dev ma Q S ucap cnt pos hq hs hQ hS hQS hsh hsem hpi hpo
      obtain ⟨rb, hb1, _, hb3, _⟩ :=
        my_scull_read_sane r.dev mb Q S ucap cnt pos (by rw [e1, hq]) (by rw [e2, hs]) hQ hS hQS
          hshr (by rw [e3]; exact hsem) hpi hpo
      rw [read_view_congr dev r.dev ucap cnt pos e1 e2 f3 f4, ← ha3] at hb3
      simp only [Prod.mk.injEq] at hb3
      exact ⟨ra, rb, ha1, hb1, hb3.1, hb3.2.1, hb3.2.2⟩
    · intro m2 hm2 hbuf
      obtain ⟨r2, hr2, hret⟩ :=
        my_scull_write_returns r.dev m2 Q S buf count off (by rw [e1, hq]) (by rw [e2, hs]) hQ hS
          hQS hshr (by rw [e3]; exact hsem) hm2 hitem
      refine ⟨r2, hr2, ?_⟩
      obtain ⟨_, _, _, _, _, _, hc2⟩ :=
        my_scull_write_sane r.dev m2 Q S buf count off r2 (by rw [e1, hq]) (by rw [e2, hs]) hQ hS
          hQS hshr (by rw [e3]; exact hsem) hitem hoff hr2
      have hmin : min count (Q - off % (Q * S) % Q) ≤ buf.length :=
        Nat.le_trans (Nat.min_le_left _ _) hbuf
      rcases hc2 with ⟨k1, _⟩ | ⟨_, _, _, _, _, _, _, hc3⟩
      · exfalso
        rw [k1] at hret
        rcases hret with ⟨k2, _⟩ | k2
        · revert k2
          decide
        · revert k2
          decide
      · rcases hc3 with ⟨k1, _⟩ | ⟨_, _, k3, _⟩
        · omega
        · exact k3
  · exfalso
    obtain ⟨k, hk1, hk2, hk3⟩ := hfail
    have := g.2.2 k hk1 hk2
    rw [hk3] at this
    cases this

/-- Witness of C22 (amended): on the empty store with quantum 4 and qset 2 the
allocator refuses the first request of a write of two bytes at offset 0. -/
theorem failed_write_frame_witness :
    ∃ r, my_scull_write (empty_dev 4 2) nomem [1, 2] 2 ((0 : Nat) : Int) = some r ∧
      (∃ k, nomem.calls ≤ k ∧ k < r.mem.calls ∧ nomem.outcome k = none) ∧
      r.retval = -ENOMEM ∧ r.f_pos = ((0 : Nat) : Int) :=
  ⟨_, rfl, ⟨0, by decide, by decide, rfl⟩,
    (failed_write_frame (empty_dev 4 2) nomem 4 2 [1, 2] 2 0 _ rfl rfl (by decide) (by decide)
      (by decide) (by intro i node arr h; simp [empty_dev] at h) (by decide) (by decide)
      (by decide) rfl ⟨0, by decide, by decide, rfl⟩).1,
    (failed_write_frame (empty_dev 4 2) nomem 4 2 [1, 2] 2 0 _ rfl rfl (by decide) (by decide)
      (by decide) (by intro i node arr h; simp [empty_dev] at h) (by decide) (by decide)
      (by decide) rfl ⟨0, by decide, by decide, rfl⟩).2.1⟩

/-! ## The contract of one read -/

/-- C3, as stated, fails when `Q * S` does not fit an `int`: with quantum
and qset 65537 the product wraps to 131073, so a write of two bytes at offset
131073 finds byte index 0 and accepts both bytes, while
`min(len, Q - (offset mod (Q*S)) mod Q)` is 1. -/
theorem write_count_overflow :
    ∃ r, my_scull_write (empty_dev 65537 65537) okmem [1, 2] 2 131073 = some r ∧
      r.retval = 2 ∧ min 2 (65537 - 131073 % (65537 * 65537) % 65537) = 1 := by
  have hix : indices 65537 (int_mul 65537 65537) 131073 =
      some { item := 1, rest := 0, s_pos := ((0 : Nat) : Int), q_pos := ((0 : Nat) : Int) } := rfl
  obtain ⟨r, hr, hret⟩ :=
    write_locked_returns_ix { data := [], quantum := 65537, qset := 65537, size := 0, sem := 0 }
      okmem (int_mul 65537 65537) 65537 65537 [1, 2] 2 131073 1 0 0 0 rfl rfl (by decide)
      (by decide) (shaped_of_ok _ (by decide)) (fun _ => rfl) hix (by decide) (by decide)
  have hw : my_scull_write (empty_dev 65537 65537) okmem [1, 2] 2 131073 = some r := by
    rw [my_scull_write_unlocked _ _ _ _ _ (by decide)]
    exact hr
  refine ⟨r, hw, ?_, by decide⟩
  rcases my_scull_write_effect _ _ _ _ _ r hw (by decide) with
    ⟨h1, _⟩ | ⟨ix, old, src, gix, _, _, _, _, _, _, _, _, _, _, _, _, _, g12⟩
  · exfalso
    rw [h1] at hret
    rcases hret with ⟨k, _⟩ | k
    · revert k
      decide
    · revert k
      decide
  · have e : ix = { item := 1, rest := 0, s_pos := ((0 : Nat) : Int), q_pos := ((0 : Nat) : Int) } := by
      have := gix.symm.trans hix
      simpa using this
    subst e
    have hc : room_clamp (empty_dev 65537 65537).quantum ((0 : Nat) : Int) 2 = 2 := by decide
    rw [hc] at g12
    rcases g12 with ⟨k, _⟩ | ⟨_, _, k, _⟩
    · exact absurd k (by decide)
    · rw [k]
      decide

/-- C3 (amended). On a shaped store with quantum `Q > 0`, qset `S > 0`,
`Q * S` and the set number of the offset within `int`, the semaphore free: a
successful `my_scull_write` of `count` bytes at offset `off` returns
`n = min(count, Q - byte_index)` with `byte_index = (off mod (Q*S)) mod Q`,
advances the position by `n`, and leaves the quantum addressed holding the
first `n` bytes of the data from `byte_index` on; the bytes of that quantum
outside the range, and every other quantum, are as they were. -/
theorem write_contract (dev : my_scull_dev) (m : Kmem) (Q S : Nat) (buf : List Byte)
    (count off : Nat) (r : IoResult) (hq : dev.quantum = (Q : Int)) (hs : dev.qset = (S : Int))
    (hQ : 0 < Q) (hS : 0 < S) (hQS : ((Q * S : Nat) : Int) ≤ INT_MAX) (hsh : shaped dev)
    (hsem : 0 < dev.sem) (hitem : ((off / (Q * S) : Nat) : Int) ≤ INT_MAX)
    (hoff : (off : Int) + count ≤ LONG_MAX)
    (h : my_scull_write dev m buf count (off : Int) = some r) (hok : 0 ≤ r.retval) :
    r.retval = ((min count (Q - off % (Q * S) % Q) : Nat) : Int) ∧
    r.f_pos = (off : Int) + r.retval ∧
    ∃ new, block_at r.dev.data (off / (Q * S)) (off % (Q * S) / Q) = some new ∧
      new.length = Q ∧
      (∀ k, k < min count (Q - off % (Q * S) % Q) → new[off % (Q * S) % Q + k]? = buf[k]?) ∧
      (∀ old, block_at dev.data (off / (Q * S)) (off % (Q * S) / Q) = some old →
        ∀ j, ¬ (off % (Q * S) % Q ≤ j ∧ j < off % (Q * S) % Q + min count (Q - off % (Q * S) % Q)) →
          new[j]? = old[j]?) ∧
      (∀ i j, ¬ (i = off / (Q * S) ∧ j = off % (Q * S) / Q) →
        block_at r.dev.data i j = block_at dev.data i j) := by
  have hqlt : off % (Q * S) % Q < Q := Nat.mod_lt _ hQ
  obtain ⟨_, _, _, _, _, _, hcase⟩ :=
    my_scull_write_sane dev m Q S buf count off r hq hs hQ hS hQS hsh hsem hitem hoff h
  clear hoff hitem hQS h
  generalize off / (Q * S) = p at *
  generalize off % (Q * S) / Q = s at *
  generalize off % (Q * S) % Q = q at *
  have hn2 : min count (Q - q) ≤ Q - q := Nat.min_le_right _ _
  generalize min count (Q - q) = n at *
  rcases hcase with ⟨k, _⟩ | ⟨old, src, _, hold, hwas, hsrc, hblocks, hres⟩
  · exfalso
    rw [k] at hok
    revert hok
    decide
  · rcases hres with ⟨_, k, _⟩ | ⟨hbuf, hsrc2, hret, hfp, _⟩
    · exfalso
      rw [k] at hok
      revert hok
      decide
    · have hfit : q + src.length ≤ old.length := by omega
      refine ⟨hret, ?_, overwrite old q src, ?_, ?_, ?_, ?_, ?_⟩
      · rw [hfp, hret]
        push_cast
        rfl
      · rw [hblocks, if_pos ⟨rfl, rfl⟩]
      · rw [overwrite_length _ _ _ hfit, hold]
      · intro k hk
        rw [overwrite_getElem? _ _ _ hfit, if_pos ⟨by omega, by omega⟩, hsrc2,
          List.getElem?_take_of_lt (by omega)]
        congr 1
        omega
      · intro old1 ho j hj
        rcases hwas with e | e
        · rw [e] at ho
          simp only [Option.some.injEq] at ho
          subst ho
          rw [overwrite_getElem? _ _ _ hfit, if_neg (by rw [hsrc]; exact hj)]
        · rw [e] at ho
          cases ho
      · intro i j hij
        rw [hblocks, if_neg hij]

/-- Witness of C3 (amended): on the empty store with quantum 4 and qset 2, six
bytes are offered at offset 10 (byte index 2); two are accepted. -/
theorem write_contract_witness :
    ∃ r, my_scull_write (empty_dev 4 2) okmem [1, 2, 3, 4, 5, 6] 6 ((10 : Nat) : Int) = some r ∧
      r.retval = ((min 6 (4 - 10 % (4 * 2) % 4) : Nat) : Int) ∧
      r.f_pos = ((10 : Nat) : Int) + r.retval := by
  refine ⟨_, rfl, ?_⟩
  have h := write_contract (empty_dev 4 2) okmem 4 2 [1, 2, 3, 4, 5, 6] 6 10 _ rfl rfl
    (by decide) (by decide) (by decide) (shaped_of_ok _ (by decide)) (by decide) (by decide)
    (by decide) rfl (by decide)
  exact ⟨h.1, h.2.1⟩

/-! ## The semaphore -/

theorem up_down (sem : Nat) (h : 0 < sem) : up (sem - 1) = sem := by
  unfold up
  omega

theorem to_long_nonneg_of_le (n count : Nat) (hn : n ≤ count) (hc : (count : Int) ≤ LONG_MAX) :
    to_long (n : Int) ≠ -ERESTARTSYS := by
  have h2 : (n : Int) ≤ LONG_MAX := by omega
  rw [to_long_natCast h2]
  unfold ERESTARTSYS
  omega

/-- `my_scull_p_read` leaves the semaphore as it found it, and hands out
nothing and changes nothing when it comes back interrupted. -/
theorem p_read_lock (dev : my_scull_pipe) (nonblock : Bool) (ucap count : Nat) (r : PipeResult)
    (hc : (count : Int) ≤ LONG_MAX) (h : my_scull_p_read dev nonblock ucap count = some r) :
    r.dev.sem = dev.sem ∧ (r.retval = -ERESTARTSYS → r.out = [] ∧ r.dev = dev) := by
  unfold my_scull_p_read at h
  by_cases hs : 0 < dev.sem
  · have hup := up_down dev.sem hs
    simp only [down_interruptible, hs, if_true, ne_eq, not_true_eq_false, if_false, hup] at h
    by_cases he : dev.rp = dev.wp
    · rw [if_pos he] at h
      cases nonblock
      · simp only [Bool.false_eq_true, if_false, Option.some.injEq] at h
        subst h
        exact ⟨rfl, fun _ => ⟨rfl, rfl⟩⟩
      · simp only [if_true, Option.some.injEq] at h
        subst h
        exact ⟨rfl, fun _ => ⟨rfl, rfl⟩⟩
    · rw [if_neg he] at h
      have hle : (if dev.wp > dev.rp then min count (to_ulong (dev.wp - dev.rp))
          else min count (to_ulong (dev.end_ - dev.rp))) ≤ count := by
        split <;> exact Nat.min_le_left _ _
      generalize (if dev.wp > dev.rp then min count (to_ulong (dev.wp - dev.rp))
          else min count (to_ulong (dev.end_ - dev.rp))) = n at h hle
      cases hb : dev.buffer with
      | none => rw [hb] at h; cases h
      | some b =>
        rw [hb] at h
        simp only at h
        by_cases h1 : dev.rp < 0 ∨ b.length < dev.rp.toNat + n
        · rw [if_pos h1] at h
          cases h
        · rw [if_neg h1] at h
          by_cases h2 : ucap < n
          · rw [if_pos h2] at h
            simp only [Option.some.injEq] at h
            subst h
            refine ⟨rfl, fun hr => ?_⟩
            simp only [EFAULT, ERESTARTSYS] at hr
            omega
          · rw [if_neg h2] at h
            simp only [Option.some.injEq] at h
            subst h
            refine ⟨rfl, fun hr => ?_⟩
            exact absurd hr (to_long_nonneg_of_le n count hle hc)
  · simp only [down_interruptible, hs, if_false, ne_eq] at h
    have hne : ¬ (-EINTR = 0) := by decide
    simp only [hne, not_false_eq_true, if_true, Option.some.injEq] at h
    subst h
    exact ⟨rfl, fun _ => ⟨rfl, rfl⟩⟩

/-- `my_scull_p_get_write_space` with the semaphore held (it was `sem` before
it was taken): a nonzero result comes with the device as it was before and
the semaphore released. -/
theorem get_write_space_lock (dev : my_scull_pipe) (hs : 0 < dev.sem) (nonblock : Bool)
    (res : Int) (d1 : my_scull_pipe)
    (h : my_scull_p_get_write_space { dev with sem := dev.sem - 1 } nonblock = some (res, d1)) :
    (res = 0 ∧ d1 = { dev with sem := dev.sem - 1 }) ∨
    ((res = -EAGAIN ∨ res = -ERESTARTSYS) ∧ d1 = dev) := by
  have hup := up_down dev.sem hs
  unfold my_scull_p_get_write_space at h
  split at h
  · cases h
  · split at h
    · simp only [hup] at h
      cases nonblock
      · simp only [Bool.false_eq_true, if_false, Option.some.injEq, Prod.mk.injEq] at h
        exact Or.inr ⟨Or.inr h.1.symm, h.2.symm⟩
      · simp only [if_true, Option.some.injEq, Prod.mk.injEq] at h
        exact Or.inr ⟨Or.inl h.1.symm, h.2.symm⟩
    · simp only [Option.some.injEq, Prod.mk.injEq] at h
      exact Or.inl ⟨h.1.symm, h.2.symm⟩

/-- `my_scull_p_write` leaves the semaphore as it found it, and changes
nothing when it comes back interrupted. -/
theorem p_write_lock (dev : my_scull_pipe) (nonblock : Bool) (buf : List Byte) (count : Nat)
    (r : PipeResult) (hc : (count : Int) ≤ LONG_MAX)
    (h : my_scull_p_write dev nonblock buf count = some r) :
    r.dev.sem = dev.sem ∧ (r.retval = -ERESTARTSYS → r.out = [] ∧ r.dev = dev) := by
  unfold my_scull_p_write at h
  by_cases hs : 0 < dev.sem
  · have hup := up_down dev.sem hs
    simp only [down_interruptible, hs, if_true, ne_eq, not_true_eq_false, if_false] at h
    cases hg : my_scull_p_get_write_space { dev with sem := dev.sem - 1 } nonblock with
    | none => rw [hg] at h; cases h
    | some pr =>
      obtain ⟨res, d1⟩ := pr
      rw [hg] at h
      simp only at h
      rcases get_write_space_lock dev hs nonblock res d1 hg with ⟨h0, hd⟩ | ⟨hres, hd⟩
      · subst h0 hd
        simp only [not_true_eq_false, if_false, hup] at h
        split at h
        · cases h
        · rename_i free _
          have hle : (if dev.wp ≥ dev.rp then
                min (min count (to_ulong free)) (to_ulong (dev.end_ - dev.wp))
              else min (min count (to_ulong free)) (to_ulong (dev.rp - dev.wp - 1))) ≤ count := by
            split <;> exact Nat.le_trans (Nat.min_le_left _ _) (Nat.min_le_left _ _)
          generalize (if dev.wp ≥ dev.rp then
                min (min count (to_ulong free)) (to_ulong (dev.end_ - dev.wp))
              else min (min count (to_ulong free)) (to_ulong (dev.rp - dev.wp - 1))) = n
            at h hle
          cases hb : dev.buffer with
          | none => rw [hb] at h; cases h
          | some b =>
            rw [hb] at h
            simp only at h
            by_cases h1 : dev.wp < 0 ∨ b.length < dev.wp.toNat + n
            · rw [if_pos h1] at h
              cases h
            · rw [if_neg h1] at h
              by_cases h2 : buf.length < n
              · rw [if_pos h2] at h
                simp only [Option.some.injEq] at h
                subst h
                refine ⟨rfl, fun hr => ?_⟩
                simp only [EFAULT, ERESTARTSYS] at hr
                omega
              · rw [if_neg h2] at h
                simp only [Option.some.injEq] at h
                subst h
                refine ⟨rfl, fun hr => ?_⟩
                exact absurd hr (to_long_nonneg_of_le n count hle hc)
      · subst hd
        have hne : res ≠ 0 := by
          rcases hres with e | e <;> rw [e] <;> decide
        simp only [hne, not_false_eq_true, if_true, Option.some.injEq] at h
        subst h
        exact ⟨rfl, fun _ => ⟨rfl, rfl⟩⟩
  · simp only [down_interruptible, hs, if_false, ne_eq] at h
    have hne : ¬ (-EINTR = 0) := by decide
    simp only [hne, not_false_eq_true, if_true, Option.some.injEq] at h
    subst h
    exact ⟨rfl, fun _ => ⟨rfl, rfl⟩⟩

/-- `my_scull_p_open` leaves the semaphore as it found it, and changes
nothing when it comes back interrupted. -/
theorem p_open_lock (C : Int) (dev : my_scull_pipe) (m : Kmem) (fr fw : Bool) :
    (my_scull_p_open C dev m fr fw).2.1.sem = dev.sem ∧
    ((my_scull_p_open C dev m fr fw).1 = -ERESTARTSYS →
      (my_scull_p_open C dev m fr fw).2.1 = dev) := by
  unfold my_scull_p_open
  by_cases hs : 0 < dev.sem
  · have hup := up_down dev.sem hs
    simp only [down_interruptible, hs, if_true, ne_eq, not_true_eq_false, if_false, hup]
    split
    · exact ⟨rfl, fun hr => by simp [ENOMEM, ERESTARTSYS] at hr⟩
    · refine ⟨?_, fun hr => by simp [ERESTARTSYS] at hr⟩
      cases fr <;> cases fw <;> simp [hup]
  · simp only [down_interruptible, hs, if_false, ne_eq]
    have hne : ¬ (-EINTR = 0) := by decide
    simp only [hne, not_false_eq_true, if_true]
    exact ⟨trivial, fun _ => trivial⟩

/-- `my_scull_p_release` leaves the semaphore as it found it. -/
theorem p_release_lock (dev d1 : my_scull_pipe) (fr fw : Bool) (ret : Int)
    (h : my_scull_p_release dev fr fw = some (ret, d1)) : d1.sem = dev.sem := by
  unfold my_scull_p_release down at h
  by_cases hs : 0 < dev.sem
  · have hup := up_down dev.sem hs
    simp only [hs, if_true, Option.some.injEq, Prod.mk.injEq] at h
    obtain ⟨_, h2⟩ := h
    subst h2
    cases fr <;> cases fw <;> simp [hup] <;> split <;> simp [hup]
  · simp [hs] at h

/-- `my_scull_open` leaves the semaphore as it found it, and changes nothing
when it comes back interrupted. -/
theorem my_scull_open_lock (g : Globals) (dev : my_scull_dev) (wronly : Bool) :
    (my_scull_open g dev wronly).2.sem = dev.sem ∧
    ((my_scull_open g dev wronly).1 = -ERESTARTSYS → (my_scull_open g dev wronly).2 = dev) := by
  unfold my_scull_open
  cases wronly
  · simp only [Bool.false_eq_true, if_false]
    exact ⟨trivial, fun _ => trivial⟩
  · simp only [if_true]
    by_cases hs : 0 < dev.sem
    · have hup := up_down dev.sem hs
      simp only [down_interruptible, hs, if_true, ne_eq, not_true_eq_false, if_false,
        my_scull_trim, hup]
      simp [ERESTARTSYS]
    · simp only [down_interruptible, hs, if_false, ne_eq]
      have hne : ¬ (-EINTR = 0) := by decide
      simp only [hne, not_false_eq_true, if_true]
      exact ⟨trivial, fun _ => trivial⟩

theorem size_clamp_le (size off count : Nat) (h : (off : Int) + count ≤ LONG_MAX)
    (hlt : ¬ (to_ulong (off : Int) ≥ size)) : size_clamp size (off : Int) count ≤ count := by
  unfold LONG_MAX at h
  have e : to_ulong (off : Int) = off := to_ulong_natCast (by unfold ULONG_MOD; omega)
  rw [e] at hlt
  unfold size_clamp
  rw [e]
  unfold ULONG_MOD
  split <;> omega

/-- `my_scull_write` leaves the semaphore as it found it, and changes nothing
when it comes back interrupted. -/
theorem my_scull_write_lock (dev : my_scull_dev) (m : Kmem) (buf : List Byte) (count : Nat)
    (f_pos : Int) (r : IoResult) (hpos : 0 ≤ f_pos) (hrange : f_pos + count ≤ LONG_MAX)
    (h : my_scull_write dev m buf count f_pos = some r) :
    r.dev.sem = dev.sem ∧
    (r.retval = -ERESTARTSYS → r.out = [] ∧ r.dev = dev ∧ r.f_pos = f_pos) := by
  rcases my_scull_write_inv dev m buf count f_pos r h with ⟨_, hr⟩ | ⟨hs, hl⟩
  · subst hr
    exact ⟨rfl, fun _ => ⟨rfl, rfl, rfl⟩⟩
  · have hup := up_down dev.sem hs
    rcases write_locked_inv _ m _ buf count f_pos r hl with ⟨d1, m1, he, hr⟩ | hw
    · subst hr
      have e4 := he.2.2.2.1
      simp only at e4
      refine ⟨by simp only [io_out]; rw [e4, hup], fun hr => ?_⟩
      simp only [io_out, ENOMEM, ERESTARTSYS] at hr
      omega
    · obtain ⟨d3, m3, p, arr, s, blk, q_pos, _, _, _, hsem, ht⟩ := hw
      simp only at hsem
      obtain ⟨_, _, hs3, _, hcase⟩ := write_tail_inv d3 m3 p arr s blk q_pos buf count f_pos r ht
      refine ⟨by rw [hs3, hsem, hup], fun hr => ?_⟩
      rcases hcase with ⟨hf, _, _⟩ | ⟨n, hn, hret, _, _⟩
      · rw [hf] at hr
        simp only [EFAULT, ERESTARTSYS] at hr
        omega
      · rw [hret] at hr
        exact absurd hr (to_long_nonneg_of_le n count hn (by omega))

/-- `my_scull_read` leaves the semaphore as it found it, and hands out
nothing and changes nothing when it comes back interrupted. -/
theorem my_scull_read_lock (dev : my_scull_dev) (m : Kmem) (ucap count : Nat)
    (f_pos : Int) (r : IoResult) (hpos : 0 ≤ f_pos) (hrange : f_pos + count ≤ LONG_MAX)
    (h : my_scull_read dev m ucap count f_pos = some r) :
    r.dev.sem = dev.sem ∧
    (r.retval = -ERESTARTSYS → r.out = [] ∧ r.dev = dev ∧ r.f_pos = f_pos) := by
  refine ⟨(my_scull_read_frame dev m ucap count f_pos r h).2.2.2, fun hr => ?_⟩
  rcases my_scull_read_inv dev m ucap count f_pos r h with ⟨_, he⟩ | ⟨hs, hl⟩
  · subst he
    exact ⟨rfl, rfl, rfl⟩
  · exfalso
    obtain ⟨d1, m1, _, hcase⟩ := read_locked_inv _ m _ ucap count f_pos r hl
    rcases hcase with he | ⟨hsz, blk, q_pos, ht⟩
    · subst he
      simp only [io_out, ERESTARTSYS] at hr
      omega
    · obtain ⟨_, _, hc2⟩ := read_tail_inv d1 m1 blk q_pos ucap _ f_pos r ht
      rcases hc2 with ⟨hf, _⟩ | ⟨n, hn, hret, _, _⟩
      · rw [hf] at hr
        simp only [EFAULT, ERESTARTSYS] at hr
        omega
      · simp only at hsz hn
        lift f_pos to ℕ using hpos with off
        have hle := size_clamp_le dev.size off count hrange hsz
        rw [hret] at hr
        exact absurd hr (to_long_nonneg_of_le n count (Nat.le_trans hn hle) (by omega))

/-- C25. Lock balance. Every call of `my_scull_p_read`, `my_scull_p_write`,
`my_scull_p_open`, `my_scull_p_release`, `my_scull_read`, `my_scull_write`
and `my_scull_open` that returns, whatever its return value (bytes
transferred, `-EAGAIN`, `-ERESTARTSYS`, `-EFAULT`, `-ENOMEM`), leaves the
counter of the semaphore as it found it, so a semaphore that is free when the
call starts is free when it returns; and a call that returns `-ERESTARTSYS`
has handed out no byte and left the device, cursors and contents included,
unchanged. Counts and positions are those the VFS passes down. -/
theorem lock_balance :
    (∀ (dev : my_scull_pipe) (nonblock : Bool) (ucap count : Nat) (r : PipeResult),
      (count : Int) ≤ LONG_MAX → my_scull_p_read dev nonblock ucap count = some r →
      r.dev.sem = dev.sem ∧ (r.retval = -ERESTARTSYS → r.out = [] ∧ r.dev = dev)) ∧
    (∀ (dev : my_scull_pipe) (nonblock : Bool) (buf : List Byte) (count : Nat) (r : PipeResult),
      (count : Int) ≤ LONG_MAX → my_scull_p_write dev nonblock buf count = some r →
      r.dev.sem = dev.sem ∧ (r.retval = -ERESTARTSYS → r.out = [] ∧ r.dev = dev)) ∧
    (∀ (C : Int) (dev : my_scull_pipe) (m : Kmem) (fr fw : Bool),
      (my_scull_p_open C dev m fr fw).2.1.sem = dev.sem ∧
      ((my_scull_p_open C dev m fr fw).1 = -ERESTARTSYS →
        (my_scull_p_open C dev m fr fw).2.1 = dev)) ∧
    (∀ (dev d1 : my_scull_pipe) (fr fw : Bool) (ret : Int),
      my_scull_p_release dev fr fw = some (ret, d1) → d1.sem = dev.sem) ∧
    (∀ (dev : my_scull_dev) (m : Kmem) (ucap count : Nat) (f_pos : Int) (r : IoResult),
      0 ≤ f_pos → f_pos + count ≤ LONG_MAX → my_scull_read dev m ucap count f_pos = some r →
      r.dev.sem = dev.sem ∧
      (r.retval = -ERESTARTSYS → r.out = [] ∧ r.dev = dev ∧ r.f_pos = f_pos)) ∧
    (∀ (dev : my_scull_dev) (m : Kmem) (buf : List Byte) (count : Nat) (f_pos : Int)
      (r : IoResult),
      0 ≤ f_pos → f_pos + count ≤ LONG_MAX → my_scull_write dev m buf count f_pos = some r →
      r.dev.sem = dev.sem ∧
      (r.retval = -ERESTARTSYS → r.out = [] ∧ r.dev = dev ∧ r.f_pos = f_pos)) ∧
    (∀ (g : Globals) (dev : my_scull_dev) (wronly : Bool),
      (my_scull_open g dev wronly).2.sem = dev.sem ∧
      ((my_scull_open g dev wronly).1 = -ERESTARTSYS → (my_scull_open g dev wronly).2 = dev)) :=
  ⟨fun dev nb ucap count r hc h => p_read_lock dev nb ucap count r hc h,
   fun dev nb buf count r hc h => p_write_lock dev nb buf count r hc h,
   fun C dev m fr fw => p_open_lock C dev m fr fw,
   fun dev d1 fr fw ret h => p_release_lock dev d1 fr fw ret h,
   fun dev m ucap count f_pos r hpos hrange h =>
     my_scull_read_lock dev m ucap count f_pos r hpos hrange h,
   fun dev m buf count f_pos r hpos hrange h =>
     my_scull_write_lock dev m buf count f_pos r hpos hrange h,
   fun g dev wronly => my_scull_open_lock g dev wronly⟩

/-! ## The store between sound requests -/

theorem block_at_some_lt {chain : List my_scull_qset} {i s : Nat} {blk : List Byte}
    (h : block_at chain i s = some blk) : i < chain.length := by
  by_contra hc
  unfold block_at at h
  rw [List.getElem?_eq_none (by omega)] at h
  cases h

/-- A write that stays inside its quantum ends inside its quantum set. -/
theorem write_end_le (Q S off n : Nat) (hQ : 0 < Q) (hS : 0 < S)
    (hn : n ≤ Q - off % (Q * S) % Q) : off + n ≤ (off / (Q * S) + 1) * (Q * S) := by
  have h1 := Nat.div_add_mod off (Q * S)
  have h2 := Nat.div_add_mod (off % (Q * S)) Q
  have h3 : off % (Q * S) / Q < S := Nat.div_lt_of_lt_mul (Nat.mod_lt _ (Nat.mul_pos hQ hS))
  have h4 : Q * (off % (Q * S) / Q + 1) ≤ Q * S := Nat.mul_le_mul_left Q h3
  have h5 : off % (Q * S) % Q < Q := Nat.mod_lt _ hQ
  rw [Nat.mul_add, Nat.mul_one] at h4
  rw [Nat.add_mul, Nat.one_mul, Nat.mul_comm (off / (Q * S)) (Q * S)]
  generalize Q * S * (off / (Q * S)) = A at *
  generalize Q * (off % (Q * S) / Q) = B at *
  generalize off % (Q * S) % Q = q at *
  generalize off % (Q * S) = R at *
  generalize Q * S = P at *
  omega

/-- The sound requests in terms of natural numbers. -/
theorem sound_cast (Q S : Nat) (f_pos : Int) (count : Nat) (h0 : 0 ≤ f_pos)
    (h1 : f_pos + count ≤ LONG_MAX) (h2 : f_pos / ((Q : Int) * (S : Int)) ≤ INT_MAX) :
    ∃ off : Nat, f_pos = (off : Int) ∧ (off : Int) + count ≤ LONG_MAX ∧
      ((off / (Q * S) : Nat) : Int) ≤ INT_MAX := by
  lift f_pos to ℕ using h0 with off
  refine ⟨off, rfl, h1, ?_⟩
  rw [Int.natCast_div, Nat.cast_mul]
  exact h2

/-- One sound request keeps the invariant of the store. -/
theorem store_step_inv (st st1 : StoreState) (op : StoreOp) (hinv : store_inv st.dev)
    (hs : op.sound st.dev) (h : store_step st op = some st1) : store_inv st1.dev := by
  obtain ⟨Q, S, hq, hqs, hQ, hS, hQS, hsh, hsem, hsize⟩ := hinv
  cases op with
  | write buf count f_pos =>
    simp only [store_step, Option.map_eq_some'] at h
    obtain ⟨r, hr, hst⟩ := h
    subst hst
    simp only
    obtain ⟨h0, h1, h2⟩ := hs
    rw [hq, hqs] at h2
    obtain ⟨off, e, hoff, hitem⟩ := sound_cast Q S f_pos count h0 h1 h2
    subst e
    obtain ⟨e1, e2, e3, _, hshr, hlen, hcase⟩ :=
      my_scull_write_sane st.dev st.mem Q S buf count off r hq hqs hQ hS hQS hsh hsem hitem hoff hr
    have hmono : st.dev.data.length * (Q * S) ≤ r.dev.data.length * (Q * S) :=
      Nat.mul_le_mul_right _ hlen
    refine ⟨Q, S, by rw [e1, hq], by rw [e2, hqs], hQ, hS, hQS, hshr, by rw [e3]; exact hsem, ?_⟩
    rcases hcase with ⟨_, _, f3, _⟩ | ⟨old, src, _, _, _, _, hblocks, hres⟩
    · rw [f3]
      exact Nat.le_trans hsize hmono
    · rcases hres with ⟨_, _, _, f4⟩ | ⟨_, _, _, _, f5⟩
      · rw [f4]
        exact Nat.le_trans hsize hmono
      · rw [f5]
        have hb := hblocks (off / (Q * S)) (off % (Q * S) / Q)
        rw [if_pos ⟨rfl, rfl⟩] at hb
        have hp := block_at_some_lt hb
        have hend := write_end_le Q S off (min count (Q - off % (Q * S) % Q)) hQ hS
          (Nat.min_le_right _ _)
        have hmul : (off / (Q * S) + 1) * (Q * S) ≤ r.dev.data.length * (Q * S) :=
          Nat.mul_le_mul_right _ hp
        exact Nat.max_le.mpr ⟨Nat.le_trans hsize hmono, Nat.le_trans hend hmul⟩
  | read ucap count f_pos =>
    simp only [store_step, Option.map_eq_some'] at h
    obtain ⟨r, hr, hst⟩ := h
    subst hst
    simp only
    obtain ⟨h0, h1, h2⟩ := hs
    rw [hq, hqs] at h2
    obtain ⟨off, e, hoff, hitem⟩ := sound_cast Q S f_pos count h0 h1 h2
    subst e
    obtain ⟨r1, hr1, hext, _, _⟩ :=
      my_scull_read_sane st.dev st.mem Q S ucap count off hq hqs hQ hS hQS hsh hsem hitem hoff
    rw [hr] at hr1
    simp only [Option.some.injEq] at hr1
    subst hr1
    have hSle : (S : Int) ≤ INT_MAX := by
      have : S ≤ Q * S := Nat.le_mul_of_pos_left S hQ
      have h3 : (S : Int) ≤ ((Q * S : Nat) : Int) := Int.ofNat_le.mpr this
      exact le_trans h3 hQS
    have hshr := extends_dev_shaped S hqs hSle hsh hext
    obtain ⟨e1, e2, e3, e4, e5, _, _⟩ := hext
    refine ⟨Q, S, by rw [e1, hq], by rw [e2, hqs], hQ, hS, hQS, hshr, by rw [e4]; exact hsem, ?_⟩
    rw [e3]
    exact Nat.le_trans hsize (Nat.mul_le_mul_right _ e5)
  | trim quantum qset =>
    simp only [store_step, Option.some.injEq] at h
    subst h
    obtain ⟨h0, h1, h2⟩ := hs
    lift quantum to ℕ using (le_of_lt h0) with Q1
    lift qset to ℕ using (le_of_lt h1) with S1
    refine ⟨Q1, S1, rfl, rfl, by omega, by omega, ?_, ?_, hsem, ?_⟩
    · rw [Nat.cast_mul]
      exact h2
    · intro i node arr hn
      simp [my_scull_trim] at hn
    · simp [my_scull_trim]

/-- Sound requests keep the invariant of the store. -/
theorem store_run_inv (ops : List StoreOp) : ∀ (st st1 : StoreState), store_inv st.dev →
    store_run_sound st ops → store_run st ops = some st1 → store_inv st1.dev := by
  induction ops with
  | nil =>
    intro st st1 hinv _ h
    simp only [store_run, Option.some.injEq] at h
    subst h
    exact hinv
  | cons op ops ih =>
    intro st st1 hinv hs h
    simp only [store_run, Option.bind_eq_some] at h
    obtain ⟨st2, h2, h3⟩ := h
    exact ih st2 st1 (store_step_inv st st2 op hinv hs.1 h2) (hs.2 st2 h2) h3

theorem empty_dev_inv (Q S : Int) (hQ : 0 < Q) (hS : 0 < S) (hQS : Q * S ≤ INT_MAX) :
    store_inv (empty_dev Q S) := by
  lift Q to ℕ using (le_of_lt hQ) with Q1
  lift S to ℕ using (le_of_lt hS) with S1
  refine ⟨Q1, S1, rfl, rfl, by omega, by omega, ?_, ?_, Nat.one_pos, ?_⟩
  · rw [Nat.cast_mul]
    exact hQS
  · intro i node arr hn
    simp [empty_dev] at hn
  · simp [empty_dev]

/-- C7, as stated, fails: the number of the quantum set is kept in an `int`.
On the empty store with quantum 1 and qset 1 a byte written at offset `2^32`
lands in set 0 and raises the size to `2^32 + 1`; the read at offset 3 then
walks to set 3 and `my_scull_follow` allocates three nodes. -/
theorem read_grows_chain :
    ∃ w r, my_scull_write (empty_dev 1 1) okmem [7] 1 4294967296 = some w ∧ w.retval = 1 ∧
      my_scull_read w.dev w.mem 1 1 3 = some r ∧ w.dev.data.length = 1 ∧
      r.dev.data.length = 4 ∧ r.mem.calls = w.mem.calls + 3 :=
  ⟨_, _, rfl, by decide, rfl, by decide, by decide, by decide⟩

/-- C7 (amended). In every store state reached from the empty store (quantum
and qset positive, their product within `int`) by sound writes, reads and
trims, a sound read, whatever it returns, leaves the store as it was (chain,
size, quantum, qset) and makes no allocation. -/
theorem read_never_grows (Q S : Int) (m0 : Kmem) (ops : List StoreOp) (st : StoreState)
    (hQ : 0 < Q) (hS : 0 < S) (hQS : Q * S ≤ INT_MAX)
    (hsound : store_run_sound { dev := empty_dev Q S, mem := m0, high := 0 } ops)
    (hrun : store_run { dev := empty_dev Q S, mem := m0, high := 0 } ops = some st)
    (ucap count : Nat) (f_pos : Int) (hread : (StoreOp.read ucap count f_pos).sound st.dev) :
    ∃ r, my_scull_read st.dev st.mem ucap count f_pos = some r ∧ r.dev = st.dev ∧
      r.mem = st.mem := by
  obtain ⟨Q1, S1, hq, hqs, hQ1, hS1, hQS1, hsh, hsem, hsize⟩ :=
    store_run_inv ops _ st (empty_dev_inv Q S hQ hS hQS) hsound hrun
  obtain ⟨h0, h1, h2⟩ := hread
  rw [hq, hqs] at h2
  obtain ⟨off, e, hoff, hitem⟩ := sound_cast Q1 S1 f_pos count h0 h1 h2
  subst e
  obtain ⟨r, hr, _, _, hcov⟩ :=
    my_scull_read_sane st.dev st.mem Q1 S1 ucap count off hq hqs hQ1 hS1 hQS1 hsh hsem hitem hoff
  refine ⟨r, hr, hcov ?_⟩
  by_cases hlt : st.dev.size ≤ off
  · exact Or.inl hlt
  · right
    apply Nat.div_lt_of_lt_mul
    rw [Nat.mul_comm]
    omega

/-- Witness of C7 (amended): after two bytes written at offset 0 on the empty
store with quantum 4 and qset 2, the read of 4 bytes at offset 0. -/
theorem read_never_grows_witness :
    ∃ st, store_run { dev := empty_dev 4 2, mem := okmem, high := 0 }
        [StoreOp.write [1, 2] 2 0] = some st ∧
      ∃ r, my_scull_read st.dev st.mem 4 4 0 = some r ∧ r.dev = st.dev ∧ r.mem = st.mem := by
  refine ⟨_, rfl, ?_⟩
  exact read_never_grows 4 2 okmem [StoreOp.write [1, 2] 2 0] _ (by decide) (by decide)
    (by decide) ⟨⟨by decide, by decide, by decide⟩, fun _ _ => trivial⟩ rfl 4 4 0
    ⟨by decide, by decide, by decide⟩

/-! ## Which quanta a sequence of writes leaves behind -/

theorem granted_generous {m m1 : Kmem} (h : granted m m1) (hm : generous m) : generous m1 := by
  intro k
  rw [h.1]
  exact hm k

/-- A read of `n` bytes that lie below the size, inside one quantum that is
there, returns them. -/
theorem read_block (dev : my_scull_dev) (mr : Kmem) (Q S off n : Nat) (blk : List Byte)
    (hq : dev.quantum = (Q : Int)) (hs : dev.qset = (S : Int)) (hQ : 0 < Q) (hS : 0 < S)
    (hQS : ((Q * S : Nat) : Int) ≤ INT_MAX) (hsh : shaped dev) (hsem : 0 < dev.sem)
    (hitem : ((off / (Q * S) : Nat) : Int) ≤ INT_MAX) (hoff : (off : Int) + n ≤ LONG_MAX)
    (hblk : block_at dev.data (off / (Q * S)) (off % (Q * S) / Q) = some blk)
    (hn : n ≤ Q - off % (Q * S) % Q) (hsz : off + n ≤ dev.size) :
    ∃ r, my_scull_read dev mr n n (off : Int) = some r ∧ r.retval = (n : Int) ∧
      r.out = (blk.drop (off % (Q * S) % Q)).take n := by
  obtain ⟨r, hr, _, hv, _⟩ :=
    my_scull_read_sane dev mr Q S n n off hq hs hQ hS hQS hsh hsem hitem hoff
  rw [read_view_sane dev Q S n n off hq hs] at hv
  refine ⟨r, hr, ?_⟩
  by_cases hge : off ≥ dev.size
  · rw [if_pos hge] at hv
    simp only [Prod.mk.injEq] at hv
    have hn0 : n = 0 := by omega
    subst hn0
    rw [hv.1, hv.2.2]
    exact ⟨rfl, by simp⟩
  · rw [if_neg hge, hblk] at hv
    simp only [] at hv
    have hmin : min (min n (dev.size - off)) (Q - off % (Q * S) % Q) = n := by omega
    rw [hmin, if_neg (Nat.lt_irrefl n)] at hv
    simp only [Prod.mk.injEq] at hv
    exact ⟨hv.1, hv.2.2⟩

/-- C9, as stated, fails: the number of the quantum set is kept in an `int`,
so offsets `2^32 * Q * S` apart share a quantum. On the empty store with
quantum 1 and qset 1, a byte written at offset 0 and then another at offset
`2^32` (the ranges do not overlap): the read at offset 0 returns the second
byte. -/
theorem far_write_overwrites :
    ∃ w1 w2 r, my_scull_write (empty_dev 1 1) okmem [1] 1 0 = some w1 ∧ w1.retval = 1 ∧
      my_scull_write w1.dev w1.mem [2] 1 4294967296 = some w2 ∧ w2.retval = 1 ∧
      my_scull_read w2.dev w2.mem 1 1 0 = some r ∧ r.out = [2] :=
  ⟨_, _, _, rfl, by decide, rfl, by decide, rfl, by decide⟩

/-- C9 (amended). On a shaped store with quantum `Q > 0`, qset `S > 0` and
`Q * S` within `int`, the semaphore free, for offsets whose set numbers are
within `int`: when a write at `oa` accepts `na` bytes of `ba` and a write at
`ob` that follows accepts `nb` bytes of `bb`, and the two accepted ranges do
not overlap (whichever comes first in the file), then a read of `na` bytes at
`oa` returns the bytes accepted from `ba` and a read of `nb` bytes at `ob`
those accepted from `bb`. -/
theorem writes_do_not_interfere (dev : my_scull_dev) (m : Kmem) (Q S : Nat)
    (ba bb : List Byte) (ca cb oa ob na nb : Nat) (wa wb : IoResult)
    (hq : dev.quantum = (Q : Int)) (hs : dev.qset = (S : Int)) (hQ : 0 < Q) (hS : 0 < S)
    (hQS : ((Q * S : Nat) : Int) ≤ INT_MAX) (hsh : shaped dev) (hsem : 0 < dev.sem)
    (hia : ((oa / (Q * S) : Nat) : Int) ≤ INT_MAX) (hib : ((ob / (Q * S) : Nat) : Int) ≤ INT_MAX)
    (hoa : (oa : Int) + ca ≤ LONG_MAX) (hob : (ob : Int) + cb ≤ LONG_MAX)
    (h1 : my_scull_write dev m ba ca (oa : Int) = some wa) (hok1 : 0 ≤ wa.retval)
    (h2 : my_scull_write wa.dev wa.mem bb cb (ob : Int) = some wb) (hok2 : 0 ≤ wb.retval)
    (hna : na = min ca (Q - oa % (Q * S) % Q)) (hnb : nb = min cb (Q - ob % (Q * S) % Q))
    (hdisj : oa + na ≤ ob ∨ ob + nb ≤ oa) (mr : Kmem) :
    wa.retval = (na : Int) ∧ wb.retval = (nb : Int) ∧
    ∃ ra rb, my_scull_read wb.dev mr na na (oa : Int) = some ra ∧ ra.retval = (na : Int) ∧
      ra.out = ba.take na ∧
      my_scull_read wb.dev mr nb nb (ob : Int) = some rb ∧ rb.retval = (nb : Int) ∧
      rb.out = bb.take nb := by
  obtain ⟨a1, a2, a3, _, asha, _, acase⟩ :=
    my_scull_write_sane dev m Q S ba ca oa wa hq hs hQ hS hQS hsh hsem hia hoa h1
  have hqa : wa.dev.quantum = (Q : Int) := by rw [a1, hq]
  have hsa : wa.dev.qset = (S : Int) := by rw [a2, hs]
  have hsema : 0 < wa.dev.sem := by rw [a3]; exact hsem
  obtain ⟨b1, b2, b3, _, bshb, _, bcase⟩ :=
    my_scull_write_sane wa.dev wa.mem Q S bb cb ob wb hqa hsa hQ hS hQS asha hsema hib hob h2
  have hqb : wb.dev.quantum = (Q : Int) := by rw [b1, hqa]
  have hsb : wb.dev.qset = (S : Int) := by rw [b2, hsa]
  have hsemb : 0 < wb.dev.sem := by rw [b3]; exact hsema
  have hsplita := offset_split Q S oa
  have hsplitb := offset_split Q S ob
  have hnale : na ≤ ca := by rw [hna]; exact Nat.min_le_left _ _
  have hnble : nb ≤ cb := by rw [hnb]; exact Nat.min_le_left _ _
  have hoa2 : (oa : Int) + na ≤ LONG_MAX := by omega
  have hob2 : (ob : Int) + nb ≤ LONG_MAX := by omega
  rw [← hna] at acase
  rw [← hnb] at bcase
  have hnaq : na ≤ Q - oa % (Q * S) % Q := by rw [hna]; exact Nat.min_le_right _ _
  have hnbq : nb ≤ Q - ob % (Q * S) % Q := by rw [hnb]; exact Nat.min_le_right _ _
  clear hna hnb hoa hob h1 h2
  rcases acase with ⟨k, _⟩ | ⟨oldA, srcA, _, holdA, _, hsrcA, hblkA, hresA⟩
  · exfalso
    rw [k] at hok1
    revert hok1
    decide
  rcases hresA with ⟨_, k, _⟩ | ⟨_, hsA, hretA, _, hsizeA⟩
  · exfalso
    rw [k] at hok1
    revert hok1
    decide
  rcases bcase with ⟨k, _⟩ | ⟨oldB, srcB, _, holdB, hwasB, hsrcB, hblkB, hresB⟩
  · exfalso
    rw [k] at hok2
    revert hok2
    decide
  rcases hresB with ⟨_, k, _⟩ | ⟨_, hsB, hretB, _, hsizeB⟩
  · exfalso
    rw [k] at hok2
    revert hok2
    decide
  clear hok1 hok2
  have hqaQ : oa % (Q * S) % Q < Q := Nat.mod_lt _ hQ
  have hqbQ : ob % (Q * S) % Q < Q := Nat.mod_lt _ hQ
  have hfitA : oa % (Q * S) % Q + srcA.length ≤ oldA.length := by
    rw [hsrcA, holdA]
    omega
  have hfitB : ob % (Q * S) % Q + srcB.length ≤ oldB.length := by
    rw [hsrcB, holdB]
    omega
  have hbA : block_at wa.dev.data (oa / (Q * S)) (oa % (Q * S) / Q) =
      some (overwrite oldA (oa % (Q * S) % Q) srcA) := by
    rw [hblkA, if_pos ⟨rfl, rfl⟩]
  have hbB : block_at wb.dev.data (ob / (Q * S)) (ob % (Q * S) / Q) =
      some (overwrite oldB (ob % (Q * S) % Q) srcB) := by
    rw [hblkB, if_pos ⟨rfl, rfl⟩]
  have hszA : oa + na ≤ wb.dev.size := by
    rw [hsizeB, hsizeA]
    omega
  have hszB : ob + nb ≤ wb.dev.size := by
    rw [hsizeB]
    omega
  obtain ⟨rb, hrb, hrb1, hrb2⟩ :=
    read_block wb.dev mr Q S ob nb _ hqb hsb hQ hS hQS bshb hsemb hib hob2 hbB hnbq hszB
  have houtB : rb.out = bb.take nb := by
    rw [hrb2, ← hsB]
    have := overwrite_read oldB (ob % (Q * S) % Q) srcB hfitB
    rw [hsrcB] at this
    exact this
  have hreadA : ((overwrite oldA (oa % (Q * S) % Q) srcA).drop (oa % (Q * S) % Q)).take na
      = ba.take na := by
    rw [← hsA]
    have := overwrite_read oldA (oa % (Q * S) % Q) srcA hfitA
    rw [hsrcA] at this
    exact this
  refine ⟨hretA, hretB, ?_⟩
  by_cases hsame : oa / (Q * S) = ob / (Q * S) ∧ oa % (Q * S) / Q = ob % (Q * S) / Q
  · have hbA2 : block_at wb.dev.data (oa / (Q * S)) (oa % (Q * S) / Q) =
        some (overwrite oldB (ob % (Q * S) % Q) srcB) := by
      rw [hsame.1, hsame.2]
      exact hbB
    have holdeq : oldB = overwrite oldA (oa % (Q * S) % Q) srcA := by
      rw [hsame.1, hsame.2] at hbA
      rcases hwasB with e | e
      · rw [e] at hbA
        simp only [Option.some.injEq] at hbA
        exact hbA
      · rw [e] at hbA
        cases hbA
    obtain ⟨ra, hra, hra1, hra2⟩ :=
      read_block wb.dev mr Q S oa na _ hqb hsb hQ hS hQS bshb hsemb hia hoa2 hbA2 hnaq hszA
    refine ⟨ra, rb, hra, hra1, ?_, hrb, hrb1, houtB⟩
    rw [hra2, overwrite_read_other _ _ _ _ _ hfitB, holdeq]
    · exact hreadA
    · rw [hsrcB]
      rw [hsame.1, hsame.2] at hsplita
      clear hreadA houtB hrb2 hra2 holdeq hbA2 hbA hbB hblkA hblkB
      generalize ob / (Q * S) * (Q * S) + ob % (Q * S) / Q * Q = base at *
      omega
  · have hbA2 : block_at wb.dev.data (oa / (Q * S)) (oa % (Q * S) / Q) =
        some (overwrite oldA (oa % (Q * S) % Q) srcA) := by
      rw [hblkB, if_neg hsame]
      exact hbA
    obtain ⟨ra, hra, hra1, hra2⟩ :=
      read_block wb.dev mr Q S oa na _ hqb hsb hQ hS hQS bshb hsemb hia hoa2 hbA2 hnaq hszA
    refine ⟨ra, rb, hra, hra1, ?_, hrb, hrb1, houtB⟩
    rw [hra2]
    exact hreadA

/-- Witness of C9 (amended): on the empty store with quantum 4 and qset 2, two
bytes are written at offset 0 and two more at offset 2, in the same
quantum. -/
theorem writes_do_not_interfere_witness :
    ∃ wa wb, my_scull_write (empty_dev 4 2) okmem [1, 2] 2 ((0 : Nat) : Int) = some wa ∧
      my_scull_write wa.dev wa.mem [3, 4] 2 ((2 : Nat) : Int) = some wb ∧
      wa.retval = ((2 : Nat) : Int) ∧ wb.retval = ((2 : Nat) : Int) ∧
      ∃ ra rb, my_scull_read wb.dev okmem 2 2 ((0 : Nat) : Int) = some ra ∧
        ra.retval = ((2 : Nat) : Int) ∧ ra.out = [1, 2].take 2 ∧
        my_scull_read wb.dev okmem 2 2 ((2 : Nat) : Int) = some rb ∧
        rb.retval = ((2 : Nat) : Int) ∧ rb.out = [3, 4].take 2 := by
  refine ⟨_, _, rfl, rfl, ?_⟩
  exact writes_do_not_interfere (empty_dev 4 2) okmem 4 2 [1, 2] [3, 4] 2 2 0 2 2 2 _ _ rfl rfl
    (by decide) (by decide) (by decide) (shaped_of_ok _ (by decide)) (by decide) (by decide)
    (by decide) (by decide) (by decide) rfl (by decide) rfl (by decide) (by decide) (by decide)
    (Or.inl (by decide)) okmem

/-! ## Control commands: what each defined command does -/

/-- A privileged exchange of the quantum with readable and writable user
memory holding `n`. -/
theorem ioctl_xquantum (maxnr : Nat) (hmax : 12 ≤ maxnr) (g : Globals) (u : UserArg) (n : Int)
    (hacc : u.access_ok = true) (hval : u.value = some n) (hw : u.writable = true) :
    my_scull_ioctl maxnr g true MY_SCULL_IOCXQUANTUM u =
      { retval := 0, globals := { g with my_scull_quantum := n },
        put := some g.my_scull_quantum } := by
  have h2 : ¬ (9 > maxnr) := by omega
  simp [my_scull_ioctl, IOC_TYPE, IOC_NR, IOC_DIR, IOC_READ, IOC_WRITE, MY_SCULL_IOC_MAGIC,
    MY_SCULL_IOCXQUANTUM, MY_SCULL_IOCRESET, MY_SCULL_IOCSQUANTUM, MY_SCULL_IOCTQUANTUM,
    MY_SCULL_IOCGQUANTUM, MY_SCULL_IOCQQUANTUM, get_user, put_user, hacc, hval, hw, h2]

/-- A privileged exchange of the qset with readable and writable user memory
holding `n`. -/
theorem ioctl_xqset (maxnr : Nat) (hmax : 12 ≤ maxnr) (g : Globals) (u : UserArg) (n : Int)
    (hacc : u.access_ok = true) (hval : u.value = some n) (hw : u.writable = true) :
    my_scull_ioctl maxnr g true MY_SCULL_IOCXQSET u =
      { retval := 0, globals := { g with my_scull_qset := n },
        put := some g.my_scull_qset } := by
  have h2 : ¬ (10 > maxnr) := by omega
  simp [my_scull_ioctl, IOC_TYPE, IOC_NR, IOC_DIR, IOC_READ, IOC_WRITE, MY_SCULL_IOC_MAGIC,
    MY_SCULL_IOCXQUANTUM, MY_SCULL_IOCRESET, MY_SCULL_IOCSQUANTUM, MY_SCULL_IOCTQUANTUM,
    MY_SCULL_IOCGQUANTUM, MY_SCULL_IOCQQUANTUM, MY_SCULL_IOCHQUANTUM, MY_SCULL_IOCSQSET,
    MY_SCULL_IOCTQSET, MY_SCULL_IOCGQSET, MY_SCULL_IOCQQSET, MY_SCULL_IOCXQSET,
    get_user, put_user, hacc, hval, hw, h2]

/-- C15. For every current quantum `c` and every new value `n`, a privileged
exchange-quantum (`MY_SCULL_IOCXQUANTUM`) whose argument points to readable
and writable user memory holding `n` succeeds, hands back the old value `c`
through the argument and leaves the global quantum equal to `n`, without
changing the global qset; the same holds for exchange-qset
(`MY_SCULL_IOCXQSET`) with the roles of the two parameters swapped. -/
theorem exchange_contract (maxnr : Nat) (hmax : 12 ≤ maxnr) (c s n : Int) (u : UserArg)
    (hacc : u.access_ok = true) (hval : u.value = some n) (hw : u.writable = true) :
    (my_scull_ioctl maxnr { my_scull_quantum := c, my_scull_qset := s } true
        MY_SCULL_IOCXQUANTUM u =
      { retval := 0, globals := { my_scull_quantum := n, my_scull_qset := s },
        put := some c }) ∧
    (my_scull_ioctl maxnr { my_scull_quantum := s, my_scull_qset := c } true
        MY_SCULL_IOCXQSET u =
      { retval := 0, globals := { my_scull_quantum := s, my_scull_qset := n },
        put := some c }) :=
  ⟨ioctl_xquantum maxnr hmax _ u n hacc hval hw, ioctl_xqset maxnr hmax _ u n hacc hval hw⟩

/-- Witness of C15: current 4000, new 2000. -/
theorem exchange_contract_witness :
    (my_scull_ioctl 12 { my_scull_quantum := 4000, my_scull_qset := 1000 } true
        MY_SCULL_IOCXQUANTUM { arg := 64, access_ok := true, value := some 2000, writable := true } =
      { retval := 0, globals := { my_scull_quantum := 2000, my_scull_qset := 1000 },
        put := some 4000 }) ∧
    (my_scull_ioctl 12 { my_scull_quantum := 1000, my_scull_qset := 4000 } true
        MY_SCULL_IOCXQSET { arg := 64, access_ok := true, value := some 2000, writable := true } =
      { retval := 0, globals := { my_scull_quantum := 1000, my_scull_qset := 2000 },
        put := some 4000 }) :=
  exchange_contract 12 (Nat.le_refl 12) 4000 1000 2000
    { arg := 64, access_ok := true, value := some 2000, writable := true } rfl rfl rfl

theorem to_int_to_ulong (n : Int) (h1 : INT_MIN ≤ n) (h2 : n ≤ INT_MAX) :
    to_int ((to_ulong n : Nat) : Int) = n := by
  unfold INT_MIN at h1
  unfold INT_MAX at h2
  unfold to_int to_ulong
  omega

theorem ioctl_hquantum (maxnr : Nat) (hmax : 12 ≤ maxnr) (g : Globals) (u : UserArg) :
    my_scull_ioctl maxnr g true MY_SCULL_IOCHQUANTUM u =
      { retval := g.my_scull_quantum, globals := { g with my_scull_quantum := to_int u.arg },
        put := none } := by
  have h2 : ¬ (11 > maxnr) := by omega
  simp [my_scull_ioctl, IOC_TYPE, IOC_NR, IOC_DIR, IOC_READ, IOC_WRITE, MY_SCULL_IOC_MAGIC,
    MY_SCULL_IOCXQUANTUM, MY_SCULL_IOCRESET, MY_SCULL_IOCSQUANTUM, MY_SCULL_IOCTQUANTUM,
    MY_SCULL_IOCGQUANTUM, MY_SCULL_IOCQQUANTUM, MY_SCULL_IOCHQUANTUM, h2]

theorem ioctl_hqset (maxnr : Nat) (hmax : 12 ≤ maxnr) (g : Globals) (u : UserArg) :
    my_scull_ioctl maxnr g true MY_SCULL_IOCHQSET u =
      { retval := g.my_scull_qset, globals := { g with my_scull_qset := to_int u.arg },
        put := none } := by
  have h2 : ¬ (12 > maxnr) := by omega
  simp [my_scull_ioctl, IOC_TYPE, IOC_NR, IOC_DIR, IOC_READ, IOC_WRITE, MY_SCULL_IOC_MAGIC,
    MY_SCULL_IOCXQUANTUM, MY_SCULL_IOCRESET, MY_SCULL_IOCSQUANTUM, MY_SCULL_IOCTQUANTUM,
    MY_SCULL_IOCGQUANTUM, MY_SCULL_IOCQQUANTUM, MY_SCULL_IOCHQUANTUM, MY_SCULL_IOCSQSET,
    MY_SCULL_IOCTQSET, MY_SCULL_IOCGQSET, MY_SCULL_IOCQQSET, MY_SCULL_IOCXQSET,
    MY_SCULL_IOCHQSET, h2]

theorem ioctl_squantum (maxnr : Nat) (hmax : 12 ≤ maxnr) (g : Globals) (u : UserArg) (n : Int)
    (hacc : u.access_ok = true) (hval : u.value = some n) :
    my_scull_ioctl maxnr g true MY_SCULL_IOCSQUANTUM u =
      { retval := 0, globals := { g with my_scull_quantum := n }, put := none } := by
  have h2 : ¬ (1 > maxnr) := by omega
  simp [my_scull_ioctl, IOC_TYPE, IOC_NR, IOC_DIR, IOC_READ, IOC_WRITE, MY_SCULL_IOC_MAGIC,
    MY_SCULL_IOCRESET, MY_SCULL_IOCSQUANTUM, get_user, hacc, hval, h2]

theorem ioctl_sqset (maxnr : Nat) (hmax : 12 ≤ maxnr) (g : Globals) (u : UserArg) (n : Int)
    (hacc : u.access_ok = true) (hval : u.value = some n) :
    my_scull_ioctl maxnr g true MY_SCULL_IOCSQSET u =
      { retval := 0, globals := { g with my_scull_qset := n }, put := none } := by
  have h2 : ¬ (2 > maxnr) := by omega
  simp [my_scull_ioctl, IOC_TYPE, IOC_NR, IOC_DIR, IOC_READ, IOC_WRITE, MY_SCULL_IOC_MAGIC,
    MY_SCULL_IOCXQUANTUM, MY_SCULL_IOCRESET, MY_SCULL_IOCSQUANTUM, MY_SCULL_IOCTQUANTUM,
    MY_SCULL_IOCGQUANTUM, MY_SCULL_IOCQQUANTUM, MY_SCULL_IOCHQUANTUM, MY_SCULL_IOCSQSET,
    get_user, hacc, hval, h2]

theorem ioctl_tquantum (maxnr : Nat) (hmax : 12 ≤ maxnr) (g : Globals) (u : UserArg) :
    my_scull_ioctl maxnr g true MY_SCULL_IOCTQUANTUM u =
      { retval := 0, globals := { g with my_scull_quantum := to_int u.arg }, put := none } := by
  have h2 : ¬ (3 > maxnr) := by omega
  simp [my_scull_ioctl, IOC_TYPE, IOC_NR, IOC_DIR, IOC_READ, IOC_WRITE, MY_SCULL_IOC_MAGIC,
    MY_SCULL_IOCRESET, MY_SCULL_IOCSQUANTUM, MY_SCULL_IOCTQUANTUM, h2]

theorem ioctl_tqset (maxnr : Nat) (hmax : 12 ≤ maxnr) (g : Globals) (u : UserArg) :
    my_scull_ioctl maxnr g true MY_SCULL_IOCTQSET u =
      { retval := 0, globals := { g with my_scull_qset := to_int u.arg }, put := none } := by
  have h2 : ¬ (4 > maxnr) := by omega
  simp [my_scull_ioctl, IOC_TYPE, IOC_NR, IOC_DIR, IOC_READ, IOC_WRITE, MY_SCULL_IOC_MAGIC,
    MY_SCULL_IOCXQUANTUM, MY_SCULL_IOCRESET, MY_SCULL_IOCSQUANTUM, MY_SCULL_IOCTQUANTUM,
    MY_SCULL_IOCGQUANTUM, MY_SCULL_IOCQQUANTUM, MY_SCULL_IOCHQUANTUM, MY_SCULL_IOCSQSET,
    MY_SCULL_IOCTQSET, h2]

theorem ioctl_qquantum (maxnr : Nat) (hmax : 12 ≤ maxnr) (g : Globals) (cap : Bool)
    (u : UserArg) :
    my_scull_ioctl maxnr g cap MY_SCULL_IOCQQUANTUM u =
      { retval := g.my_scull_quantum, globals := g, put := none } := by
  have h2 : ¬ (7 > maxnr) := by omega
  simp [my_scull_ioctl, IOC_TYPE, IOC_NR, IOC_DIR, IOC_READ, IOC_WRITE, MY_SCULL_IOC_MAGIC,
    MY_SCULL_IOCRESET, MY_SCULL_IOCSQUANTUM, MY_SCULL_IOCTQUANTUM, MY_SCULL_IOCGQUANTUM,
    MY_SCULL_IOCQQUANTUM, h2]

theorem ioctl_qqset (maxnr : Nat) (hmax : 12 ≤ maxnr) (g : Globals) (cap : Bool)
    (u : UserArg) :
    my_scull_ioctl maxnr g cap MY_SCULL_IOCQQSET u =
      { retval := g.my_scull_qset, globals := g, put := none } := by
  have h2 : ¬ (8 > maxnr) := by omega
  simp [my_scull_ioctl, IOC_TYPE, IOC_NR, IOC_DIR, IOC_READ, IOC_WRITE, MY_SCULL_IOC_MAGIC,
    MY_SCULL_IOCXQUANTUM, MY_SCULL_IOCRESET, MY_SCULL_IOCSQUANTUM, MY_SCULL_IOCTQUANTUM,
    MY_SCULL_IOCGQUANTUM, MY_SCULL_IOCQQUANTUM, MY_SCULL_IOCHQUANTUM, MY_SCULL_IOCSQSET,
    MY_SCULL_IOCTQSET, MY_SCULL_IOCGQSET, MY_SCULL_IOCQQSET, h2]

theorem ioctl_gquantum (maxnr : Nat) (hmax : 12 ≤ maxnr) (g : Globals) (cap : Bool)
    (u : UserArg) (hacc : u.access_ok = true) (hw : u.writable = true) :
    my_scull_ioctl maxnr g cap MY_SCULL_IOCGQUANTUM u =
      { retval := 0, globals := g, put := some g.my_scull_quantum } := by
  have h2 : ¬ (5 > maxnr) := by omega
  simp [my_scull_ioctl, IOC_TYPE, IOC_NR, IOC_DIR, IOC_READ, IOC_WRITE, MY_SCULL_IOC_MAGIC,
    MY_SCULL_IOCRESET, MY_SCULL_IOCSQUANTUM, MY_SCULL_IOCTQUANTUM, MY_SCULL_IOCGQUANTUM,
    put_user, hacc, hw, h2]

theorem ioctl_gqset (maxnr : Nat) (hmax : 12 ≤ maxnr) (g : Globals) (cap : Bool)
    (u : UserArg) (hacc : u.access_ok = true) (hw : u.writable = true) :
    my_scull_ioctl maxnr g cap MY_SCULL_IOCGQSET u =
      { retval := 0, globals := g, put := some g.my_scull_qset } := by
  have h2 : ¬ (6 > maxnr) := by omega
  simp [my_scull_ioctl, IOC_TYPE, IOC_NR, IOC_DIR, IOC_READ, IOC_WRITE, MY_SCULL_IOC_MAGIC,
    MY_SCULL_IOCXQUANTUM, MY_SCULL_IOCRESET, MY_SCULL_IOCSQUANTUM, MY_SCULL_IOCTQUANTUM,
    MY_SCULL_IOCGQUANTUM, MY_SCULL_IOCQQUANTUM, MY_SCULL_IOCHQUANTUM, MY_SCULL_IOCSQSET,
    MY_SCULL_IOCTQSET, MY_SCULL_IOCGQSET, put_user, hacc, hw, h2]

/-- C16. For every current quantum `c` and every new `int` value `n` passed
as the argument, a privileged shift-quantum (`MY_SCULL_IOCHQUANTUM`) returns
the pre-call value `c` as its result and leaves the global quantum equal to
`n`, without changing the global qset; the same holds for shift-qset
(`MY_SCULL_IOCHQSET`) with the roles swapped. -/
theorem shift_contract (maxnr : Nat) (hmax : 12 ≤ maxnr) (c s n : Int) (u : UserArg)
    (h1 : INT_MIN ≤ n) (h2 : n ≤ INT_MAX) (harg : u.arg = to_ulong n) :
    (my_scull_ioctl maxnr { my_scull_quantum := c, my_scull_qset := s } true
        MY_SCULL_IOCHQUANTUM u =
      { retval := c, globals := { my_scull_quantum := n, my_scull_qset := s }, put := none }) ∧
    (my_scull_ioctl maxnr { my_scull_quantum := s, my_scull_qset := c } true
        MY_SCULL_IOCHQSET u =
      { retval := c, globals := { my_scull_quantum := s, my_scull_qset := n }, put := none }) := by
  rw [ioctl_hquantum maxnr hmax, ioctl_hqset maxnr hmax, harg, to_int_to_ulong n h1 h2]
  exact ⟨rfl, rfl⟩

/-- Witness of C16: current 2000, new 1000. -/
theorem shift_contract_witness :
    (my_scull_ioctl 12 { my_scull_quantum := 2000, my_scull_qset := 500 } true
        MY_SCULL_IOCHQUANTUM
        { arg := to_ulong 1000, access_ok := false, value := none, writable := false } =
      { retval := 2000, globals := { my_scull_quantum := 1000, my_scull_qset := 500 },
        put := none }) ∧
    (my_scull_ioctl 12 { my_scull_quantum := 500, my_scull_qset := 2000 } true
        MY_SCULL_IOCHQSET
        { arg := to_ulong 1000, access_ok := false, value := none, writable := false } =
      { retval := 2000, globals := { my_scull_quantum := 500, my_scull_qset := 1000 },
        put := none }) :=
  shift_contract 12 (Nat.le_refl 12) 2000 500 1000
    { arg := to_ulong 1000, access_ok := false, value := none, writable := false }
    (by decide) (by decide) rfl

/-- C17. Set/query round trip: for every `int` value `v`, a privileged
set-by-reference, set-by-value (tell), exchange or shift installs `v` as the
quantum and leaves the qset alone; in every state whose quantum is `v`,
query-quantum returns `v` as its result and get-quantum stores `v` through
its argument, for privileged and unprivileged callers alike, and neither
changes either global parameter; symmetrically for the qset. -/
theorem set_query_round_trip (maxnr : Nat) (hmax : 12 ≤ maxnr) (g : Globals) (v : Int)
    (h1 : INT_MIN ≤ v) (h2 : v ≤ INT_MAX) (uref uval uget : UserArg)
    (hracc : uref.access_ok = true) (hrval : uref.value = some v) (hrw : uref.writable = true)
    (hvarg : uval.arg = to_ulong v) (hgacc : uget.access_ok = true)
    (hgw : uget.writable = true) (cap : Bool) :
    ((my_scull_ioctl maxnr g true MY_SCULL_IOCSQUANTUM uref).globals
        = { g with my_scull_quantum := v } ∧
     (my_scull_ioctl maxnr g true MY_SCULL_IOCTQUANTUM uval).globals
        = { g with my_scull_quantum := v } ∧
     (my_scull_ioctl maxnr g true MY_SCULL_IOCXQUANTUM uref).globals
        = { g with my_scull_quantum := v } ∧
     (my_scull_ioctl maxnr g true MY_SCULL_IOCHQUANTUM uval).globals
        = { g with my_scull_quantum := v } ∧
     ∀ g1 : Globals, g1.my_scull_quantum = v →
       my_scull_ioctl maxnr g1 cap MY_SCULL_IOCQQUANTUM uval
          = { retval := v, globals := g1, put := none } ∧
       my_scull_ioctl maxnr g1 cap MY_SCULL_IOCGQUANTUM uget
          = { retval := 0, globals := g1, put := some v }) ∧
    ((my_scull_ioctl maxnr g true MY_SCULL_IOCSQSET uref).globals
        = { g with my_scull_qset := v } ∧
     (my_scull_ioctl maxnr g true MY_SCULL_IOCTQSET uval).globals
        = { g with my_scull_qset := v } ∧
     (my_scull_ioctl maxnr g true MY_SCULL_IOCXQSET uref).globals
        = { g with my_scull_qset := v } ∧
     (my_scull_ioctl maxnr g true MY_SCULL_IOCHQSET uval).globals
        = { g with my_scull_qset := v } ∧
     ∀ g1 : Globals, g1.my_scull_qset = v →
       my_scull_ioctl maxnr g1 cap MY_SCULL_IOCQQSET uval
          = { retval := v, globals := g1, put := none } ∧
       my_scull_ioctl maxnr g1 cap MY_SCULL_IOCGQSET uget
          = { retval := 0, globals := g1, put := some v }) := by
  have hv := to_int_to_ulong v h1 h2
  refine ⟨⟨?_, ?_, ?_, ?_, ?_⟩, ⟨?_, ?_, ?_, ?_, ?_⟩⟩
  · rw [ioctl_squantum maxnr hmax g uref v hracc hrval]
  · rw [ioctl_tquantum maxnr hmax g uval, hvarg, hv]
  · rw [ioctl_xquantum maxnr hmax g uref v hracc hrval hrw]
  · rw [ioctl_hquantum maxnr hmax g uval, hvarg, hv]
  · intro g1 hg
    rw [ioctl_qquantum maxnr hmax g1 cap uval, ioctl_gquantum maxnr hmax g1 cap uget hgacc hgw,
      hg]
    exact ⟨rfl, rfl⟩
  · rw [ioctl_sqset maxnr hmax g uref v hracc hrval]
  · rw [ioctl_tqset maxnr hmax g uval, hvarg, hv]
  · rw [ioctl_xqset maxnr hmax g uref v hracc hrval hrw]
  · rw [ioctl_hqset maxnr hmax g uval, hvarg, hv]
  · intro g1 hg
    rw [ioctl_qqset maxnr hmax g1 cap uval, ioctl_gqset maxnr hmax g1 cap uget hgacc hgw, hg]
    exact ⟨rfl, rfl⟩

/-- Witness of C17: the value 2000 installed by a privileged tell and read
back by an unprivileged query. -/
theorem set_query_round_trip_witness :
    (my_scull_ioctl 12 { my_scull_quantum := 4000, my_scull_qset := 1000 } true
        MY_SCULL_IOCTQUANTUM
        { arg := to_ulong 2000, access_ok := true, value := none, writable := false }).globals
      = { my_scull_quantum := 2000, my_scull_qset := 1000 } ∧
    my_scull_ioctl 12 { my_scull_quantum := 2000, my_scull_qset := 1000 } false
        MY_SCULL_IOCQQUANTUM
        { arg := to_ulong 2000, access_ok := true, value := none, writable := false }
      = { retval := 2000, globals := { my_scull_quantum := 2000, my_scull_qset := 1000 },
          put := none } := by
  have h := set_query_round_trip 12 (Nat.le_refl 12)
    { my_scull_quantum := 4000, my_scull_qset := 1000 } 2000 (by decide) (by decide)
    { arg := 64, access_ok := true, value := some 2000, writable := true }
    { arg := to_ulong 2000, access_ok := true, value := none, writable := false }
    { arg := 64, access_ok := true, value := none, writable := true } rfl rfl rfl rfl rfl rfl false
  exact ⟨h.1.2.1, (h.1.2.2.2.2 { my_scull_quantum := 2000, my_scull_qset := 1000 } rfl).1⟩

/-- C18, as stated, fails: an unprivileged set-quantum whose argument is a bad
pointer fails with `-EFAULT`, not `-EPERM`, because `access_ok` is checked
before `capable`; and an unprivileged reset-to-defaults succeeds and changes
both globals, because its case has no `capable` check. -/
theorem unprivileged_not_eperm :
    (my_scull_ioctl 12 { my_scull_quantum := 2000, my_scull_qset := 500 } false
        MY_SCULL_IOCSQUANTUM
        { arg := 0, access_ok := false, value := none, writable := false }).retval = -EFAULT ∧
    my_scull_ioctl 12 { my_scull_quantum := 2000, my_scull_qset := 500 } false
        MY_SCULL_IOCRESET { arg := 0, access_ok := false, value := none, writable := false }
      = { retval := 0, globals := { my_scull_quantum := 4000, my_scull_qset := 1000 },
          put := none } :=
  ⟨by decide, rfl⟩

/-- C18, amended: for every global state and every set, tell, exchange and
shift command, for quantum and for qset, issued by a caller without the
privilege, `my_scull_ioctl` leaves both global parameters unchanged and
stores nothing; it fails with `-EPERM` when the command carries no pointer
(its code has no direction bits) or the pointer passes `access_ok`, and it
fails with `-EFAULT` when the command carries a pointer that fails
`access_ok`, which is checked before the privilege. -/
theorem unprivileged_rejected (maxnr : Nat) (hmax : 12 ≤ maxnr) (g : Globals) (u : UserArg)
    (cmd : Nat) (hc : cmd ∈ guarded_cmds) :
    (my_scull_ioctl maxnr g false cmd u).globals = g ∧
    (my_scull_ioctl maxnr g false cmd u).put = none ∧
    ((u.access_ok = true ∨ IOC_DIR cmd = 0) →
      (my_scull_ioctl maxnr g false cmd u).retval = -EPERM) ∧
    ((u.access_ok = false ∧ IOC_DIR cmd ≠ 0) →
      (my_scull_ioctl maxnr g false cmd u).retval = -EFAULT) := by
  have h1 : ¬ (1 > maxnr) := by omega
  have h2 : ¬ (2 > maxnr) := by omega
  have h3 : ¬ (3 > maxnr) := by omega
  have h4 : ¬ (4 > maxnr) := by omega
  have h9 : ¬ (9 > maxnr) := by omega
  have h10 : ¬ (10 > maxnr) := by omega
  have h11 : ¬ (11 > maxnr) := by omega
  have h12 : ¬ (12 > maxnr) := by omega
  simp only [guarded_cmds, List.mem_cons, List.mem_singleton, List.not_mem_nil, or_false] at hc
  rcases hc with e | e | e | e | e | e | e | e <;> subst e <;> cases hacc : u.access_ok <;>
    simp [my_scull_ioctl, IOC_TYPE, IOC_NR, IOC_DIR, IOC_READ, IOC_WRITE, MY_SCULL_IOC_MAGIC,
      MY_SCULL_IOCXQUANTUM, MY_SCULL_IOCRESET, MY_SCULL_IOCSQUANTUM, MY_SCULL_IOCTQUANTUM,
      MY_SCULL_IOCGQUANTUM, MY_SCULL_IOCQQUANTUM, MY_SCULL_IOCHQUANTUM, MY_SCULL_IOCSQSET,
      MY_SCULL_IOCTQSET, MY_SCULL_IOCGQSET, MY_SCULL_IOCQQSET, MY_SCULL_IOCXQSET,
      MY_SCULL_IOCHQSET, hacc, h1, h2, h3, h4, h9, h10, h11, h12]

/-- Witness of the amended C18: an unprivileged exchange-quantum whose pointer
fails `access_ok` returns `-EFAULT` and leaves the globals as they were. -/
theorem unprivileged_rejected_witness :
    (my_scull_ioctl 12 { my_scull_quantum := 2000, my_scull_qset := 500 } false
        MY_SCULL_IOCXQUANTUM
        { arg := 7, access_ok := false, value := none, writable := false }).globals
      = { my_scull_quantum := 2000, my_scull_qset := 500 } ∧
    (my_scull_ioctl 12 { my_scull_quantum := 2000, my_scull_qset := 500 } false
        MY_SCULL_IOCXQUANTUM
        { arg := 7, access_ok := false, value := none, writable := false }).retval = -EFAULT := by
  have h := unprivileged_rejected 12 (Nat.le_refl 12)
    { my_scull_quantum := 2000, my_scull_qset := 500 }
    { arg := 7, access_ok := false, value := none, writable := false } MY_SCULL_IOCXQUANTUM
    (by decide)
  exact ⟨h.1, h.2.2.2 ⟨rfl, by decide⟩⟩

/-- C19, defect of the code: `0x80046F03` is not a defined command; its magic
and its number 3 pass the two early checks, so the code goes on to decode
its direction bits and, the argument being a kernel address that fails
`access_ok`, returns `-EFAULT` before the switch is reached, for a privileged
and for an unprivileged caller. The claim, and the comment above the early
checks ("don't decode wrong cmds, return ENOTTY before access_ok()"), say
`-ENOTTY`. -/
theorem unknown_command_efault :
    (2147774211 : Nat) ∉ defined_cmds ∧
    IOC_TYPE 2147774211 = MY_SCULL_IOC_MAGIC ∧ IOC_NR 2147774211 = 3 ∧
    IOC_DIR 2147774211 = IOC_READ ∧
    (my_scull_ioctl 12 { my_scull_quantum := 4000, my_scull_qset := 1000 } true 2147774211
        { arg := 18446612682070032384, access_ok := false, value := none,
          writable := false }).retval = -EFAULT ∧
    (my_scull_ioctl 12 { my_scull_quantum := 4000, my_scull_qset := 1000 } false 2147774211
        { arg := 18446612682070032384, access_ok := false, value := none,
          writable := false }).retval = -EFAULT ∧
    (my_scull_ioctl 12 { my_scull_quantum := 4000, my_scull_qset := 1000 } true 2147774211
        { arg := 18446612682070032384, access_ok := false, value := none,
          writable := false }).retval ≠ -ENOTTY := by
  decide

/-- The extent of the defect in the rejection of unknown commands: for every
command code that is not one of the defined commands, `my_scull_ioctl`
leaves both global parameters unchanged, stores nothing, and does the same
whether or not the caller is privileged; it returns `-ENOTTY` when the magic
type is wrong, when the number is above the maximum, and when no case
matches and the check of the argument (made only if the code has direction
bits) passes; it returns `-EFAULT` exactly in the remaining case: the magic
type is right, the number is not above the maximum, the code has direction
bits and the argument fails `access_ok`. -/
theorem unknown_command_rejected (maxnr : Nat) (g : Globals) (cap : Bool) (cmd : Nat)
    (u : UserArg) (hc : cmd ∉ defined_cmds) :
    (my_scull_ioctl maxnr g cap cmd u).globals = g ∧
    (my_scull_ioctl maxnr g cap cmd u).put = none ∧
    my_scull_ioctl maxnr g cap cmd u = my_scull_ioctl maxnr g (!cap) cmd u ∧
    ((IOC_TYPE cmd ≠ MY_SCULL_IOC_MAGIC ∨ IOC_NR cmd > maxnr ∨ IOC_DIR cmd = 0 ∨
        u.access_ok = true) → (my_scull_ioctl maxnr g cap cmd u).retval = -ENOTTY) ∧
    ((IOC_TYPE cmd = MY_SCULL_IOC_MAGIC ∧ IOC_NR cmd ≤ maxnr ∧ IOC_DIR cmd ≠ 0 ∧
        u.access_ok = false) → (my_scull_ioctl maxnr g cap cmd u).retval = -EFAULT) := by
  simp only [defined_cmds, List.mem_cons, List.mem_singleton, List.not_mem_nil, or_false,
    not_or] at hc
  obtain ⟨c0, c1, c2, c3, c4, c5, c6, c7, c8, c9, c10, c11, c12⟩ := hc
  have hd : IOC_DIR cmd < 4 := by unfold IOC_DIR; omega
  by_cases ht : IOC_TYPE cmd = MY_SCULL_IOC_MAGIC
  · by_cases hn : maxnr < IOC_NR cmd
    · simp [my_scull_ioctl, ht, hn]
    · cases hacc : u.access_ok
      · by_cases h2 : IOC_DIR cmd / IOC_READ % 2 = 1
        · have hne : IOC_DIR cmd ≠ 0 := by
            unfold IOC_READ at h2
            omega
          simp [my_scull_ioctl, ht, hn, c0, c1, c2, c3, c4, c5, c6, c7, c8, c9, c10, c11, c12,
            hacc, h2, hne, ENOTTY, EFAULT]
        · by_cases h1 : IOC_DIR cmd / IOC_WRITE % 2 = 1
          · have hne : IOC_DIR cmd ≠ 0 := by
              unfold IOC_WRITE at h1
              omega
            simp [my_scull_ioctl, ht, hn, c0, c1, c2, c3, c4, c5, c6, c7, c8, c9, c10, c11, c12,
              hacc, h2, h1, hne, ENOTTY, EFAULT]
          · have h0 : IOC_DIR cmd = 0 := by
              unfold IOC_READ at h2
              unfold IOC_WRITE at h1
              omega
            simp [my_scull_ioctl, ht, hn, c0, c1, c2, c3, c4, c5, c6, c7, c8, c9, c10, c11, c12,
              hacc, h2, h1, h0]
      · simp [my_scull_ioctl, ht, hn, c0, c1, c2, c3, c4, c5, c6, c7, c8, c9, c10, c11, c12,
          hacc]
  · simp [my_scull_ioctl, ht]

/-- An instance of `unknown_command_rejected`: the code `0x6F0D` has the right
magic, a number that is not above the maximum 14 and no case; the call
returns `-ENOTTY` and leaves the globals as they were. -/
theorem unknown_command_rejected_witness :
    (my_scull_ioctl 14 { my_scull_quantum := 4000, my_scull_qset := 1000 } true 28429
        { arg := 0, access_ok := false, value := none, writable := false }).retval = -ENOTTY ∧
    (my_scull_ioctl 14 { my_scull_quantum := 4000, my_scull_qset := 1000 } true 28429
        { arg := 0, access_ok := false, value := none, writable := false }).globals
      = { my_scull_quantum := 4000, my_scull_qset := 1000 } := by
  have h := unknown_command_rejected 14 { my_scull_quantum := 4000, my_scull_qset := 1000 } true
    28429 { arg := 0, access_ok := false, value := none, writable := false } (by decide)
  exact ⟨h.2.2.2.1 (Or.inr (Or.inr (Or.inl (by decide)))), h.1⟩

/-! ## Trimming, and the globals -/

/-- C8. `my_scull_trim` returns 0, leaves the chain empty, the size 0, and
the quantum and qset equal to the globals it is given; every `my_scull_read`
after it, for every offset and count, returns and hands out no byte: the
return value is 0 and the position stays when the semaphore is free. -/
theorem trim_contract (dev : my_scull_dev) (q s : Int) :
    (my_scull_trim q s dev).2 = 0 ∧ (my_scull_trim q s dev).1.data = [] ∧
    (my_scull_trim q s dev).1.size = 0 ∧ (my_scull_trim q s dev).1.quantum = q ∧
    (my_scull_trim q s dev).1.qset = s ∧
    ∀ (m : Kmem) (ucap count : Nat) (f_pos : Int),
      ∃ r, my_scull_read (my_scull_trim q s dev).1 m ucap count f_pos = some r ∧ r.out = [] ∧
        r.dev.data = [] ∧ r.dev.size = 0 ∧
        (0 < dev.sem → r.retval = 0 ∧ r.f_pos = f_pos) := by
  refine ⟨rfl, rfl, rfl, rfl, rfl, ?_⟩
  intro m ucap count f_pos
  by_cases hs : 0 < dev.sem
  · refine ⟨io_out 0 f_pos { data := [], quantum := q, qset := s, size := 0, sem := dev.sem - 1 }
      m, ?_, rfl, rfl, rfl, fun _ => ⟨rfl, rfl⟩⟩
    simp [my_scull_read, my_scull_trim, down_interruptible, hs, read_locked]
  · refine ⟨IoResult.mk (-ERESTARTSYS) f_pos (my_scull_trim q s dev).1 m [], ?_, rfl, rfl, rfl,
      fun h => absurd h hs⟩
    have hne : ¬ (-EINTR = 0) := by decide
    simp [my_scull_read, my_scull_trim, down_interruptible, hs, hne]

/-- C10. `my_scull_ioctl`, for every command, argument and privilege, leaves
every device of the module as it was; and what `my_scull_read` and
`my_scull_write` return and do to a device is the same whatever the two
globals hold: they take quantum and qset from the device. -/
theorem ioctl_leaves_stores (maxnr : Nat) (md : Module) (capable : Bool) (cmd : Nat)
    (u : UserArg) :
    (module_ioctl maxnr md capable cmd u).2.scull_devices = md.scull_devices ∧
    (∀ (g : Globals) (minor : Nat) (m : Kmem) (ucap count : Nat) (f_pos : Int),
      (module_read { md with globals := g } minor m ucap count f_pos).map
          (fun x => (x.1, x.2.scull_devices)) =
        (module_read md minor m ucap count f_pos).map (fun x => (x.1, x.2.scull_devices))) ∧
    (∀ (g : Globals) (minor : Nat) (m : Kmem) (buf : List Byte) (count : Nat) (f_pos : Int),
      (module_write { md with globals := g } minor m buf count f_pos).map
          (fun x => (x.1, x.2.scull_devices)) =
        (module_write md minor m buf count f_pos).map (fun x => (x.1, x.2.scull_devices))) := by
  refine ⟨rfl, ?_, ?_⟩
  · intro g minor m ucap count f_pos
    simp only [module_read]
    cases md.scull_devices[minor]? with
    | none => rfl
    | some dev =>
      simp only [Option.some_bind, Option.map_map]
      rfl
  · intro g minor m buf count f_pos
    simp only [module_write]
    cases md.scull_devices[minor]? with
    | none => rfl
    | some dev =>
      simp only [Option.some_bind, Option.map_map]
      rfl

/-! ## The store: round trip -/

/-- An offset moved forward inside its quantum keeps its set and slot. -/
theorem same_quantum (Q S o i : Nat) (hQ : 0 < Q) (hS : 0 < S)
    (hi : o % (Q * S) % Q + i < Q) :
    (o + i) / (Q * S) = o / (Q * S) ∧ (o + i) % (Q * S) / Q = o % (Q * S) / Q ∧
    (o + i) % (Q * S) % Q = o % (Q * S) % Q + i := by
  have hP : 0 < Q * S := Nat.mul_pos hQ hS
  have h1 := Nat.div_add_mod o (Q * S)
  have h2 := Nat.div_add_mod (o % (Q * S)) Q
  have h3 : o % (Q * S) / Q < S := Nat.div_lt_of_lt_mul (Nat.mod_lt _ hP)
  have h4 : Q * (o % (Q * S) / Q + 1) ≤ Q * S := Nat.mul_le_mul_left Q h3
  rw [Nat.mul_add, Nat.mul_one] at h4
  have hr : o % (Q * S) + i < Q * S := by omega
  have e1 : o + i = Q * S * (o / (Q * S)) + (o % (Q * S) + i) := by omega
  have e2 : o % (Q * S) + i = Q * (o % (Q * S) / Q) + (o % (Q * S) % Q + i) := by omega
  have d1 : (o + i) / (Q * S) = o / (Q * S) := by
    rw [e1, Nat.mul_add_div hP, Nat.div_eq_of_lt hr, Nat.add_zero]
  have m1 : (o + i) % (Q * S) = o % (Q * S) + i := by
    rw [e1, Nat.mul_add_mod, Nat.mod_eq_of_lt hr]
  refine ⟨d1, ?_, ?_⟩
  · rw [m1, e2, Nat.mul_add_div hQ, Nat.div_eq_of_lt hi, Nat.add_zero]
  · rw [m1, e2, Nat.mul_add_mod, Nat.mod_eq_of_lt hi]

/-- Two offsets in the same quantum, the first below the second, have their
byte indices in that order. -/
theorem same_quantum_lt (Q S o k : Nat) (h : o < k) (h1 : o / (Q * S) = k / (Q * S))
    (h2 : o % (Q * S) / Q = k % (Q * S) / Q) : o % (Q * S) % Q < k % (Q * S) % Q := by
  have e1 := offset_split Q S o
  have e2 := offset_split Q S k
  rw [h1, h2] at e1
  omega

/-- One write of the loop: on a store that holds the first `k` bytes of the
data, the write of the rest at offset `k` accepts at least one byte and leaves
a store that holds the bytes up to the new position. -/
theorem write_step_holds (Q S : Nat) (hQ : 0 < Q) (hS : 0 < S)
    (hQS : ((Q * S : Nat) : Int) ≤ INT_MAX) (data : List Byte)
    (hN : ((data.length / (Q * S) : Nat) : Int) ≤ INT_MAX)
    (hL : (data.length : Int) ≤ LONG_MAX)
    (dev : my_scull_dev) (m : Kmem) (k : Nat) (hq : dev.quantum = (Q : Int))
    (hs : dev.qset = (S : Int)) (hsh : shaped dev) (hsem : 0 < dev.sem) (hm : generous m)
    (hsz : dev.size = k) (hold : holds dev Q S data k) (hk : k < data.length) :
    ∃ (r : IoResult) (n : Nat),
      my_scull_write dev m (data.drop k) (data.length - k) (k : Int) = some r ∧
      0 < n ∧ k + n ≤ data.length ∧ r.retval = (n : Int) ∧ r.f_pos = ((k + n : Nat) : Int) ∧
      r.dev.quantum = (Q : Int) ∧ r.dev.qset = (S : Int) ∧ shaped r.dev ∧ 0 < r.dev.sem ∧
      generous r.mem ∧ r.dev.size = k + n ∧ holds r.dev Q S data (k + n) := by
  have hdiv : k / (Q * S) ≤ data.length / (Q * S) := Nat.div_le_div_right (Nat.le_of_lt hk)
  have hitem : ((k / (Q * S) : Nat) : Int) ≤ INT_MAX := by omega
  have hoff : (k : Int) + ((data.length - k : Nat) : Int) ≤ LONG_MAX := by omega
  have hlen : (data.drop k).length = data.length - k := List.length_drop k data
  have hqlt : k % (Q * S) % Q < Q := Nat.mod_lt _ hQ
  obtain ⟨r, hr, hret⟩ := my_scull_write_returns dev m Q S (data.drop k) (data.length - k) k
    hq hs hQ hS hQS hsh hsem hm hitem
  have hok : (0 : Int) ≤ r.retval := by
    rcases hret with ⟨_, hlt⟩ | h
    · omega
    · exact h
  obtain ⟨g1, g2, g3, _, g5, _, hcase⟩ := my_scull_write_sane dev m Q S (data.drop k)
    (data.length - k) k r hq hs hQ hS hQS hsh hsem hitem hoff hr
  clear hoff hitem hN hL hQS
  have enomem : ¬ ((0 : Int) ≤ -ENOMEM) := by decide
  have efault : ¬ ((0 : Int) ≤ -EFAULT) := by decide
  rcases hcase with ⟨e, _⟩ | ⟨old, src, hgr, holdlen, hwas, hsrc, hblocks, hres⟩
  · rw [e] at hok
    exact absurd hok enomem
  rcases hres with ⟨_, e, _⟩ | ⟨_, hsrc2, hrv, hfp, hsize⟩
  · rw [e] at hok
    exact absurd hok efault
  have hnpos : 0 < min (data.length - k) (Q - k % (Q * S) % Q) := by
    rw [Nat.lt_min]
    omega
  have hnle : min (data.length - k) (Q - k % (Q * S) % Q) ≤ data.length - k := Nat.min_le_left _ _
  have hnq : min (data.length - k) (Q - k % (Q * S) % Q) ≤ Q - k % (Q * S) % Q :=
    Nat.min_le_right _ _
  generalize min (data.length - k) (Q - k % (Q * S) % Q) = n at *
  refine ⟨r, n, hr, hnpos, by omega, hrv, hfp, by rw [g1, hq], by rw [g2, hs], g5,
    by rw [g3]; exact hsem, granted_generous hgr hm, by rw [hsize, hsz]; omega, ?_⟩
  intro o ho
  have hfit : k % (Q * S) % Q + src.length ≤ old.length := by omega
  by_cases hlt : o < k
  · obtain ⟨blk, hb, hbyte⟩ := hold o hlt
    by_cases hsame : o / (Q * S) = k / (Q * S) ∧ o % (Q * S) / Q = k % (Q * S) / Q
    · have hq2 := same_quantum_lt Q S o k hlt hsame.1 hsame.2
      rw [hsame.1, hsame.2] at hb
      have hob : old = blk := by
        rcases hwas with h | h
        · rw [h] at hb
          exact Option.some.inj hb
        · rw [h] at hb
          cases hb
      refine ⟨overwrite old (k % (Q * S) % Q) src, ?_, ?_⟩
      · rw [hblocks, if_pos hsame]
      · rw [overwrite_getElem? old _ src hfit, if_neg (by omega), hob]
        exact hbyte
    · refine ⟨blk, ?_, hbyte⟩
      rw [hblocks, if_neg hsame]
      exact hb
  · obtain ⟨d1, d2, d3⟩ := same_quantum Q S k (o - k) hQ hS (by omega)
    have eo : k + (o - k) = o := by omega
    rw [eo] at d1 d2 d3
    refine ⟨overwrite old (k % (Q * S) % Q) src, ?_, ?_⟩
    · rw [hblocks, if_pos ⟨d1, d2⟩]
    · rw [overwrite_getElem? old _ src hfit, if_pos (by omega), d3, hsrc2,
        Nat.add_sub_cancel_left, List.getElem?_take, if_pos (by omega), List.getElem?_drop, eo]

/-- One read of the loop: on a store of size `N` that holds the `N` bytes of
the data, the read of what is left at offset `o` returns at least one byte,
the bytes of the data from `o` on, and leaves the store as it was. -/
theorem read_step_holds (Q S : Nat) (hQ : 0 < Q) (hS : 0 < S)
    (hQS : ((Q * S : Nat) : Int) ≤ INT_MAX) (data : List Byte)
    (hN : ((data.length / (Q * S) : Nat) : Int) ≤ INT_MAX)
    (hL : (data.length : Int) ≤ LONG_MAX)
    (dev : my_scull_dev) (m : Kmem) (o : Nat) (hq : dev.quantum = (Q : Int))
    (hs : dev.qset = (S : Int)) (hsh : shaped dev) (hsem : 0 < dev.sem)
    (hsz : dev.size = data.length) (hold : holds dev Q S data data.length)
    (ho : o < data.length) :
    ∃ (r : IoResult) (n : Nat),
      my_scull_read dev m (data.length - o) (data.length - o) (o : Int) = some r ∧
      0 < n ∧ o + n ≤ data.length ∧ r.retval = (n : Int) ∧ r.f_pos = ((o + n : Nat) : Int) ∧
      r.dev = dev ∧ r.mem = m ∧ r.out = (data.drop o).take n := by
  have hdiv : o / (Q * S) ≤ data.length / (Q * S) := Nat.div_le_div_right (Nat.le_of_lt ho)
  have hitem : ((o / (Q * S) : Nat) : Int) ≤ INT_MAX := by omega
  have hoff : (o : Int) + ((data.length - o : Nat) : Int) ≤ LONG_MAX := by omega
  have hqlt : o % (Q * S) % Q < Q := Nat.mod_lt _ hQ
  obtain ⟨blk, hb, _⟩ := hold o ho
  obtain ⟨r, hr, _, hv, hcov⟩ := my_scull_read_sane dev m Q S (data.length - o)
    (data.length - o) o hq hs hQ hS hQS hsh hsem hitem hoff
  clear hoff hitem hN hL hQS
  obtain ⟨hd, hmem⟩ := hcov (Or.inr (block_at_some_lt hb))
  rw [read_view_sane dev Q S _ _ o hq hs, if_neg (by omega), hb] at hv
  simp only [] at hv
  have hnpos : 0 < min (min (data.length - o) (dev.size - o)) (Q - o % (Q * S) % Q) := by
    rw [Nat.lt_min, Nat.lt_min]
    omega
  have hnle : min (min (data.length - o) (dev.size - o)) (Q - o % (Q * S) % Q)
      ≤ data.length - o := le_trans (Nat.min_le_left _ _) (Nat.min_le_left _ _)
  have hnq : min (min (data.length - o) (dev.size - o)) (Q - o % (Q * S) % Q)
      ≤ Q - o % (Q * S) % Q := Nat.min_le_right _ _
  generalize min (min (data.length - o) (dev.size - o)) (Q - o % (Q * S) % Q) = n at *
  rw [if_neg (by omega)] at hv
  simp only [Prod.mk.injEq] at hv
  obtain ⟨v1, v2, v3⟩ := hv
  refine ⟨r, n, hr, hnpos, by omega, v1, v2, hd, hmem, ?_⟩
  rw [v3]
  apply List.ext_getElem?
  intro i
  rw [drop_take_getElem?, drop_take_getElem?]
  by_cases hi : i < n
  · rw [if_pos hi, if_pos hi]
    obtain ⟨d1, d2, d3⟩ := same_quantum Q S o i hQ hS (by omega)
    obtain ⟨blk2, hb2, hbyte2⟩ := hold (o + i) (by omega)
    rw [d1, d2, hb] at hb2
    rw [d3, ← Option.some.inj hb2] at hbyte2
    exact hbyte2
  · rw [if_neg hi, if_neg hi]

/-- The write loop on a store that holds the first `k` bytes: with enough
fuel it ends with all bytes accepted, at position `N`, on a store of size `N`
that holds them all. -/
theorem write_all_holds (Q S : Nat) (hQ : 0 < Q) (hS : 0 < S)
    (hQS : ((Q * S : Nat) : Int) ≤ INT_MAX) (data : List Byte)
    (hN : ((data.length / (Q * S) : Nat) : Int) ≤ INT_MAX)
    (hL : (data.length : Int) ≤ LONG_MAX) (fuel : Nat) :
    ∀ (dev : my_scull_dev) (m : Kmem) (k : Nat), dev.quantum = (Q : Int) →
      dev.qset = (S : Int) → shaped dev → 0 < dev.sem → generous m → dev.size = k →
      holds dev Q S data k → k ≤ data.length → data.length - k ≤ fuel →
      ∃ dev1 m1, write_all fuel dev m (k : Int) (data.drop k)
          = some (dev1, m1, (data.length : Int)) ∧
        dev1.quantum = (Q : Int) ∧ dev1.qset = (S : Int) ∧ shaped dev1 ∧ 0 < dev1.sem ∧
        dev1.size = data.length ∧ holds dev1 Q S data data.length := by
  induction fuel with
  | zero =>
    intro dev m k hq hs hsh hsem _ hsz hold hk hf
    have e : k = data.length := by omega
    subst e
    refine ⟨dev, m, ?_, hq, hs, hsh, hsem, hsz, hold⟩
    simp [write_all]
  | succ f ih =>
    intro dev m k hq hs hsh hsem hm hsz hold hk hf
    by_cases e : k = data.length
    · subst e
      refine ⟨dev, m, ?_, hq, hs, hsh, hsem, hsz, hold⟩
      simp [write_all]
    · obtain ⟨r, n, hr, hn0, hn1, hrv, hfp, g1, g2, g3, g4, g5, g6, g7⟩ :=
        write_step_holds Q S hQ hS hQS data hN hL dev m k hq hs hsh hsem hm hsz hold (by omega)
      obtain ⟨dev1, m1, hw, rest⟩ := ih r.dev r.mem (k + n) g1 g2 g3 g4 g5 g6 g7 hn1 (by omega)
      refine ⟨dev1, m1, ?_, rest⟩
      have hlen : (data.drop k).length = data.length - k := List.length_drop k data
      have hne : ¬ ((data.drop k).length = 0) := by omega
      have hpos : ¬ (r.retval ≤ 0) := by omega
      have hdrop : (data.drop k).drop r.retval.toNat = data.drop (k + n) := by
        rw [hrv, Int.toNat_natCast, List.drop_drop, Nat.add_comm]
      rw [write_all, if_neg hne, hlen, hr]
      simp only
      rw [if_neg hpos, hdrop, hfp]
      exact hw

/-- The read loop on a store of size `N` that holds the `N` bytes of the
data: with enough fuel it returns the bytes of the data from the position
on. -/
theorem read_all_holds (Q S : Nat) (hQ : 0 < Q) (hS : 0 < S)
    (hQS : ((Q * S : Nat) : Int) ≤ INT_MAX) (data : List Byte)
    (hN : ((data.length / (Q * S) : Nat) : Int) ≤ INT_MAX)
    (hL : (data.length : Int) ≤ LONG_MAX)
    (dev : my_scull_dev) (m : Kmem) (hq : dev.quantum = (Q : Int))
    (hs : dev.qset = (S : Int)) (hsh : shaped dev) (hsem : 0 < dev.sem)
    (hsz : dev.size = data.length) (hold : holds dev Q S data data.length) (fuel : Nat) :
    ∀ o : Nat, o ≤ data.length → data.length - o ≤ fuel →
      read_all fuel dev m (o : Int) (data.length - o) = some (data.drop o) := by
  induction fuel with
  | zero =>
    intro o ho hf
    have e : o = data.length := by omega
    subst e
    simp [read_all]
  | succ f ih =>
    intro o ho hf
    by_cases e : o = data.length
    · subst e
      simp [read_all]
    · obtain ⟨r, n, hr, hn0, hn1, hrv, hfp, hd, hmem, hout⟩ :=
        read_step_holds Q S hQ hS hQS data hN hL dev m o hq hs hsh hsem hsz hold (by omega)
      have hne : ¬ (data.length - o = 0) := by omega
      have hpos : ¬ (r.retval ≤ 0) := by omega
      have hrest : data.length - o - r.retval.toNat = data.length - (o + n) := by
        rw [hrv, Int.toNat_natCast]
        omega
      have hnext := ih (o + n) hn1 (by omega)
      rw [read_all, if_neg hne, hr]
      simp only
      rw [if_neg hpos, hrest, hd, hmem, hfp, hnext, Option.map_some', hout]
      congr 1
      have hd2 : data.drop (o + n) = (data.drop o).drop n := by
        rw [List.drop_drop, Nat.add_comm]
      rw [hd2]
      exact List.take_append_drop n (data.drop o)

/-- A length whose set number and whose `Q * S` fit an `int` fits a `long`. -/
theorem length_fits_long (Q S N : Nat) (hQS : ((Q * S : Nat) : Int) ≤ INT_MAX)
    (hN : ((N / (Q * S) : Nat) : Int) ≤ INT_MAX) (hP : 0 < Q * S) : (N : Int) ≤ LONG_MAX := by
  unfold INT_MAX at hQS hN
  unfold LONG_MAX
  have h1 := Nat.div_add_mod N (Q * S)
  have h2 : N % (Q * S) < Q * S := Nat.mod_lt _ hP
  have h3 : Q * S * (N / (Q * S)) ≤ 2147483647 * 2147483647 :=
    Nat.mul_le_mul (by omega) (by omega)
  generalize Q * S * (N / (Q * S)) = A at *
  omega

/-- C1, as stated, fails: with `Q = S = 65536` the product `Q * S`, computed
in `int`, is 0, and the first `my_scull_write` on the empty store divides by
it: the call does not return, and the loop accepts no byte. -/
theorem round_trip_overflow :
    int_mul 65536 65536 = 0 ∧
    my_scull_write (empty_dev 65536 65536) okmem [1] 1 0 = none ∧
    write_all 1 (empty_dev 65536 65536) okmem 0 [1] = none :=
  ⟨by decide, rfl, rfl⟩

/-- C1 (amended). Store round trip: for every `Q > 0` and `S > 0` with `Q * S`
within `int`, and every byte sequence of length `N` whose set number
`N / (Q * S)` is within `int`, starting from the empty store and with an
allocator that grants every request, calling `my_scull_write` at the advancing
offset from 0 until all `N` bytes are accepted ends after at most `N` calls at
offset `N`, and calling `my_scull_read` on the store it leaves at the
advancing offset from 0 until `N` bytes are returned ends after at most `N`
calls and yields exactly the `N` bytes. -/
theorem store_round_trip (Q S : Nat) (hQ : 0 < Q) (hS : 0 < S)
    (hQS : ((Q * S : Nat) : Int) ≤ INT_MAX) (data : List Byte)
    (hN : ((data.length / (Q * S) : Nat) : Int) ≤ INT_MAX) (m : Kmem) (hm : generous m)
    (fuel : Nat) (hf : data.length ≤ fuel) :
    ∃ dev1 m1,
      write_all fuel (empty_dev (Q : Int) (S : Int)) m 0 data
        = some (dev1, m1, (data.length : Int)) ∧
      dev1.size = data.length ∧
      read_all fuel dev1 m1 0 data.length = some data := by
  have hL := length_fits_long Q S data.length hQS hN (Nat.mul_pos hQ hS)
  have hsh : shaped (empty_dev (Q : Int) (S : Int)) := by
    intro i node arr hn
    simp [empty_dev] at hn
  have hold0 : holds (empty_dev (Q : Int) (S : Int)) Q S data 0 := by
    intro o ho
    omega
  obtain ⟨dev1, m1, hw, g1, g2, g3, g4, g5, g6⟩ :=
    write_all_holds Q S hQ hS hQS data hN hL fuel (empty_dev (Q : Int) (S : Int)) m 0 rfl rfl
      hsh Nat.one_pos hm rfl hold0 (Nat.zero_le _) (by omega)
  have hr := read_all_holds Q S hQ hS hQS data hN hL dev1 m1 g1 g2 g3 g4 g5 g6 fuel 0
    (Nat.zero_le _) (by omega)
  exact ⟨dev1, m1, hw, g5, hr⟩

/-- Witness of C1: nine bytes written to and read back from a store with
`Q = 2` and `S = 2`, so that they span five quanta and three quantum sets. -/
theorem store_round_trip_witness :
    ∃ dev1 m1,
      write_all 9 (empty_dev ((2 : Nat) : Int) ((2 : Nat) : Int)) okmem 0
          [1, 2, 3, 4, 5, 6, 7, 8, 9]
        = some (dev1, m1, (([1, 2, 3, 4, 5, 6, 7, 8, 9] : List Byte).length : Int)) ∧
      dev1.size = ([1, 2, 3, 4, 5, 6, 7, 8, 9] : List Byte).length ∧
      read_all 9 dev1 m1 0 ([1, 2, 3, 4, 5, 6, 7, 8, 9] : List Byte).length
        = some [1, 2, 3, 4, 5, 6, 7, 8, 9] :=
  store_round_trip 2 2 (by decide) (by decide) (by decide) [1, 2, 3, 4, 5, 6, 7, 8, 9]
    (by decide) okmem (fun _ => rfl) 9 (Nat.le_refl 9)

end MyScull
